import Mathlib

/-!
Verification of the Synthetic-WF workflow engine
(src/synthetic_wf_engine.py) against its specification.

The Python source is shallowly embedded: dictionaries become insertion-ordered
association lists, object mutation becomes explicit state passing, the
unbounded recursions / loops of the source (cycle detection, level
computation, the skip cascade, the sequential execution loop) become
fuel-indexed functions together with theorems that the chosen fuel is
sufficient, and the external command executor becomes an oracle
`String → Nat → Bool` giving the success of each dispatch attempt of a step.
-/

namespace SynthWF

/-! ## Python string primitives

The condition evaluator uses `str.replace`, `str.split()`, `str.strip`,
`str.startswith`, `str.lower` and `int(...)`.  These are re-implemented here
over `List Char` so that everything evaluates inside the kernel. -/

/-- Whitespace recognised by Python's `str.split()` (the ASCII part, which is
all that can appear in workflow conditions). -/
def pySpace (c : Char) : Bool :=
  c = ' ' ∨ c = '\t' ∨ c = '\n' ∨ c = '\r' ∨ c = '\x0b' ∨ c = '\x0c'

/-- `condition.replace("==", " == ")`: leftmost, non-overlapping. -/
def padEq : List Char → List Char
  | '=' :: '=' :: rest => ' ' :: '=' :: '=' :: ' ' :: padEq rest
  | c :: rest => c :: padEq rest
  | [] => []

/-- Helper of `pywords`: `cur` is the (reversed) word being accumulated. -/
def pywordsAux : List Char → List Char → List (List Char)
  | [], cur => if cur = [] then [] else [cur.reverse]
  | c :: rest, cur =>
    if pySpace c then
      if cur = [] then pywordsAux rest [] else cur.reverse :: pywordsAux rest []
    else pywordsAux rest (c :: cur)

/-- Python `str.split()` with no argument: split on whitespace runs,
discarding empty tokens. -/
def pywords (s : List Char) : List (List Char) := pywordsAux s []

/-- Python `str.strip(chars)`: remove leading and trailing characters drawn
from `chars`. -/
def pystrip (chars : List Char) (s : List Char) : List Char :=
  ((s.dropWhile (· ∈ chars)).reverse.dropWhile (· ∈ chars)).reverse

/-- Python `str.lower()` on ASCII (statuses and literals are ASCII). -/
def pyLowerChar (c : Char) : Char :=
  if 'A' ≤ c ∧ c ≤ 'Z' then Char.ofNat (c.toNat + 32) else c

def pyLower (s : List Char) : List Char := s.map pyLowerChar

/-- Python `str.split(sep)` with a one-character separator (used as
`failure_strategy.split(":")`). -/
def splitChar (sep : Char) : List Char → List (List Char)
  | [] => [[]]
  | c :: rest =>
    let r := splitChar sep rest
    if c = sep then [] :: r
    else match r with
      | [] => [[c]]
      | w :: ws => (c :: w) :: ws

/-- Python `int(s)` on a string of decimal digits; `none` where Python would
raise `ValueError` (that case aborts the Python run and is not exercised by
any claim). -/
def pyint? (s : List Char) : Option Nat :=
  if s = [] then none
  else if s.all (fun c => c.isDigit) then
    some (s.foldl (fun n c => 10 * n + (c.toNat - '0'.toNat)) 0)
  else none

/-! ## Association lists (Python `dict` with insertion order) -/

/-- `d[k]`, or `none` when absent. -/
def alookup {α : Type} : List (String × α) → String → Option α
  | [], _ => none
  | (k, v) :: r, key => if k = key then some v else alookup r key

/-- Modify the value at an existing key in place; identity when absent. -/
def amodify {α : Type} (f : α → α) : List (String × α) → String → List (String × α)
  | [], _ => []
  | (k, v) :: r, key => if k = key then (k, f v) :: r else (k, v) :: amodify f r key

/-- `d[k] = v`: replace in place when present (Python dicts keep the original
insertion position), append otherwise. -/
def ainsert {α : Type} (l : List (String × α)) (key : String) (v : α) : List (String × α) :=
  if (alookup l key).isSome then amodify (fun _ => v) l key else l ++ [(key, v)]

def akeys {α : Type} (l : List (String × α)) : List String := l.map Prod.fst

theorem alookup_isSome_iff {α : Type} (l : List (String × α)) (key : String) :
    (alookup l key).isSome ↔ key ∈ akeys l := by
  induction l with
  | nil => simp [alookup, akeys]
  | cons p r ih =>
    obtain ⟨k, v⟩ := p
    by_cases h : k = key
    · simp [alookup, akeys, h]
    · simp [alookup, akeys, h, ih]
      exact fun a => (h a.symm).elim

theorem alookup_eq_none_iff {α : Type} (l : List (String × α)) (key : String) :
    alookup l key = none ↔ key ∉ akeys l := by
  rw [← alookup_isSome_iff]
  cases alookup l key <;> simp

theorem akeys_amodify {α : Type} (f : α → α) (l : List (String × α)) (key : String) :
    akeys (amodify f l key) = akeys l := by
  induction l with
  | nil => rfl
  | cons p r ih =>
    obtain ⟨k, v⟩ := p
    by_cases h : k = key
    · simp [amodify, akeys, h]
    · simp only [amodify, akeys, if_neg h, List.map_cons]
      simpa [akeys] using ih

theorem alookup_amodify_self {α : Type} (f : α → α) (l : List (String × α)) (key : String) :
    alookup (amodify f l key) key = (alookup l key).map f := by
  induction l with
  | nil => rfl
  | cons p r ih =>
    obtain ⟨k, v⟩ := p
    by_cases h : k = key <;> simp [amodify, alookup, h, ih]

theorem alookup_amodify_ne {α : Type} (f : α → α) (l : List (String × α)) (key k2 : String)
    (h : k2 ≠ key) : alookup (amodify f l key) k2 = alookup l k2 := by
  induction l with
  | nil => rfl
  | cons p r ih =>
    obtain ⟨k, v⟩ := p
    by_cases hk : k = key
    · have hk2 : ¬ k = k2 := fun hh => h (by rw [← hh, hk])
      simp only [amodify, alookup, if_pos hk, if_neg hk2]
    · simp only [amodify, alookup, if_neg hk]
      by_cases hk2 : k = k2
      · simp only [if_pos hk2]
      · simp only [if_neg hk2, ih]

theorem alookup_append {α : Type} (l₁ l₂ : List (String × α)) (key : String) :
    alookup (l₁ ++ l₂) key =
      (alookup l₁ key).elim (alookup l₂ key) some := by
  induction l₁ with
  | nil => simp [alookup]
  | cons p r ih =>
    obtain ⟨k, v⟩ := p
    by_cases h : k = key <;> simp [alookup, h, ih]

theorem alookup_ainsert_self {α : Type} (l : List (String × α)) (key : String) (v : α) :
    alookup (ainsert l key v) key = some v := by
  unfold ainsert
  by_cases h : (alookup l key).isSome
  · simp only [h, if_true, alookup_amodify_self]
    obtain ⟨w, hw⟩ := Option.isSome_iff_exists.mp h
    simp [hw]
  · rw [Option.not_isSome_iff_eq_none] at h
    simp only [h, Option.isSome_none, Bool.false_eq_true, if_false, alookup_append, h]
    simp [alookup]

theorem alookup_ainsert_ne {α : Type} (l : List (String × α)) (key k2 : String) (v : α)
    (h : k2 ≠ key) : alookup (ainsert l key v) k2 = alookup l k2 := by
  unfold ainsert
  by_cases hs : (alookup l key).isSome
  · simp [hs, alookup_amodify_ne _ _ _ _ h]
  · simp only [hs, Bool.false_eq_true, if_false]
    rw [alookup_append]
    cases hl : alookup l k2 with
    | some w => rfl
    | none => simp [alookup, show ¬ key = k2 from fun hh => h hh.symm]

/-! ## Data model (`Step`, `Workflow`) -/

/-- The six statuses of `Step.status` (stored as strings in the source). -/
inductive Status : Type
  | pending | ready | running | success | failed | skipped
deriving DecidableEq, Repr

/-- The textual form of a status, as stored in the Python `status` field and
read by the condition evaluator. -/
def Status.text : Status → String
  | .pending => "PENDING"
  | .ready => "READY"
  | .running => "RUNNING"
  | .success => "SUCCESS"
  | .failed => "FAILED"
  | .skipped => "SKIPPED"

/-- `Step.__init__`: a step as constructed, with its mutable `status` and
`retry_count` fields embedded as record fields. -/
structure Step : Type where
  id : String
  command : String
  dependencies : List String := []
  condition : Option String := none
  failure_strategy : Option String := none
  parallel_with : List String := []
  status : Status := .pending
  retry_count : Nat := 0
deriving DecidableEq, Repr

/-- `Workflow`: `steps` and `inverse_dependencies` are insertion-ordered
dictionaries keyed by step id. -/
structure Workflow : Type where
  name : String
  steps : List (String × Step) := []
  inverse_dependencies : List (String × List String) := []
deriving DecidableEq, Repr

/-- `Workflow.add_step`: unconditionally stores the step under its id and
resets its reverse-dependency list (no presence check in the source). -/
def Workflow.add_step (wf : Workflow) (step : Step) : Workflow :=
  { wf with
    steps := ainsert wf.steps step.id step
    inverse_dependencies := ainsert wf.inverse_dependencies step.id [] }

/-- `Workflow.add_dependency`: records the edge only when both endpoints
exist. -/
def Workflow.add_dependency (wf : Workflow) (dependent_id dependency_id : String) : Workflow :=
  if dependent_id ∈ akeys wf.steps ∧ dependency_id ∈ akeys wf.steps then
    { wf with
      steps := amodify
        (fun s => { s with dependencies := s.dependencies ++ [dependency_id] }) wf.steps dependent_id
      inverse_dependencies := amodify
        (fun l => l ++ [dependent_id]) wf.inverse_dependencies dependency_id }
  else wf

/-! ## Condition evaluator (`WorkflowEngine._evaluate_condition`) -/

/-- The characters stripped from the literal: `parts[2].strip("'\x22")`. -/
def quoteChars : List Char := ['\'', '"']

/-- `WorkflowEngine._evaluate_condition`.  `none` stands for a `None`
condition; a present but empty string is also falsy in Python, so both yield
`true` immediately. -/
def evalCond (wf : Workflow) : Option String → Bool
  | none => true
  | some c =>
    if c.data = [] then true
    else
      match pywords (padEq c.data) with
      | var_name :: _op :: third :: _rest =>
        let expected_value := pystrip quoteChars third
        if "status_".data.isPrefixOf var_name || "result_".data.isPrefixOf var_name then
          -- `var_name.split("_", 1)[1]`: both prefixes have their first
          -- underscore at index 6, so this is everything after index 6.
          let step_id : String := ⟨var_name.drop 7⟩
          match alookup wf.steps step_id with
          | some stp =>
            decide (pyLower (Status.text stp.status).data = pyLower expected_value)
          | none => true
        else true
      | _ => true

/-- The evaluator is permissive on references to nonexistent steps: a
syntactically well-formed reference whose step id is not in the graph
falls through to `return True`. -/
theorem evalCond_unknown_id (wf : Workflow) (c : String) (v op w : List Char)
    (rest : List (List Char))
    (htok : pywords (padEq c.data) = v :: op :: w :: rest)
    (hpre : ("status_".data.isPrefixOf v || "result_".data.isPrefixOf v) = true)
    (hmiss : alookup wf.steps ⟨v.drop 7⟩ = none) :
    evalCond wf (some c) = true := by
  have hnil : ¬ c.data = [] := by
    intro h
    rw [h] at htok
    simp [padEq, pywords, pywordsAux] at htok
  simp only [evalCond]
  rw [if_neg hnil, htok]
  simp only [hpre, if_true, hmiss]

/-! ### Claim C4 -/

/-- A one-step workflow whose step `a` is `PENDING`, used as concrete input
for evaluator counterexamples. -/
def wfCond : Workflow :=
  { name := "w"
    steps := [("a", { id := "a", command := "c" })]
    inverse_dependencies := [("a", [])] }

/-- C4, counterexample: the expression `status_a != 'SUCCESS'` does not parse
into the two-operand equality form `<reference> == <literal>` (its operator
token is `!=`), so by the claim it should evaluate to true; the evaluator
nevertheless performs the comparison (ignoring the operator token) and
returns false, since step `a` has status `PENDING`, not `SUCCESS`. -/
theorem C4_counterexample :
    evalCond wfCond (some "status_a != 'SUCCESS'") = false ∧
    pywords (padEq ("status_a != 'SUCCESS'").data) =
      ["status_a".data, "!=".data, "'SUCCESS'".data] := by
  constructor
  · rfl
  · rfl

/-- C4 (amended): after padding `==` with spaces and splitting on whitespace,
an expression with at least three tokens whose first token starts with
`status_` or `result_` and references an existing step evaluates to the
case-insensitive equality of that step's status name with the third token
(quotes stripped), with the second (operator) token ignored; an expression
with fewer than three tokens, or whose first token lacks the prefixes, or
whose referenced step id does not exist, evaluates to true. -/
theorem C4_evalCond_characterization (wf : Workflow) (c : String)
    (hnil : c.data ≠ []) :
    (∀ v op w rest, pywords (padEq c.data) = v :: op :: w :: rest →
      ("status_".data.isPrefixOf v || "result_".data.isPrefixOf v) = true →
      ∀ stp, alookup wf.steps ⟨v.drop 7⟩ = some stp →
      evalCond wf (some c) =
        decide (pyLower (Status.text stp.status).data = pyLower (pystrip quoteChars w))) ∧
    (∀ v op w rest, pywords (padEq c.data) = v :: op :: w :: rest →
      ("status_".data.isPrefixOf v || "result_".data.isPrefixOf v) = false →
      evalCond wf (some c) = true) ∧
    ((pywords (padEq c.data)).length < 3 → evalCond wf (some c) = true) := by
  refine ⟨?_, ?_, ?_⟩
  · intro v op w rest htok hpre stp hstp
    simp only [evalCond]
    rw [if_neg hnil, htok]
    simp only [hpre, if_true, hstp]
  · intro v op w rest htok hpre
    simp only [evalCond]
    rw [if_neg hnil, htok]
    simp only [hpre, Bool.false_eq_true, if_false]
  · intro hlen
    simp only [evalCond]
    rw [if_neg hnil]
    match htok : pywords (padEq c.data) with
    | [] => rfl
    | [_] => rfl
    | [_, _] => rfl
    | v :: op :: w :: rest =>
      rw [htok] at hlen
      simp only [List.length_cons] at hlen
      omega

/-- Closed witness for the amended C4 theorem, at the well-formed expression
`status_a == 'pending'` over `wfCond` (status `PENDING`, comparison true). -/
theorem C4_witness :
    ("status_a == 'pending'".data ≠ ([] : List Char)) ∧
    evalCond wfCond (some "status_a == 'pending'") = true :=
  ⟨by decide,
   by
    have h := (C4_evalCond_characterization wfCond "status_a == 'pending'" (by decide)).1
      "status_a".data "==".data "'pending'".data [] (by rfl) (by rfl)
      { id := "a", command := "c" } (by rfl)
    rw [h]; rfl⟩

/-! ### Claim C9 -/

def stepA1 : Step := { id := "a", command := "c1" }

def stepA2 : Step := { id := "a", command := "c2" }

def wfC9 : Workflow := (Workflow.mk "w" [] []).add_step stepA1

/-- C9, counterexample: adding a step whose id `a` is already present does
not fail; the stored step for `a` is replaced (its command changes from `c1`
to `c2`). -/
theorem C9_counterexample :
    alookup ((wfC9.add_step stepA2).steps) "a" = some stepA2 ∧
    alookup wfC9.steps "a" = some stepA1 ∧ stepA2 ≠ stepA1 := by
  refine ⟨?_, ?_, ?_⟩ <;> decide

/-- C9 (amended): adding a step whose id is already present succeeds and
replaces the existing step in place (also resetting its reverse-dependency
list to empty); entries under other ids are unchanged. -/
theorem C9_add_step_replaces (wf : Workflow) (s : Step) :
    alookup (wf.add_step s).steps s.id = some s ∧
    alookup (wf.add_step s).inverse_dependencies s.id = some [] ∧
    (∀ k, k ≠ s.id → alookup (wf.add_step s).steps k = alookup wf.steps k) := by
  refine ⟨?_, ?_, ?_⟩
  · exact alookup_ainsert_self _ _ _
  · exact alookup_ainsert_self _ _ _
  · intro k hk
    exact alookup_ainsert_ne _ _ _ _ hk

/-- Closed witness for the amended C9 theorem at `wfC9` and `stepA2`. -/
theorem C9_witness :
    alookup ((wfC9.add_step stepA2).steps) "a" = some stepA2 ∧
    alookup ((wfC9.add_step stepA2).inverse_dependencies) "a" = some [] ∧
    alookup ((wfC9.add_step stepA2).steps) "b" = alookup wfC9.steps "b" :=
  ⟨(C9_add_step_replaces wfC9 stepA2).1, (C9_add_step_replaces wfC9 stepA2).2.1,
   (C9_add_step_replaces wfC9 stepA2).2.2 "b" (by decide)⟩

/-! ## Validator (`validate_workflow`)

The Python `has_cycle` is a recursive DFS with the shared mutable sets
`temp_visited` (the current path) and `visited`.  It is embedded with
explicit `temp`/`visited` arguments and a fuel bound on the recursion depth;
`none` means "cycle found" (`has_cycle` returning `True`), `some v` returns
the grown visited set.  On a clean `False` return the Python code restores
`temp_visited`, which the embedding reflects by never returning `temp`. -/

/-- `x` depends directly on `y` (the relation the DFS of `has_cycle` and the
level computation follow). -/
def depEdge (wf : Workflow) (x y : String) : Prop :=
  ∃ s, alookup wf.steps x = some s ∧ y ∈ s.dependencies

/-- Dependency reachability (reflexive-transitive). -/
def Reach (wf : Workflow) : String → String → Prop :=
  Relation.ReflTransGen (depEdge wf)

/-- `m` lies on a dependency cycle. -/
def OnCycle (wf : Workflow) (m : String) : Prop :=
  Relation.TransGen (depEdge wf) m m

/-- Some cycle is reachable from `x` through dependencies. -/
def CycReach (wf : Workflow) (x : String) : Prop :=
  ∃ m, Reach wf x m ∧ OnCycle wf m

/-- The graph has no dependency cycle. -/
def Acyclic (wf : Workflow) : Prop := ∀ m, ¬ OnCycle wf m

/-- Every dependency id of every stored step exists in the graph.  Graphs
built through `add_step`/`add_dependency` satisfy this; without it the
Python `has_cycle` raises `KeyError`. -/
def WFdeps (wf : Workflow) : Prop :=
  ∀ k s, alookup wf.steps k = some s → ∀ d ∈ s.dependencies, d ∈ akeys wf.steps

/-- Decidable version of `WFdeps` for concrete workflows. -/
def WFdepsB (wf : Workflow) : Bool :=
  wf.steps.all (fun p => p.2.dependencies.all (fun d => decide (d ∈ akeys wf.steps)))

theorem alookup_mem {α : Type} {l : List (String × α)} {k : String} {v : α}
    (h : alookup l k = some v) : (k, v) ∈ l := by
  induction l with
  | nil => exact absurd h (by simp [alookup])
  | cons p r ih =>
    obtain ⟨k2, v2⟩ := p
    by_cases hk : k2 = k
    · rw [alookup, if_pos hk] at h
      subst hk
      cases h
      exact List.mem_cons_self _ _
    · rw [alookup, if_neg hk] at h
      exact List.mem_cons_of_mem _ (ih h)

theorem WFdeps_of_B {wf : Workflow} (h : WFdepsB wf = true) : WFdeps wf := by
  intro k s hks d hd
  have hmem := alookup_mem hks
  have := List.all_eq_true.mp h _ hmem
  have := List.all_eq_true.mp this d hd
  exact of_decide_eq_true this

/-- The loop over a step's dependency list inside `has_cycle`, with the
recursive call abstracted; `none` (cycle) short-circuits, `some` threads the
grown visited set into the next dependency. -/
def hasCycleDeps (f : String → List String → Option (List String)) :
    List String → List String → Option (List String)
  | [], visited => some visited
  | d :: ds, visited =>
    match f d visited with
    | none => none
    | some v2 => hasCycleDeps f ds v2

/-- `has_cycle(step_id)`: `temp` is `temp_visited` (the current DFS path),
`visited` the completed set.  Fuel bounds the recursion depth; the `0` case
is unreachable for the fuel chosen in `validate_workflow` (see
`hasCycleDFS_some`).  A missing step id (Python `KeyError`) returns the
visited set unchanged; this happens only for graphs violating `WFdeps`. -/
def hasCycleDFS (wf : Workflow) : Nat → List String → List String → String → Option (List String)
  | 0, _, visited, _ => some visited
  | fuel + 1, temp, visited, id =>
    if id ∈ temp then none
    else if id ∈ visited then some visited
    else
      match alookup wf.steps id with
      | none => some visited
      | some s =>
        match hasCycleDeps (fun d v => hasCycleDFS wf fuel (id :: temp) v d)
            s.dependencies visited with
        | none => none
        | some v2 => some (id :: v2)

/-- The `for step_id in workflow.steps` loop of `validate_workflow`,
threading the shared `visited` set; the first cycle raises
`ValueError(...step_id)`, embedded as `.error step_id`. -/
def validateAux (wf : Workflow) (fuel : Nat) : List String → List String → Except String Bool
  | _, [] => .ok true
  | visited, id :: ids =>
    match hasCycleDFS wf fuel [] visited id with
    | none => .error id
    | some v2 => validateAux wf fuel v2 ids

/-- `validate_workflow`: DFS from every step (graphs may be disconnected).
The fuel `|steps| + 1` strictly exceeds any possible DFS path depth. -/
def validate_workflow (wf : Workflow) : Except String Bool :=
  validateAux wf (wf.steps.length + 1) [] (akeys wf.steps)

/-- When the dependency loop reports a cycle, some dependency's DFS call
reported a cycle (from some intermediate visited set). -/
theorem hasCycleDeps_none {f : String → List String → Option (List String)}
    {deps visited : List String} (h : hasCycleDeps f deps visited = none) :
    ∃ d ∈ deps, ∃ vis, f d vis = none := by
  induction deps generalizing visited with
  | nil => simp [hasCycleDeps] at h
  | cons d ds ih =>
    rw [hasCycleDeps] at h
    cases hf : f d visited with
    | none => exact ⟨d, List.mem_cons_self _ _, visited, hf⟩
    | some v2 =>
      rw [hf] at h
      obtain ⟨d2, hd2, vis, hv⟩ := ih h
      exact ⟨d2, List.mem_cons_of_mem _ hd2, vis, hv⟩

/-- Soundness of a cycle report: if the DFS from `id` reports a cycle, then
either `id` reaches a node of the current path `temp`, or a cycle is
reachable from `id`. -/
theorem hasCycleDFS_none (wf : Workflow) :
    ∀ fuel temp visited id, hasCycleDFS wf fuel temp visited id = none →
    (∃ t ∈ temp, Reach wf id t) ∨ CycReach wf id := by
  intro fuel
  induction fuel with
  | zero =>
    intro temp visited id h
    simp [hasCycleDFS] at h
  | succ fuel ih =>
    intro temp visited sid h
    rw [hasCycleDFS] at h
    by_cases ht : sid ∈ temp
    · exact Or.inl ⟨sid, ht, Relation.ReflTransGen.refl⟩
    · rw [if_neg ht] at h
      by_cases hv : sid ∈ visited
      · rw [if_pos hv] at h
        exact Option.noConfusion h
      · rw [if_neg hv] at h
        cases hlk : alookup wf.steps sid with
        | none =>
          simp only [hlk] at h
          exact Option.noConfusion h
        | some s =>
          simp only [hlk] at h
          cases hd : hasCycleDeps (fun d v => hasCycleDFS wf fuel (sid :: temp) v d)
              s.dependencies visited with
          | some v2 =>
            simp only [hd] at h
            exact Option.noConfusion h
          | none =>
            obtain ⟨d, hdmem, vis, hnone⟩ := hasCycleDeps_none hd
            have hedge : depEdge wf sid d := ⟨s, hlk, hdmem⟩
            rcases ih (sid :: temp) vis d hnone with ⟨t, htm, hreach⟩ | ⟨m, hr, hc⟩
            · rcases List.mem_cons.mp htm with heq | htm2
              · subst heq
                refine Or.inr ⟨t, Relation.ReflTransGen.refl, ?_⟩
                exact Relation.TransGen.head' hedge hreach
              · exact Or.inl ⟨t, htm2, Relation.ReflTransGen.head hedge hreach⟩
            · exact Or.inr ⟨m, Relation.ReflTransGen.head hedge hr, hc⟩

/-- A visited set is in a good state when it is closed under dependency
edges and contains no node lying on a cycle. -/
def VisOK (wf : Workflow) (v : List String) : Prop :=
  (∀ x ∈ v, ∀ y, depEdge wf x y → y ∈ v) ∧ (∀ x ∈ v, ¬ OnCycle wf x)

theorem VisOK.reach_mem {wf : Workflow} {v : List String} (hv : VisOK wf v)
    {x t : String} (hx : x ∈ v) (hr : Reach wf x t) : t ∈ v := by
  induction hr with
  | refl => exact hx
  | tail _ hedge ih => exact hv.1 _ ih _ hedge

/-- Main invariant lemma for a successful (`some`) DFS return: the visited
set only grows and stays in good state, the start node is finished, the
current path is disjoint from the result, and the start node cannot reach
the current path.  The fuel hypothesis is satisfiable because `temp` holds
distinct existing ids. -/
theorem hasCycleDFS_some (wf : Workflow) (hWF : WFdeps wf) :
    ∀ fuel temp visited sid v2,
    hasCycleDFS wf fuel temp visited sid = some v2 →
    VisOK wf visited → (∀ t ∈ temp, t ∉ visited) → temp.Nodup →
    (∀ t ∈ temp, t ∈ akeys wf.steps) → sid ∈ akeys wf.steps →
    (akeys wf.steps).length + 1 ≤ fuel + temp.length →
    (∀ x ∈ visited, x ∈ v2) ∧ sid ∈ v2 ∧ VisOK wf v2 ∧
      (∀ t ∈ temp, t ∉ v2) ∧ (∀ t ∈ temp, ¬ Reach wf sid t) := by
  intro fuel
  induction fuel with
  | zero =>
    intro temp visited sid v2 _ _ _ htn htk _ hbound
    exfalso
    have hle : temp.length ≤ (akeys wf.steps).length :=
      (htn.subperm (fun t ht => htk t ht)).length_le
    omega
  | succ fuel ih =>
    intro temp visited sid v2 h hvok hdisj htn htk hsk hbound
    rw [hasCycleDFS] at h
    by_cases ht : sid ∈ temp
    · rw [if_pos ht] at h
      exact Option.noConfusion h
    · rw [if_neg ht] at h
      by_cases hv : sid ∈ visited
      · rw [if_pos hv] at h
        have hv2 : v2 = visited := (Option.some.inj h).symm
        subst hv2
        refine ⟨fun x hx => hx, hv, hvok, hdisj, ?_⟩
        intro t htm hre
        exact hdisj t htm (hvok.reach_mem hv hre)
      · rw [if_neg hv] at h
        cases hlk : alookup wf.steps sid with
        | none =>
          exact absurd hsk ((alookup_eq_none_iff _ _).mp hlk)
        | some s =>
          simp only [hlk] at h
          have hdeps :
              ∀ deps, (∀ d ∈ deps, d ∈ akeys wf.steps) →
              ∀ visited1 vd,
                hasCycleDeps (fun d v => hasCycleDFS wf fuel (sid :: temp) v d) deps visited1
                  = some vd →
                VisOK wf visited1 → (∀ t ∈ sid :: temp, t ∉ visited1) →
                (∀ x ∈ visited1, x ∈ vd) ∧ (∀ d ∈ deps, d ∈ vd) ∧ VisOK wf vd ∧
                  (∀ t ∈ sid :: temp, t ∉ vd) ∧
                  (∀ d ∈ deps, ∀ t ∈ sid :: temp, ¬ Reach wf d t) := by
            intro deps
            induction deps with
            | nil =>
              intro _ visited1 vd hh hvok1 hdisj1
              rw [hasCycleDeps] at hh
              have hveq : vd = visited1 := (Option.some.inj hh).symm
              subst hveq
              exact ⟨fun x hx => hx, by simp, hvok1, hdisj1, by simp⟩
            | cons d ds ihd =>
              intro hdk visited1 vd hh hvok1 hdisj1
              rw [hasCycleDeps] at hh
              cases hf : hasCycleDFS wf fuel (sid :: temp) visited1 d with
              | none =>
                simp only [hf] at hh
                exact Option.noConfusion hh
              | some vmid =>
                simp only [hf] at hh
                have htn1 : (sid :: temp).Nodup := List.nodup_cons.mpr ⟨ht, htn⟩
                have htk1 : ∀ t ∈ sid :: temp, t ∈ akeys wf.steps := by
                  intro t htm
                  rcases List.mem_cons.mp htm with heq | htm2
                  · subst heq; exact hsk
                  · exact htk t htm2
                have hbound1 : (akeys wf.steps).length + 1 ≤ fuel + (sid :: temp).length := by
                  simp only [List.length_cons]
                  omega
                have hmain := ih (sid :: temp) visited1 d vmid hf hvok1 hdisj1 htn1 htk1
                  (hdk d (List.mem_cons_self _ _)) hbound1
                have hrest := ihd (fun d2 hd2 => hdk d2 (List.mem_cons_of_mem _ hd2))
                  vmid vd hh hmain.2.2.1 hmain.2.2.2.1
                refine ⟨fun x hx => hrest.1 x (hmain.1 x hx), ?_, hrest.2.2.1,
                  hrest.2.2.2.1, ?_⟩
                · intro d2 hd2
                  rcases List.mem_cons.mp hd2 with heq | hd3
                  · subst heq; exact hrest.1 d2 (hmain.2.1)
                  · exact hrest.2.1 d2 hd3
                · intro d2 hd2 t htm
                  rcases List.mem_cons.mp hd2 with heq | hd3
                  · subst heq; exact hmain.2.2.2.2 t htm
                  · exact hrest.2.2.2.2 d2 hd3 t htm
          cases hd : hasCycleDeps (fun d v => hasCycleDFS wf fuel (sid :: temp) v d)
              s.dependencies visited with
          | none =>
            simp only [hd] at h
            exact Option.noConfusion h
          | some vd =>
            simp only [hd] at h
            have hv2 : v2 = sid :: vd := (Option.some.inj h).symm
            subst hv2
            have hdek : ∀ d ∈ s.dependencies, d ∈ akeys wf.steps := hWF sid s hlk
            have hres := hdeps s.dependencies hdek visited vd hd hvok (by
              intro t htm
              rcases List.mem_cons.mp htm with heq | htm2
              · subst heq; exact hv
              · exact hdisj t htm2)
            have hdet : ∀ y, depEdge wf sid y → y ∈ s.dependencies := by
              rintro y ⟨s2, hlk2, hy⟩
              rw [hlk] at hlk2
              injection hlk2 with he
              subst he
              exact hy
            have hreach_sid : ∀ t ∈ temp, ¬ Reach wf sid t := by
              intro t htm hre
              rcases Relation.ReflTransGen.cases_head hre with heq | ⟨c, hc, hre2⟩
              · subst heq; exact ht htm
              · exact hres.2.2.2.2 c (hdet c hc) t (List.mem_cons_of_mem _ htm) hre2
            refine ⟨?_, List.mem_cons_self _ _, ⟨?_, ?_⟩, ?_, hreach_sid⟩
            · intro x hx
              exact List.mem_cons_of_mem _ (hres.1 x hx)
            · intro x hx y hedge
              rcases List.mem_cons.mp hx with heq | hx2
              · subst heq
                exact List.mem_cons_of_mem _ (hres.2.1 y (hdet y hedge))
              · exact List.mem_cons_of_mem _ (hres.2.2.1.1 x hx2 y hedge)
            · intro x hx hcyc
              rcases List.mem_cons.mp hx with heq | hx2
              · subst heq
                obtain ⟨c, hc, htg⟩ := Relation.TransGen.head'_iff.mp hcyc
                exact hres.2.2.2.2 c (hdet c hc) x (List.mem_cons_self _ _) htg
              · exact hres.2.2.1.2 x hx2 hcyc
            · intro t htm hmem
              rcases List.mem_cons.mp hmem with heq | hmem2
              · subst heq; exact ht htm
              · exact hres.2.2.2.1 t (List.mem_cons_of_mem _ htm) hmem2

/-- A node on a cycle is a stored step id (its outgoing edge needs a lookup). -/
theorem OnCycle.mem_akeys {wf : Workflow} {m : String} (h : OnCycle wf m) :
    m ∈ akeys wf.steps := by
  obtain ⟨c, hc, _⟩ := Relation.TransGen.head'_iff.mp h
  obtain ⟨s, hs, _⟩ := hc
  exact (alookup_isSome_iff _ _).mp (by simp [hs])

/-- On an acyclic graph the validation loop never reports a cycle. -/
theorem validateAux_acyclic (wf : Workflow) (hWF : WFdeps wf) (hacyc : Acyclic wf)
    (fuel : Nat) (hfuel : (akeys wf.steps).length + 1 ≤ fuel) :
    ∀ ids visited, (∀ i ∈ ids, i ∈ akeys wf.steps) → VisOK wf visited →
    validateAux wf fuel visited ids = .ok true := by
  intro ids
  induction ids with
  | nil => intro visited _ _; rfl
  | cons i ids ih =>
    intro visited hik hvok
    rw [validateAux]
    cases hdfs : hasCycleDFS wf fuel [] visited i with
    | none =>
      exfalso
      rcases hasCycleDFS_none wf fuel [] visited i hdfs with ⟨t, htm, _⟩ | ⟨m, _, hcyc⟩
      · exact absurd htm (List.not_mem_nil t)
      · exact hacyc m hcyc
    | some v2 =>
      have hsome := hasCycleDFS_some wf hWF fuel [] visited i v2 hdfs hvok
        (by intro t htm; exact absurd htm (List.not_mem_nil t)) List.nodup_nil
        (by intro t htm; exact absurd htm (List.not_mem_nil t))
        (hik i (List.mem_cons_self _ _)) (by simpa using hfuel)
      exact ih v2 (fun j hj => hik j (List.mem_cons_of_mem _ hj)) hsome.2.2.1

/-- If the validation loop succeeds, some good-state visited set contains
every processed id (hence none of them can lie on a cycle). -/
theorem validateAux_ok_visited (wf : Workflow) (hWF : WFdeps wf)
    (fuel : Nat) (hfuel : (akeys wf.steps).length + 1 ≤ fuel) :
    ∀ ids visited, (∀ i ∈ ids, i ∈ akeys wf.steps) → VisOK wf visited →
    validateAux wf fuel visited ids = .ok true →
    ∃ v, VisOK wf v ∧ (∀ i ∈ ids, i ∈ v) ∧ (∀ x ∈ visited, x ∈ v) := by
  intro ids
  induction ids with
  | nil =>
    intro visited _ hvok _
    exact ⟨visited, hvok, by simp, fun x hx => hx⟩
  | cons i ids ih =>
    intro visited hik hvok h
    rw [validateAux] at h
    cases hdfs : hasCycleDFS wf fuel [] visited i with
    | none =>
      rw [hdfs] at h
      exact Except.noConfusion h
    | some v2 =>
      rw [hdfs] at h
      have hsome := hasCycleDFS_some wf hWF fuel [] visited i v2 hdfs hvok
        (by intro t htm; exact absurd htm (List.not_mem_nil t)) List.nodup_nil
        (by intro t htm; exact absurd htm (List.not_mem_nil t))
        (hik i (List.mem_cons_self _ _)) (by simpa using hfuel)
      obtain ⟨v, hvok2, hall, hsub⟩ := ih v2 (fun j hj => hik j (List.mem_cons_of_mem _ hj))
        hsome.2.2.1 h
      refine ⟨v, hvok2, ?_, fun x hx => hsub x (hsome.1 x hx)⟩
      intro j hj
      rcases List.mem_cons.mp hj with heq | hj2
      · subst heq
        exact hsub j hsome.2.1
      · exact hall j hj2

/-- When the validation loop reports step `k`, a cycle is reachable from `k`
through dependencies (the DFS started at `k` with an empty path). -/
theorem validateAux_error (wf : Workflow) (fuel : Nat) :
    ∀ ids visited k, validateAux wf fuel visited ids = .error k →
    CycReach wf k ∧ k ∈ ids := by
  intro ids
  induction ids with
  | nil =>
    intro visited k h
    exact Except.noConfusion h
  | cons i ids ih =>
    intro visited k h
    rw [validateAux] at h
    cases hdfs : hasCycleDFS wf fuel [] visited i with
    | none =>
      rw [hdfs] at h
      have hk : i = k := Except.error.inj h
      subst hk
      rcases hasCycleDFS_none wf fuel [] visited i hdfs with ⟨t, htm, _⟩ | hcy
      · exact absurd htm (List.not_mem_nil t)
      · exact ⟨hcy, List.mem_cons_self _ _⟩
    | some v2 =>
      rw [hdfs] at h
      obtain ⟨hcy, hmem⟩ := ih v2 k h
      exact ⟨hcy, List.mem_cons_of_mem _ hmem⟩

/-- A rank function strictly decreasing along dependency edges certifies
acyclicity (used to discharge `Acyclic` on concrete workflows). -/
theorem Acyclic.of_rank (wf : Workflow) (rank : String → Nat)
    (h : ∀ x y, depEdge wf x y → rank y < rank x) : Acyclic wf := by
  have hr : ∀ x y, Relation.TransGen (depEdge wf) x y → rank y < rank x := by
    intro x y htg
    induction htg with
    | single he => exact h _ _ he
    | tail _ he ih => exact lt_trans (h _ _ he) ih
  intro m hm
  exact lt_irrefl _ (hr m m hm)

/-! ### Claim C6 -/

/-- A graph whose only cycle is `b ↔ c`, while `a` (first in insertion
order) merely depends on `b` and lies on no cycle. -/
def wfCyc : Workflow :=
  { name := "w"
    steps := [("a", { id := "a", command := "c", dependencies := ["b"] }),
              ("b", { id := "b", command := "c", dependencies := ["c"] }),
              ("c", { id := "c", command := "c", dependencies := ["b"] })]
    inverse_dependencies := [("a", []), ("b", ["a", "c"]), ("c", ["b"])] }

theorem wfCyc_no_edge_into_a (x : String) : ¬ depEdge wfCyc x "a" := by
  rintro ⟨s, hs, hy⟩
  have hm := alookup_mem hs
  simp only [wfCyc, List.mem_cons, List.not_mem_nil, or_false, Prod.mk.injEq] at hm
  rcases hm with ⟨_, hs2⟩ | ⟨_, hs2⟩ | ⟨_, hs2⟩ <;>
    (subst hs2; revert hy; decide)

/-- C6, counterexample: on `wfCyc` (cycle `b → c → b`), validation fails
reporting step `a` — but `a` lies on no cycle; the reported step is only the
DFS root from which the cycle was reached. -/
theorem C6_counterexample :
    validate_workflow wfCyc = .error "a" ∧ ¬ OnCycle wfCyc "a" := by
  constructor
  · rfl
  · intro hcyc
    obtain ⟨b, _, hba⟩ := Relation.TransGen.tail'_iff.mp hcyc
    exact wfCyc_no_edge_into_a b hba

/-- C6 (amended): for every graph whose dependency ids all exist, validation
succeeds exactly on acyclic graphs, and when it fails it identifies a step
from which some cycle is reachable through dependencies (not necessarily a
step lying on the cycle). -/
theorem C6_validate_correct (wf : Workflow) (hWF : WFdeps wf) :
    (validate_workflow wf = .ok true ↔ Acyclic wf) ∧
    (∀ k, validate_workflow wf = .error k → CycReach wf k) := by
  have hvoknil : VisOK wf [] :=
    ⟨fun x hx => absurd hx (List.not_mem_nil x), fun x hx => absurd hx (List.not_mem_nil x)⟩
  have hfuel : (akeys wf.steps).length + 1 ≤ wf.steps.length + 1 := by
    simp [akeys]
  constructor
  · constructor
    · intro hok
      obtain ⟨v, hvok, hall, _⟩ := validateAux_ok_visited wf hWF (wf.steps.length + 1) hfuel
        (akeys wf.steps) [] (fun i hi => hi) hvoknil hok
      intro m hm
      exact hvok.2 m (hall m (OnCycle.mem_akeys hm)) hm
    · intro hacyc
      exact validateAux_acyclic wf hWF hacyc (wf.steps.length + 1) hfuel
        (akeys wf.steps) [] (fun i hi => hi) hvoknil
  · intro k hk
    exact (validateAux_error wf (wf.steps.length + 1) (akeys wf.steps) [] k hk).1

/-- An acyclic two-step workflow (`b` depends on `a`) for the C6 witness. -/
def wfLin : Workflow :=
  { name := "w"
    steps := [("a", { id := "a", command := "c" }),
              ("b", { id := "b", command := "c", dependencies := ["a"] })]
    inverse_dependencies := [("a", ["b"]), ("b", [])] }

theorem wfLin_acyclic : Acyclic wfLin := by
  refine Acyclic.of_rank wfLin (fun x => if x = "b" then 1 else 0) ?_
  rintro x y ⟨s, hs, hy⟩
  have hm := alookup_mem hs
  simp only [wfLin, List.mem_cons, List.not_mem_nil, or_false, Prod.mk.injEq] at hm
  rcases hm with ⟨hx, hs2⟩ | ⟨hx, hs2⟩
  · subst hs2
    exact absurd hy (List.not_mem_nil y)
  · subst hs2
    subst hx
    have hy2 : y = "a" := List.mem_singleton.mp hy
    subst hy2
    decide

/-- Closed witness for the amended C6 theorem: on the acyclic `wfLin`,
validation succeeds. -/
theorem C6_witness : validate_workflow wfLin = .ok true :=
  (C6_validate_correct wfLin (WFdeps_of_B (by decide))).1.mpr wfLin_acyclic

/-! ## Scheduling strategies (`_calculate_levels`, breadth/depth-first)

`get_level` memoises into the shared `levels` dict and recurses through
dependencies with no occurs-check, so its depth is bounded only on acyclic
graphs; the embedding adds fuel and `getLevelAux_spec` shows the fuel chosen
in `calculate_levels` never runs out for validated graphs. -/

/-- The `max(get_level(dep) for dep in step.dependencies)` fold: threads the
memo map left to right, returning the maximum of the dependency levels
(`0` for an empty list, which `get_level` never passes). -/
def getLevelDeps (f : String → List (String × Nat) → Option (List (String × Nat) × Nat)) :
    List String → List (String × Nat) → Option (List (String × Nat) × Nat)
  | [], levels => some (levels, 0)
  | d :: ds, levels =>
    match f d levels with
    | none => none
    | some (lv2, n) =>
      match getLevelDeps f ds lv2 with
      | none => none
      | some (lv3, m) => some (lv3, max n m)

/-- `get_level(step_id)` with its memo dict `levels` passed explicitly.
`none` models fuel exhaustion (Python recurses forever on a cycle) or a
missing step id (Python `KeyError`); neither occurs for validated graphs. -/
def getLevelAux (wf : Workflow) : Nat → List (String × Nat) → String →
    Option (List (String × Nat) × Nat)
  | 0, _, _ => none
  | fuel + 1, levels, sid =>
    match alookup levels sid with
    | some n => some (levels, n)
    | none =>
      match alookup wf.steps sid with
      | none => none
      | some s =>
        if s.dependencies = [] then some (ainsert levels sid 0, 0)
        else
          match getLevelDeps (fun d lv => getLevelAux wf fuel lv d) s.dependencies levels with
          | none => none
          | some (lv2, m) => some (ainsert lv2 sid (1 + m), 1 + m)

/-- One iteration of the `for step_id in workflow.steps` loop of
`_calculate_levels` (the returned level is discarded; the memo is kept). -/
def calcLevelsStep (wf : Workflow) (lv : List (String × Nat)) (sid : String) :
    List (String × Nat) :=
  match getLevelAux wf (wf.steps.length + 1) lv sid with
  | none => lv
  | some (lv2, _) => lv2

/-- `_calculate_levels(workflow)`. -/
def calculate_levels (wf : Workflow) : List (String × Nat) :=
  (akeys wf.steps).foldl (calcLevelsStep wf) []

/-- `self.levels[s.id]` as used by the strategies (`KeyError`-free for
validated graphs, where every step id is in the memo). -/
def levelOf (levels : List (String × Nat)) (sid : String) : Nat :=
  (alookup levels sid).getD 0

/-- `BreadthFirstStrategy.get_next_steps`: Python
`[min(ready_steps, key=...)]`, where `min` keeps the first element attaining
the minimum. -/
def BreadthFirst.get_next_steps (levels : List (String × Nat)) (ready_steps : List Step) :
    List Step :=
  match ready_steps with
  | [] => []
  | s0 :: rest =>
    [rest.foldl (fun best x => if levelOf levels x.id < levelOf levels best.id then x else best) s0]

/-- `DepthFirstStrategy.get_next_steps`: Python
`[max(ready_steps, key=...)]`, where `max` keeps the first element attaining
the maximum. -/
def DepthFirst.get_next_steps (levels : List (String × Nat)) (ready_steps : List Step) :
    List Step :=
  match ready_steps with
  | [] => []
  | s0 :: rest =>
    [rest.foldl (fun best x => if levelOf levels best.id < levelOf levels x.id then x else best) s0]

/-- Python's `min(..., key=key)` as a fold: the result is a member, is
minimal, and is the first element attaining the minimum (every element
before it is strictly greater). -/
theorem foldlMin_spec {α : Type} (key : α → Nat) :
    ∀ (rest : List α) (s0 : α),
    (rest.foldl (fun best x => if key x < key best then x else best) s0) ∈ s0 :: rest ∧
    (∀ x ∈ s0 :: rest,
      key (rest.foldl (fun best x => if key x < key best then x else best) s0) ≤ key x) ∧
    ∃ q1 q2, s0 :: rest = q1 ++
        (rest.foldl (fun best x => if key x < key best then x else best) s0) :: q2 ∧
      ∀ x ∈ q1, key (rest.foldl (fun best x => if key x < key best then x else best) s0) < key x := by
  intro rest
  induction rest with
  | nil =>
    intro s0
    refine ⟨List.mem_cons_self _ _, ?_, [], [], rfl, by simp⟩
    intro x hx
    rcases List.mem_cons.mp hx with heq | hx2
    · subst heq; exact le_refl _
    · exact absurd hx2 (List.not_mem_nil x)
  | cons x rest ih =>
    intro s0
    simp only [List.foldl_cons]
    by_cases hlt : key x < key s0
    · rw [if_pos hlt]
      obtain ⟨hmem, hmin, q1, q2, hsplit, hstrict⟩ := ih x
      refine ⟨?_, ?_, s0 :: q1, q2, ?_, ?_⟩
      · rcases List.mem_cons.mp hmem with heq | h2
        · rw [heq]; exact List.mem_cons_of_mem _ (List.mem_cons_self _ _)
        · exact List.mem_cons_of_mem _ (List.mem_cons_of_mem _ h2)
      · intro y hy
        rcases List.mem_cons.mp hy with heq | hy2
        · subst heq
          exact le_of_lt (lt_of_le_of_lt (hmin x (List.mem_cons_self _ _)) hlt)
        · exact hmin y hy2
      · rw [List.cons_append, ← hsplit]
      · intro y hy
        rcases List.mem_cons.mp hy with heq | hy2
        · subst heq
          exact lt_of_le_of_lt (hmin x (List.mem_cons_self _ _)) hlt
        · exact hstrict y hy2
    · rw [if_neg hlt]
      obtain ⟨hmem, hmin, q1, q2, hsplit, hstrict⟩ := ih s0
      have hs0x : key s0 ≤ key x := le_of_not_lt hlt
      refine ⟨?_, ?_, ?_⟩
      · rcases List.mem_cons.mp hmem with heq | h2
        · rw [heq]; exact List.mem_cons_self _ _
        · exact List.mem_cons_of_mem _ (List.mem_cons_of_mem _ h2)
      · intro y hy
        rcases List.mem_cons.mp hy with heq | hy2
        · rw [heq]; exact hmin s0 (List.mem_cons_self _ _)
        · rcases List.mem_cons.mp hy2 with heq2 | hy3
          · rw [heq2]
            exact le_trans (hmin s0 (List.mem_cons_self _ _)) hs0x
          · exact hmin y (List.mem_cons_of_mem _ hy3)
      · cases q1 with
        | nil =>
          simp only [List.nil_append] at hsplit
          refine ⟨[], x :: q2, ?_, by simp⟩
          rw [List.nil_append]
          rw [List.cons_eq_cons] at hsplit
          rw [← hsplit.1, ← hsplit.2]
        | cons q1h q1t =>
          rw [List.cons_append, List.cons_eq_cons] at hsplit
          obtain ⟨hq1h, hrest⟩ := hsplit
          refine ⟨s0 :: x :: q1t, q2, ?_, ?_⟩
          · rw [List.cons_append, List.cons_append, ← hrest]
          · intro y hy
            have hms0 : key (rest.foldl
                (fun best x => if key x < key best then x else best) s0) < key s0 := by
              have hq := hstrict q1h (List.mem_cons_self _ _)
              rwa [← hq1h] at hq
            rcases List.mem_cons.mp hy with heq | hy2
            · rw [heq]; exact hms0
            · rcases List.mem_cons.mp hy2 with heq2 | hy3
              · rw [heq2]; exact lt_of_lt_of_le hms0 hs0x
              · exact hstrict y (List.mem_cons_of_mem _ hy3)

/-- Python's `max(..., key=key)` as a fold, mirror of `foldlMin_spec`. -/
theorem foldlMax_spec {α : Type} (key : α → Nat) :
    ∀ (rest : List α) (s0 : α),
    (rest.foldl (fun best x => if key best < key x then x else best) s0) ∈ s0 :: rest ∧
    (∀ x ∈ s0 :: rest,
      key x ≤ key (rest.foldl (fun best x => if key best < key x then x else best) s0)) ∧
    ∃ q1 q2, s0 :: rest = q1 ++
        (rest.foldl (fun best x => if key best < key x then x else best) s0) :: q2 ∧
      ∀ x ∈ q1, key x < key (rest.foldl (fun best x => if key best < key x then x else best) s0) := by
  intro rest
  induction rest with
  | nil =>
    intro s0
    refine ⟨List.mem_cons_self _ _, ?_, [], [], rfl, by simp⟩
    intro x hx
    rcases List.mem_cons.mp hx with heq | hx2
    · subst heq; exact le_refl _
    · exact absurd hx2 (List.not_mem_nil x)
  | cons x rest ih =>
    intro s0
    simp only [List.foldl_cons]
    by_cases hlt : key s0 < key x
    · rw [if_pos hlt]
      obtain ⟨hmem, hmax, q1, q2, hsplit, hstrict⟩ := ih x
      refine ⟨?_, ?_, s0 :: q1, q2, ?_, ?_⟩
      · rcases List.mem_cons.mp hmem with heq | h2
        · rw [heq]; exact List.mem_cons_of_mem _ (List.mem_cons_self _ _)
        · exact List.mem_cons_of_mem _ (List.mem_cons_of_mem _ h2)
      · intro y hy
        rcases List.mem_cons.mp hy with heq | hy2
        · subst heq
          exact le_of_lt (lt_of_lt_of_le hlt (hmax x (List.mem_cons_self _ _)))
        · exact hmax y hy2
      · rw [List.cons_append, ← hsplit]
      · intro y hy
        rcases List.mem_cons.mp hy with heq | hy2
        · subst heq
          exact lt_of_lt_of_le hlt (hmax x (List.mem_cons_self _ _))
        · exact hstrict y hy2
    · rw [if_neg hlt]
      obtain ⟨hmem, hmax, q1, q2, hsplit, hstrict⟩ := ih s0
      have hxs0 : key x ≤ key s0 := le_of_not_lt hlt
      refine ⟨?_, ?_, ?_⟩
      · rcases List.mem_cons.mp hmem with heq | h2
        · rw [heq]; exact List.mem_cons_self _ _
        · exact List.mem_cons_of_mem _ (List.mem_cons_of_mem _ h2)
      · intro y hy
        rcases List.mem_cons.mp hy with heq | hy2
        · rw [heq]; exact hmax s0 (List.mem_cons_self _ _)
        · rcases List.mem_cons.mp hy2 with heq2 | hy3
          · rw [heq2]
            exact le_trans hxs0 (hmax s0 (List.mem_cons_self _ _))
          · exact hmax y (List.mem_cons_of_mem _ hy3)
      · cases q1 with
        | nil =>
          simp only [List.nil_append] at hsplit
          refine ⟨[], x :: q2, ?_, by simp⟩
          rw [List.nil_append]
          rw [List.cons_eq_cons] at hsplit
          rw [← hsplit.1, ← hsplit.2]
        | cons q1h q1t =>
          rw [List.cons_append, List.cons_eq_cons] at hsplit
          obtain ⟨hq1h, hrest⟩ := hsplit
          refine ⟨s0 :: x :: q1t, q2, ?_, ?_⟩
          · rw [List.cons_append, List.cons_append, ← hrest]
          · intro y hy
            have hms0 : key s0 < key (rest.foldl
                (fun best x => if key best < key x then x else best) s0) := by
              have hq := hstrict q1h (List.mem_cons_self _ _)
              rwa [← hq1h] at hq
            rcases List.mem_cons.mp hy with heq | hy2
            · rw [heq]; exact hms0
            · rcases List.mem_cons.mp hy2 with heq2 | hy3
              · rw [heq2]; exact lt_of_le_of_lt hxs0 hms0
              · exact hstrict y (List.mem_cons_of_mem _ hy3)

/-- The level recurrence of the claim, read off a memo map: level `0` for a
dependency-free step, else `1 +` the maximum of the dependencies' levels. -/
def LevelSpecAt (wf : Workflow) (levels : List (String × Nat)) (k : String) (L : Nat) : Prop :=
  ∃ s, alookup wf.steps k = some s ∧
    ((s.dependencies = [] ∧ L = 0) ∨
     (s.dependencies ≠ [] ∧
       (∀ d ∈ s.dependencies, ∃ Ld, alookup levels d = some Ld ∧ Ld + 1 ≤ L) ∧
       (∃ d ∈ s.dependencies, ∃ Ld, alookup levels d = some Ld ∧ L = 1 + Ld)))

/-- Memo maps only grow (`get_level` never overwrites an entry). -/
def MemoExt (l1 l2 : List (String × Nat)) : Prop :=
  ∀ k L, alookup l1 k = some L → alookup l2 k = some L

/-- Every entry of the memo map satisfies the level recurrence. -/
def MemoOK (wf : Workflow) (levels : List (String × Nat)) : Prop :=
  ∀ k L, alookup levels k = some L → LevelSpecAt wf levels k L

theorem LevelSpecAt.mono {wf : Workflow} {l1 l2 : List (String × Nat)} {k : String} {L : Nat}
    (hext : MemoExt l1 l2) (h : LevelSpecAt wf l1 k L) : LevelSpecAt wf l2 k L := by
  obtain ⟨s, hs, hcase⟩ := h
  refine ⟨s, hs, ?_⟩
  rcases hcase with h0 | ⟨hne, hub, d, hd, Ld, hLd, hmax⟩
  · exact Or.inl h0
  · refine Or.inr ⟨hne, ?_, d, hd, Ld, hext d Ld hLd, hmax⟩
    intro d2 hd2
    obtain ⟨Ld2, hLd2, hle⟩ := hub d2 hd2
    exact ⟨Ld2, hext d2 Ld2 hLd2, hle⟩

/-- Unfolding equation of `getLevelAux` for a memo miss on an existing id. -/
theorem getLevelAux_miss (wf : Workflow) (fuel : Nat) (levels : List (String × Nat))
    (sid : String) (s : Step)
    (hmemo : alookup levels sid = none) (hlk : alookup wf.steps sid = some s) :
    getLevelAux wf (fuel + 1) levels sid =
      (if s.dependencies = [] then some (ainsert levels sid 0, 0)
       else
         match getLevelDeps (fun d lv => getLevelAux wf fuel lv d) s.dependencies levels with
         | none => none
         | some (lv2, m) => some (ainsert lv2 sid (1 + m), 1 + m)) := by
  rw [getLevelAux, hmemo, hlk]

/-- Main lemma for `get_level`: with an in-spec memo, an existing step id,
an acyclic graph and enough fuel (the ghost `path` of strictly deeper
callers bounds the recursion depth), the call succeeds, the memo grows
in-spec, and every fresh entry is a strict dependency-descendant of the
start id. -/
theorem getLevelAux_spec (wf : Workflow) (hWF : WFdeps wf) (hacyc : Acyclic wf) :
    ∀ (fuel : Nat) (path : List String) (levels : List (String × Nat)) (sid : String),
    MemoOK wf levels → sid ∈ akeys wf.steps →
    path.Nodup → (∀ t ∈ path, t ∈ akeys wf.steps) →
    (∀ t ∈ path, Reach wf t sid) → sid ∉ path →
    (akeys wf.steps).length + 1 ≤ fuel + path.length →
    ∃ lv2 L, getLevelAux wf fuel levels sid = some (lv2, L) ∧
      MemoExt levels lv2 ∧ MemoOK wf lv2 ∧ alookup lv2 sid = some L ∧
      (∀ k, alookup levels k = none → (alookup lv2 k).isSome →
        k = sid ∨ Relation.TransGen (depEdge wf) sid k) := by
  intro fuel
  induction fuel with
  | zero =>
    intro path levels sid _ _ hpn hpk _ _ hbound
    exfalso
    have hle : path.length ≤ (akeys wf.steps).length :=
      (hpn.subperm (fun t ht => hpk t ht)).length_le
    omega
  | succ fuel ih =>
    intro path levels sid hmok hsk hpn hpk hpre hsnp hbound
    cases hmemo : alookup levels sid with
    | some n =>
      have heqn : getLevelAux wf (fuel + 1) levels sid = some (levels, n) := by
        rw [getLevelAux, hmemo]
      refine ⟨levels, n, heqn, fun k L hk => hk, hmok, hmemo, ?_⟩
      intro k hnone hsome
      rw [hnone] at hsome
      exact absurd hsome (by simp)
    | none =>
      cases hlk : alookup wf.steps sid with
      | none => exact absurd hsk ((alookup_eq_none_iff _ _).mp hlk)
      | some s =>
        rw [getLevelAux_miss wf fuel levels sid s hmemo hlk]
        by_cases hdnil : s.dependencies = []
        · rw [if_pos hdnil]
          have hfresh : alookup levels sid = none := hmemo
          refine ⟨ainsert levels sid 0, 0, rfl, ?_, ?_, alookup_ainsert_self _ _ _, ?_⟩
          · intro k L hk
            have hne : k ≠ sid := by
              intro heq; subst heq; rw [hfresh] at hk; exact Option.noConfusion hk
            rw [alookup_ainsert_ne _ _ _ _ hne]
            exact hk
          · intro k L hk
            by_cases hke : k = sid
            · subst hke
              rw [alookup_ainsert_self] at hk
              have hL : L = 0 := (Option.some.inj hk).symm
              subst hL
              exact ⟨s, hlk, Or.inl ⟨hdnil, rfl⟩⟩
            · rw [alookup_ainsert_ne _ _ _ _ hke] at hk
              refine (hmok k L hk).mono ?_
              intro k2 L2 hk2
              have hne2 : k2 ≠ sid := by
                intro heq; subst heq; rw [hfresh] at hk2; exact Option.noConfusion hk2
              rw [alookup_ainsert_ne _ _ _ _ hne2]
              exact hk2
          · intro k hnone2 hsome
            by_cases hke : k = sid
            · exact Or.inl hke
            · exfalso
              rw [alookup_ainsert_ne _ _ _ _ hke] at hsome
              rw [hnone2] at hsome
              exact absurd hsome (by simp)
        · rw [if_neg hdnil]
          have hedges : ∀ d ∈ s.dependencies, depEdge wf sid d := fun d hd => ⟨s, hlk, hd⟩
          -- dependency fold sublemma
          have hdeps :
              ∀ deps, (∀ d ∈ deps, depEdge wf sid d) → ∀ lv,
              MemoOK wf lv →
              (∀ k, alookup levels k = none → (alookup lv k).isSome →
                Relation.TransGen (depEdge wf) sid k) →
              ∃ lv3 m, getLevelDeps (fun d l => getLevelAux wf fuel l d) deps lv
                  = some (lv3, m) ∧
                MemoExt lv lv3 ∧ MemoOK wf lv3 ∧
                (∀ d ∈ deps, ∃ Ld, alookup lv3 d = some Ld ∧ Ld ≤ m) ∧
                (deps ≠ [] → ∃ d ∈ deps, alookup lv3 d = some m) ∧
                (deps = [] → m = 0) ∧
                (∀ k, alookup levels k = none → (alookup lv3 k).isSome →
                  Relation.TransGen (depEdge wf) sid k) := by
            intro deps
            induction deps with
            | nil =>
              intro _ lv hok hnew
              refine ⟨lv, 0, rfl, fun k L hk => hk, hok, by simp, by simp, fun _ => rfl, hnew⟩
            | cons d ds ihd =>
              intro hde lv hok hnew
              have hedge : depEdge wf sid d := hde d (List.mem_cons_self _ _)
              have hdk : d ∈ akeys wf.steps := by
                obtain ⟨s2, hs2, hd2⟩ := hedge
                exact hWF sid s2 hs2 d hd2
              have hdnp : d ∉ sid :: path := by
                intro hmem
                rcases List.mem_cons.mp hmem with heq | hmem2
                · subst heq
                  exact hacyc d (Relation.TransGen.single hedge)
                · exact hacyc sid (Relation.TransGen.head' hedge (hpre d hmem2))
              have hcall := ih (sid :: path) lv d hok hdk
                (List.nodup_cons.mpr ⟨hsnp, hpn⟩)
                (by
                  intro t htm
                  rcases List.mem_cons.mp htm with heq | htm2
                  · subst heq; exact hsk
                  · exact hpk t htm2)
                (by
                  intro t htm
                  rcases List.mem_cons.mp htm with heq | htm2
                  · subst heq; exact Relation.ReflTransGen.single hedge
                  · exact Relation.ReflTransGen.tail (hpre t htm2) hedge)
                hdnp
                (by simp only [List.length_cons]; omega)
              obtain ⟨lvd, Ld, heq, hext1, hok1, hlkd, hnew1⟩ := hcall
              have hnewlv : ∀ k, alookup levels k = none → (alookup lvd k).isSome →
                  Relation.TransGen (depEdge wf) sid k := by
                intro k hk0 hks
                by_cases hklv : (alookup lv k).isSome
                · exact hnew k hk0 hklv
                · rw [Option.not_isSome_iff_eq_none] at hklv
                  rcases hnew1 k hklv hks with heqd | htg
                  · subst heqd; exact Relation.TransGen.single hedge
                  · exact Relation.TransGen.head hedge htg
              obtain ⟨lv3, m2, heq2, hext2, hok2, hub2, hat2, hnil2, hnew2⟩ :=
                ihd (fun d2 hd2 => hde d2 (List.mem_cons_of_mem _ hd2)) lvd hok1 hnewlv
              refine ⟨lv3, max Ld m2, ?_, ?_, hok2, ?_, ?_, ?_, hnew2⟩
              · simp only [getLevelDeps, heq, heq2]
              · intro k L hk
                exact hext2 k L (hext1 k L hk)
              · intro d2 hd2
                rcases List.mem_cons.mp hd2 with heqd | hd3
                · subst heqd
                  exact ⟨Ld, hext2 d2 Ld hlkd, le_max_left _ _⟩
                · obtain ⟨Ld2, hLd2, hle⟩ := hub2 d2 hd3
                  exact ⟨Ld2, hLd2, le_trans hle (le_max_right _ _)⟩
              · intro _
                rcases Nat.le_total m2 Ld with hc | hc
                · refine ⟨d, List.mem_cons_self _ _, ?_⟩
                  rw [Nat.max_eq_left hc]
                  exact hext2 d Ld hlkd
                · by_cases hds : ds = []
                  · subst hds
                    have hm2 : m2 = 0 := hnil2 rfl
                    subst hm2
                    have hLd0 : Ld = 0 := Nat.le_antisymm hc (Nat.zero_le _)
                    refine ⟨d, List.mem_cons_self _ _, ?_⟩
                    simpa [hLd0] using hext2 d Ld hlkd
                  · obtain ⟨d2, hd2, hl2⟩ := hat2 hds
                    refine ⟨d2, List.mem_cons_of_mem _ hd2, ?_⟩
                    rw [Nat.max_eq_right hc]
                    exact hl2
              · intro hfalse
                exact absurd hfalse (by simp)
          obtain ⟨lv3, m, heq3, hext3, hok3, hub3, hat3, _, hnew3⟩ :=
            hdeps s.dependencies hedges levels hmok
              (by
                intro k hk0 hks
                rw [hk0] at hks
                exact absurd hks (by simp))
          rw [heq3]
          have hfresh3 : alookup lv3 sid = none := by
            by_cases hs3 : (alookup lv3 sid).isSome
            · exfalso
              exact hacyc sid (hnew3 sid hmemo hs3)
            · rwa [Option.not_isSome_iff_eq_none] at hs3
          have hextfin : MemoExt lv3 (ainsert lv3 sid (1 + m)) := by
            intro k L hk
            have hne : k ≠ sid := by
              intro heq; subst heq; rw [hfresh3] at hk; exact Option.noConfusion hk
            rw [alookup_ainsert_ne _ _ _ _ hne]
            exact hk
          refine ⟨ainsert lv3 sid (1 + m), 1 + m, rfl, ?_, ?_,
            alookup_ainsert_self _ _ _, ?_⟩
          · intro k L hk
            exact hextfin k L (hext3 k L hk)
          · intro k L hk
            by_cases hke : k = sid
            · subst hke
              rw [alookup_ainsert_self] at hk
              have hL : L = 1 + m := (Option.some.inj hk).symm
              subst hL
              refine ⟨s, hlk, Or.inr ⟨hdnil, ?_, ?_⟩⟩
              · intro d hd
                obtain ⟨Ld, hLd, hle⟩ := hub3 d hd
                have hdne : d ≠ k := by
                  intro heqd; subst heqd
                  exact hacyc d (Relation.TransGen.single ⟨s, hlk, hd⟩)
                refine ⟨Ld, ?_, by omega⟩
                rw [alookup_ainsert_ne _ _ _ _ hdne]
                exact hLd
              · obtain ⟨d, hd, hlm⟩ := hat3 hdnil
                have hdne : d ≠ k := by
                  intro heqd; subst heqd
                  exact hacyc d (Relation.TransGen.single ⟨s, hlk, hd⟩)
                refine ⟨d, hd, m, ?_, rfl⟩
                rw [alookup_ainsert_ne _ _ _ _ hdne]
                exact hlm
            · rw [alookup_ainsert_ne _ _ _ _ hke] at hk
              exact (hok3 k L hk).mono hextfin
          · intro k hk0 hks
            by_cases hke : k = sid
            · exact Or.inl hke
            · rw [alookup_ainsert_ne _ _ _ _ hke] at hks
              exact Or.inr (hnew3 k hk0 hks)

/-- The `for step_id in workflow.steps` loop of `_calculate_levels` keeps the
memo in spec and completes every processed id. -/
theorem calcFold_spec (wf : Workflow) (hWF : WFdeps wf) (hacyc : Acyclic wf) :
    ∀ (ids : List String) (lv : List (String × Nat)),
    MemoOK wf lv → (∀ i ∈ ids, i ∈ akeys wf.steps) →
    MemoOK wf (List.foldl (calcLevelsStep wf) lv ids) ∧
    MemoExt lv (List.foldl (calcLevelsStep wf) lv ids) ∧
    (∀ i ∈ ids, (alookup (List.foldl (calcLevelsStep wf) lv ids) i).isSome) := by
  intro ids
  induction ids with
  | nil =>
    intro lv hok _
    exact ⟨hok, fun k L hk => hk, by simp⟩
  | cons i ids ih =>
    intro lv hok hik
    have hbound : (akeys wf.steps).length + 1 ≤ (wf.steps.length + 1) + ([] : List String).length := by
      simp [akeys]
    obtain ⟨lv2, L, heq, hext, hok2, hlkL, _⟩ :=
      getLevelAux_spec wf hWF hacyc (wf.steps.length + 1) [] lv i hok
        (hik i (List.mem_cons_self _ _)) List.nodup_nil
        (by intro t ht; exact absurd ht (List.not_mem_nil t))
        (by intro t ht; exact absurd ht (List.not_mem_nil t))
        (List.not_mem_nil i) hbound
    have hstep : calcLevelsStep wf lv i = lv2 := by
      simp only [calcLevelsStep, heq]
    obtain ⟨hok3, hext3, hmem3⟩ := ih lv2 hok2 (fun j hj => hik j (List.mem_cons_of_mem _ hj))
    rw [List.foldl_cons, hstep]
    refine ⟨hok3, ?_, ?_⟩
    · intro k L2 hk
      exact hext3 k L2 (hext k L2 hk)
    · intro j hj
      rcases List.mem_cons.mp hj with heqj | hj2
      · subst heqj
        have := hext3 j L hlkL
        simp [this]
      · exact hmem3 j hj2

/-! ### Claim C8 -/

/-- C8: on a validated graph, `_calculate_levels` assigns every step the
level `0` when it has no dependencies and `1 + max` of its dependencies'
levels otherwise; both strategies return at most one step per call;
breadth-first returns exactly the first ready step attaining the minimum
level, depth-first exactly the first attaining the maximum (`q1`, the
part of the ready list before the returned step, is strictly worse — the
fixed deterministic tie-break). -/
theorem C8_strategy_correct (wf : Workflow) (hWF : WFdeps wf) (hacyc : Acyclic wf) :
    (∀ k ∈ akeys wf.steps, ∃ L, alookup (calculate_levels wf) k = some L ∧
      LevelSpecAt wf (calculate_levels wf) k L) ∧
    (∀ ready_steps : List Step,
      (BreadthFirst.get_next_steps (calculate_levels wf) ready_steps).length ≤ 1 ∧
      (DepthFirst.get_next_steps (calculate_levels wf) ready_steps).length ≤ 1) ∧
    (∀ ready_steps : List Step, ready_steps ≠ [] →
      ∃ m, BreadthFirst.get_next_steps (calculate_levels wf) ready_steps = [m] ∧
        m ∈ ready_steps ∧
        (∀ x ∈ ready_steps,
          levelOf (calculate_levels wf) m.id ≤ levelOf (calculate_levels wf) x.id) ∧
        ∃ q1 q2, ready_steps = q1 ++ m :: q2 ∧
          ∀ x ∈ q1, levelOf (calculate_levels wf) m.id < levelOf (calculate_levels wf) x.id) ∧
    (∀ ready_steps : List Step, ready_steps ≠ [] →
      ∃ m, DepthFirst.get_next_steps (calculate_levels wf) ready_steps = [m] ∧
        m ∈ ready_steps ∧
        (∀ x ∈ ready_steps,
          levelOf (calculate_levels wf) x.id ≤ levelOf (calculate_levels wf) m.id) ∧
        ∃ q1 q2, ready_steps = q1 ++ m :: q2 ∧
          ∀ x ∈ q1, levelOf (calculate_levels wf) x.id < levelOf (calculate_levels wf) m.id) := by
  obtain ⟨hok, _, hmem⟩ := calcFold_spec wf hWF hacyc (akeys wf.steps) []
    (by intro k L hk; exact absurd hk (by simp [alookup]))
    (fun i hi => hi)
  refine ⟨?_, ?_, ?_, ?_⟩
  · intro k hk
    obtain ⟨L, hL⟩ := Option.isSome_iff_exists.mp (hmem k hk)
    exact ⟨L, hL, hok k L hL⟩
  · intro ready_steps
    cases ready_steps with
    | nil => constructor <;> simp [BreadthFirst.get_next_steps, DepthFirst.get_next_steps]
    | cons s0 rest =>
      constructor <;> simp [BreadthFirst.get_next_steps, DepthFirst.get_next_steps]
  · intro ready_steps hne
    cases ready_steps with
    | nil => exact absurd rfl hne
    | cons s0 rest =>
      obtain ⟨hmemf, hmin, q1, q2, hsplit, hstrict⟩ :=
        foldlMin_spec (fun st : Step => levelOf (calculate_levels wf) st.id) rest s0
      exact ⟨_, rfl, hmemf, hmin, q1, q2, hsplit, hstrict⟩
  · intro ready_steps hne
    cases ready_steps with
    | nil => exact absurd rfl hne
    | cons s0 rest =>
      obtain ⟨hmemf, hmax, q1, q2, hsplit, hstrict⟩ :=
        foldlMax_spec (fun st : Step => levelOf (calculate_levels wf) st.id) rest s0
      exact ⟨_, rfl, hmemf, hmax, q1, q2, hsplit, hstrict⟩

/-- Closed witness for the C8 theorem at the acyclic `wfLin`: the level of
step `a` exists and satisfies the recurrence, and a call on an empty ready
set returns no step. -/
theorem C8_witness :
    (∃ L, alookup (calculate_levels wfLin) "a" = some L ∧
      LevelSpecAt wfLin (calculate_levels wfLin) "a" L) ∧
    (BreadthFirst.get_next_steps (calculate_levels wfLin) []).length ≤ 1 := by
  have h := C8_strategy_correct wfLin (WFdeps_of_B (by decide)) wfLin_acyclic
  exact ⟨h.1 "a" (by decide), (h.2.1 []).1⟩

/-! ## Execution engine (`WorkflowEngine`)

The engine state is the workflow (whose step objects carry the mutable
`status` and `retry_count`), the ready queue and the execution-order log;
the queue stores step ids (the Python deque stores the unique `Step`
objects of the `steps` dict, so membership by id is membership by object).
Running a step's command is an oracle `String → Nat → Bool` giving the
success of the k-th dispatch attempt of each step id.  Engine behaviour is
modelled as atomic actions (`EStep`): a dispatch (the `READY → RUNNING`
transition of either execution loop, with its log append) and a completion
(the tail of `_execute_step` plus the cascade and readiness update that
`_execute_sequential` / `_execute_step_threaded` perform after it, the part
the parallel mode runs under `self.lock`).  Arbitrary interleavings of
these actions cover both the sequential loop and the bounded-parallel loop
with any strategy, since every strategy returns a member of the ready
queue. -/

structure EState : Type where
  wf : Workflow
  ready_queue : List String
  execution_order : List String
deriving DecidableEq, Repr

/-- The status of a step id (`none` for an unknown id). -/
def statusOf (st : EState) (sid : String) : Option Status :=
  (alookup st.wf.steps sid).map Step.status

/-- `step.status = s` for the step object stored under `sid`. -/
def setStatus (sid : String) (s : Status) (st : EState) : EState :=
  { st with wf := { st.wf with
      steps := amodify (fun stp => { stp with status := s }) st.wf.steps sid } }

/-- `step.retry_count += 1`. -/
def bumpRetry (sid : String) (st : EState) : EState :=
  { st with wf := { st.wf with
      steps := amodify (fun stp => { stp with retry_count := stp.retry_count + 1 })
        st.wf.steps sid } }

/-- `all(self.workflow.steps[dep_id].status == "SUCCESS" ...)`; a missing
dependency id (Python `KeyError`) counts as unsatisfied, a case absent from
well-formed graphs. -/
def depsSatisfied (st : EState) (stp : Step) : Bool :=
  stp.dependencies.all (fun d => decide (statusOf st d = some Status.success))

/-- Python truthiness of the `condition` attribute (`None` and the empty
string are falsy). -/
def condTruthy : Option String → Bool
  | none => false
  | some c => decide (c.data ≠ [])

/-- One iteration of the `for step in self.workflow.steps.values()` loop of
`_update_ready_queue`, threading the mutating engine state. -/
def processStep (st : EState) (sid : String) : EState :=
  match alookup st.wf.steps sid with
  | none => st
  | some stp =>
    if stp.status = Status.pending then
      if depsSatisfied st stp && evalCond st.wf stp.condition then
        { setStatus sid Status.ready st with ready_queue := st.ready_queue ++ [sid] }
      else if depsSatisfied st stp && condTruthy stp.condition &&
          !(evalCond st.wf stp.condition) then
        setStatus sid Status.skipped st
      else st
    else st

/-- `WorkflowEngine._update_ready_queue`. -/
def update_ready_queue (st : EState) : EState :=
  (akeys st.wf.steps).foldl processStep st

/-- `self.workflow.inverse_dependencies[step_id]` (whose keys always cover
the step ids for graphs built through `add_step`). -/
def invDepsOf (st : EState) (sid : String) : List String :=
  (alookup st.wf.inverse_dependencies sid).getD []

/-- The `while to_skip` loop of `_skip_dependents`, with fuel (the loop
terminates because each id is skipped at most once; `cascadeFuel` below is
enough, see `skipLoop_spec`). -/
def skipLoop : Nat → EState → List String → List String → EState
  | 0, st, _, _ => st
  | _ + 1, st, [], _ => st
  | fuel + 1, st, skip_id :: rest, skipped =>
    if skip_id ∈ skipped then skipLoop fuel st rest skipped
    else
      match alookup st.wf.steps skip_id with
      | none => st
      | some stp =>
        if stp.status = Status.pending ∨ stp.status = Status.ready then
          let st2 := { setStatus skip_id Status.skipped st with
                       ready_queue := st.ready_queue.erase skip_id }
          skipLoop fuel st2 (rest ++ invDepsOf st2 skip_id) (skip_id :: skipped)
        else skipLoop fuel st rest skipped

/-- Enough fuel for `skipLoop`: the initial queue plus everything any
skipped node could ever enqueue. -/
def cascadeFuel (st : EState) (root : String) : Nat :=
  (invDepsOf st root).length +
    (st.wf.inverse_dependencies.map (fun p => p.2.length + 1)).sum + 1

/-- `WorkflowEngine._skip_dependents`. -/
def skip_dependents (sid : String) (st : EState) : EState :=
  skipLoop (cascadeFuel st sid) st (invDepsOf st sid) []

/-- Python `.strip()` with no argument (whitespace). -/
def pytrim (s : List Char) : List Char :=
  ((s.dropWhile pySpace).reverse.dropWhile pySpace).reverse

/-- The retry bound read from `failure_strategy`:
`int(step.failure_strategy.split(":")[1].strip())` guarded by
`startswith("retry:")`.  `none` both for absent/foreign strategies and for
an unparsable count (where Python raises `ValueError`, aborting the run; no
claim exercises that case). -/
def retryMax (fs : Option String) : Option Nat :=
  match fs with
  | none => none
  | some s =>
    if "retry:".data.isPrefixOf s.data then
      pyint? (pytrim ((splitChar ':' s.data).getD 1 []))
    else none

/-- The outcome application of `_execute_step` after the command ran:
success, retry (increment and back to `PENDING`), or terminal `FAILED`. -/
def applyOutcome (success : Bool) (sid : String) (st : EState) : EState :=
  if success then setStatus sid Status.success st
  else
    match alookup st.wf.steps sid with
    | none => st
    | some stp =>
      match retryMax stp.failure_strategy with
      | some m =>
        if stp.retry_count < m then setStatus sid Status.pending (bumpRetry sid st)
        else setStatus sid Status.failed st
      | none => setStatus sid Status.failed st

/-- A dispatch: the `READY → RUNNING` transition of either loop, the queue
removal (`popleft` / `if step in ready_queue: remove`) and the
`execution_order.append` at the head of `_execute_step`. -/
def dispatchStep (sid : String) (st : EState) : EState :=
  { setStatus sid Status.running st with
    ready_queue := st.ready_queue.erase sid
    execution_order := st.execution_order ++ [sid] }

/-- A completion: the outcome application, the
`if not success and step.status == "FAILED": _skip_dependents` and the
final `_update_ready_queue` (run atomically: inline in the sequential loop,
under `self.lock` in `_execute_step_threaded`).  The oracle is consulted at
the step's current attempt index (dispatches so far minus one). -/
def completeStep (oracle : String → Nat → Bool) (sid : String) (st : EState) : EState :=
  let success := oracle sid (st.execution_order.count sid - 1)
  let st1 := applyOutcome success sid st
  let st2 := if success = false ∧ statusOf st1 sid = some Status.failed
             then skip_dependents sid st1 else st1
  update_ready_queue st2

inductive Act : Type
  | dispatch (sid : String)
  | complete (sid : String)
deriving DecidableEq, Repr

/-- The atomic engine actions: dispatch a step from the ready queue (any
strategy picks a queue member), or complete a running step. -/
inductive EStep (oracle : String → Nat → Bool) : EState → Act → EState → Prop
  | dispatch (st : EState) (sid : String) (h : sid ∈ st.ready_queue) :
      EStep oracle st (Act.dispatch sid) (dispatchStep sid st)
  | complete (st : EState) (sid : String) (h : statusOf st sid = some Status.running) :
      EStep oracle st (Act.complete sid) (completeStep oracle sid st)

/-- `execute()` before entering a loop: seed the ready queue from the
pristine graph. -/
def initState (wf : Workflow) : EState :=
  update_ready_queue { wf := wf, ready_queue := [], execution_order := [] }

/-- The states of a run: any interleaving of dispatches and completions
from the initial state (covers the sequential loop and the bounded-parallel
loop with any strategy and any pool size). -/
def Reachable (oracle : String → Nat → Bool) (wf : Workflow) (st : EState) : Prop :=
  Relation.ReflTransGen (fun a b => ∃ act, EStep oracle a act b) (initState wf) st

/-- `_execute_sequential`, parameterised by the selection function
(`_get_next_step`): `sel` returns the strategy's pick (or the FIFO head).
Fuel bounds the iteration count; `seqFuel` below always suffices
(`seqLoop_drains`). -/
def seqLoop (oracle : String → Nat → Bool) (sel : EState → Option String) :
    Nat → EState → EState
  | 0, st => st
  | fuel + 1, st =>
    if st.ready_queue = [] then st
    else
      match sel st with
      | none => st
      | some sid => seqLoop oracle sel fuel (completeStep oracle sid (dispatchStep sid st))

/-- An upper bound on the total number of dispatches of a run: each step
can be dispatched at most `retry bound + 1` times. -/
def seqFuel (wf : Workflow) : Nat :=
  (wf.steps.map (fun p => match retryMax p.2.failure_strategy with
    | some m => m + 1
    | none => 1)).sum + 1

/-- `_get_next_step` with `self.strategy = None`: `popleft`, i.e. the queue
head. -/
def fifoSel (st : EState) : Option String :=
  st.ready_queue.head?

/-- A whole sequential run: `execute()` with `max_parallel == 1`. -/
def runSequential (oracle : String → Nat → Bool) (sel : EState → Option String)
    (wf : Workflow) : EState :=
  seqLoop oracle sel (seqFuel wf) (initState wf)

/-! ### Basic lemmas about the engine primitives -/

theorem alookup_mapVal {α β : Type} (g : α → β) (l : List (String × α)) (k : String) :
    alookup (l.map (fun p => (p.1, g p.2))) k = (alookup l k).map g := by
  induction l with
  | nil => rfl
  | cons p r ih =>
    obtain ⟨k2, v⟩ := p
    by_cases h : k2 = k <;> simp [alookup, h, ih]

/-- The static shape of a workflow: everything the engine never writes. -/
def shapeOf (w : Workflow) : List (String × (List String × Option String × Option String)) :=
  w.steps.map (fun p => (p.1, (p.2.dependencies, p.2.condition, p.2.failure_strategy)))

theorem shapeOf_amodify (w : Workflow) (f : Step → Step) (k : String)
    (hf : ∀ stp, (f stp).dependencies = stp.dependencies ∧ (f stp).condition = stp.condition ∧
      (f stp).failure_strategy = stp.failure_strategy) :
    shapeOf { w with steps := amodify f w.steps k } = shapeOf w := by
  show (amodify f w.steps k).map _ = w.steps.map _
  induction w.steps with
  | nil => rfl
  | cons p r ih =>
    obtain ⟨k2, v⟩ := p
    obtain ⟨h1, h2, h3⟩ := hf v
    by_cases h : k2 = k
    · simp [amodify, if_pos h, h1, h2, h3]
    · simp [amodify, if_neg h, ih]

theorem shape_keys {w1 w2 : Workflow} (h : shapeOf w1 = shapeOf w2) :
    akeys w1.steps = akeys w2.steps := by
  have h1 : (shapeOf w1).map Prod.fst = (shapeOf w2).map Prod.fst := by rw [h]
  simpa [shapeOf, akeys, List.map_map, Function.comp] using h1

theorem shape_lookup {w1 w2 : Workflow} (h : shapeOf w1 = shapeOf w2) (k : String) :
    (alookup w1.steps k).map (fun s => (s.dependencies, s.condition, s.failure_strategy)) =
    (alookup w2.steps k).map (fun s => (s.dependencies, s.condition, s.failure_strategy)) := by
  have h1 := alookup_mapVal
    (fun s : Step => (s.dependencies, s.condition, s.failure_strategy)) w1.steps k
  have h2 := alookup_mapVal
    (fun s : Step => (s.dependencies, s.condition, s.failure_strategy)) w2.steps k
  rw [← h1, ← h2]
  show alookup (shapeOf w1) k = alookup (shapeOf w2) k
  rw [h]

theorem shape_depEdge {w1 w2 : Workflow} (h : shapeOf w1 = shapeOf w2) (x y : String) :
    depEdge w1 x y ↔ depEdge w2 x y := by
  have hl := shape_lookup h x
  constructor
  · rintro ⟨s, hs, hy⟩
    rw [hs] at hl
    cases h2 : alookup w2.steps x with
    | none =>
      rw [h2] at hl
      exact Option.noConfusion hl
    | some s2 =>
      rw [h2] at hl
      have hps : (s.dependencies, s.condition, s.failure_strategy)
          = (s2.dependencies, s2.condition, s2.failure_strategy) := by
        simpa using hl
      have hdeps : s.dependencies = s2.dependencies := congrArg Prod.fst hps
      refine ⟨s2, h2, ?_⟩
      rw [← hdeps]
      exact hy
  · rintro ⟨s, hs, hy⟩
    rw [hs] at hl
    cases h2 : alookup w1.steps x with
    | none =>
      rw [h2] at hl
      exact Option.noConfusion hl
    | some s2 =>
      rw [h2] at hl
      have hps : (s2.dependencies, s2.condition, s2.failure_strategy)
          = (s.dependencies, s.condition, s.failure_strategy) := by
        simpa using hl
      have hdeps : s2.dependencies = s.dependencies := congrArg Prod.fst hps
      refine ⟨s2, h2, ?_⟩
      rw [hdeps]
      exact hy

theorem setStatus_shape (sid : String) (s : Status) (st : EState) :
    shapeOf (setStatus sid s st).wf = shapeOf st.wf :=
  shapeOf_amodify _ _ _ (fun _ => ⟨rfl, rfl, rfl⟩)

theorem bumpRetry_shape (sid : String) (st : EState) :
    shapeOf (bumpRetry sid st).wf = shapeOf st.wf :=
  shapeOf_amodify _ _ _ (fun _ => ⟨rfl, rfl, rfl⟩)

theorem lookup_setStatus_self (sid : String) (s : Status) (st : EState) :
    alookup (setStatus sid s st).wf.steps sid =
      (alookup st.wf.steps sid).map (fun stp => { stp with status := s }) :=
  alookup_amodify_self _ _ _

theorem lookup_setStatus_ne (sid k : String) (s : Status) (st : EState) (h : k ≠ sid) :
    alookup (setStatus sid s st).wf.steps k = alookup st.wf.steps k :=
  alookup_amodify_ne _ _ _ _ h

theorem lookup_bumpRetry_self (sid : String) (st : EState) :
    alookup (bumpRetry sid st).wf.steps sid =
      (alookup st.wf.steps sid).map (fun stp => { stp with retry_count := stp.retry_count + 1 }) :=
  alookup_amodify_self _ _ _

theorem lookup_bumpRetry_ne (sid k : String) (st : EState) (h : k ≠ sid) :
    alookup (bumpRetry sid st).wf.steps k = alookup st.wf.steps k :=
  alookup_amodify_ne _ _ _ _ h

theorem statusOf_setStatus_self (sid : String) (s : Status) (st : EState) :
    statusOf (setStatus sid s st) sid = (statusOf st sid).map (fun _ => s) := by
  unfold statusOf
  rw [lookup_setStatus_self]
  cases alookup st.wf.steps sid <;> rfl

theorem statusOf_setStatus_ne (sid k : String) (s : Status) (st : EState) (h : k ≠ sid) :
    statusOf (setStatus sid s st) k = statusOf st k := by
  unfold statusOf
  rw [lookup_setStatus_ne _ _ _ _ h]

theorem statusOf_bumpRetry (sid k : String) (st : EState) :
    statusOf (bumpRetry sid st) k = statusOf st k := by
  unfold statusOf
  by_cases h : k = sid
  · subst h
    rw [lookup_bumpRetry_self]
    cases alookup st.wf.steps k <;> rfl
  · rw [lookup_bumpRetry_ne _ _ _ h]

/-- Static well-formedness of a graph as built by
`add_step`/`add_dependency`: unique ids, existing dependencies, and a
reverse-dependency index consistent with the dependency lists. -/
structure WFGraph (wf : Workflow) : Prop where
  nodupKeys : (akeys wf.steps).Nodup
  depsExist : WFdeps wf
  invSpec : ∀ x ∈ akeys wf.steps, ∃ l, alookup wf.inverse_dependencies x = some l ∧
    ∀ y, y ∈ l ↔ depEdge wf y x
  nodupInvKeys : (akeys wf.inverse_dependencies).Nodup
  keysInv : ∀ k ∈ akeys wf.steps, k ∈ akeys wf.inverse_dependencies

/-- The dependency list of a step id in a state (`[]` for unknown ids). -/
def depsOf (st : EState) (k : String) : List String :=
  ((alookup st.wf.steps k).map Step.dependencies).getD []

/-- The condition of a step id in a state. -/
def condOf (st : EState) (k : String) : Option String :=
  ((alookup st.wf.steps k).map Step.condition).getD none

/-- The failure strategy of a step id in a state. -/
def fsOf (st : EState) (k : String) : Option String :=
  ((alookup st.wf.steps k).map Step.failure_strategy).getD none

/-- The retry counter of a step id in a state. -/
def retryOf (st : EState) (k : String) : Nat :=
  ((alookup st.wf.steps k).map Step.retry_count).getD 0

theorem shape_eq_accessors {st1 st0 : EState} (h : shapeOf st1.wf = shapeOf st0.wf)
    (k : String) :
    depsOf st1 k = depsOf st0 k ∧ condOf st1 k = condOf st0 k ∧ fsOf st1 k = fsOf st0 k := by
  have hl := shape_lookup h k
  unfold depsOf condOf fsOf
  cases h1 : alookup st1.wf.steps k with
  | none =>
    rw [h1] at hl
    cases h0 : alookup st0.wf.steps k with
    | none => exact ⟨rfl, rfl, rfl⟩
    | some s0 =>
      rw [h0] at hl
      exact Option.noConfusion hl
  | some s1 =>
    rw [h1] at hl
    cases h0 : alookup st0.wf.steps k with
    | none =>
      rw [h0] at hl
      exact Option.noConfusion hl
    | some s0 =>
      rw [h0] at hl
      have hps : (s1.dependencies, s1.condition, s1.failure_strategy)
          = (s0.dependencies, s0.condition, s0.failure_strategy) := by simpa using hl
      refine ⟨congrArg Prod.fst hps, ?_, ?_⟩
      · have := congrArg Prod.snd hps
        exact congrArg Prod.fst this
      · have := congrArg Prod.snd hps
        exact congrArg Prod.snd this

theorem WFGraph.of_shape {w1 w2 : Workflow} (hsh : shapeOf w1 = shapeOf w2)
    (hinv : w1.inverse_dependencies = w2.inverse_dependencies)
    (h : WFGraph w2) : WFGraph w1 := by
  refine ⟨?_, ?_, ?_, ?_, ?_⟩
  · rw [shape_keys hsh]; exact h.nodupKeys
  · intro k s hks d hd
    have hedge : depEdge w1 k d := ⟨s, hks, hd⟩
    obtain ⟨s2, hs2, hd2⟩ := (shape_depEdge hsh k d).mp hedge
    rw [shape_keys hsh]
    exact h.depsExist k s2 hs2 d hd2
  · intro x hx
    rw [shape_keys hsh] at hx
    obtain ⟨l, hl, hiff⟩ := h.invSpec x hx
    refine ⟨l, by rw [hinv]; exact hl, ?_⟩
    intro y
    rw [hiff y]
    exact (shape_depEdge hsh y x).symm
  · rw [hinv]; exact h.nodupInvKeys
  · intro k hk
    rw [shape_keys hsh] at hk
    rw [hinv]
    exact h.keysInv k hk

/-- Members of a reverse-dependency list are stored step ids. -/
theorem WFGraph.invMem_keys {wf : Workflow} (h : WFGraph wf) {x y : String}
    {l : List String} (hl : alookup wf.inverse_dependencies x = some l) (hy : y ∈ l)
    (hx : x ∈ akeys wf.steps) : y ∈ akeys wf.steps := by
  obtain ⟨l2, hl2, hiff⟩ := h.invSpec x hx
  rw [hl] at hl2
  have hll : l = l2 := Option.some.inj hl2
  subst hll
  obtain ⟨s, hs, _⟩ := (hiff y).mp hy
  exact (alookup_isSome_iff _ _).mp (by simp [hs])

/-! ### Specification of `_update_ready_queue` -/

/-- What one `_update_ready_queue` call guarantees, relative to its starting
state `st0` and the processed key list `ids`: the static shape, log and
retry counters are untouched; statuses change only `PENDING → READY` or
`PENDING → SKIPPED`; the ready queue is extended (in order) by exactly the
newly readied steps; a newly readied or skipped step had all its
dependencies `SUCCESS` (and, when skipped, a truthy condition that
evaluated false); and every processed step left `PENDING` has an
unsatisfied dependency. -/
structure UpdSpec (st0 st1 : EState) (ids : List String) : Prop where
  shape : shapeOf st1.wf = shapeOf st0.wf
  invd : st1.wf.inverse_dependencies = st0.wf.inverse_dependencies
  log : st1.execution_order = st0.execution_order
  retr : ∀ k, retryOf st1 k = retryOf st0 k
  trans : ∀ k, statusOf st1 k = statusOf st0 k ∨
    (statusOf st0 k = some Status.pending ∧
      (statusOf st1 k = some Status.ready ∨ statusOf st1 k = some Status.skipped))
  queue : ∃ t, st1.ready_queue = st0.ready_queue ++ t ∧ t.Nodup ∧
    ∀ q ∈ t, q ∈ ids ∧ statusOf st0 q = some Status.pending ∧
      statusOf st1 q = some Status.ready
  readyDeps : ∀ q, statusOf st0 q = some Status.pending →
    statusOf st1 q = some Status.ready →
    ∀ d ∈ depsOf st0 q, statusOf st1 d = some Status.success
  skipDeps : ∀ q, statusOf st0 q = some Status.pending →
    statusOf st1 q = some Status.skipped →
    (∀ d ∈ depsOf st0 q, statusOf st1 d = some Status.success) ∧
      condTruthy (condOf st0 q) = true
  readyQueue : ∀ q, statusOf st0 q = some Status.pending →
    statusOf st1 q = some Status.ready → q ∈ st1.ready_queue
  pendBlocked : ∀ k ∈ ids, statusOf st1 k = some Status.pending →
    ∃ d ∈ depsOf st0 k, statusOf st1 d ≠ some Status.success

theorem UpdSpec.success_stable {st0 st1 : EState} {ids : List String}
    (h : UpdSpec st0 st1 ids) (k : String) :
    statusOf st1 k = some Status.success ↔ statusOf st0 k = some Status.success := by
  rcases h.trans k with he | ⟨hp, hr⟩
  · rw [he]
  · constructor
    · intro h1
      rcases hr with h2 | h2 <;> (rw [h1] at h2; exact absurd (Option.some.inj h2) (by decide))
    · intro h0
      rw [h0] at hp
      exact absurd (Option.some.inj hp) (by decide)

theorem UpdSpec.not_pending_stable {st0 st1 : EState} {ids : List String}
    (h : UpdSpec st0 st1 ids) (k : String)
    (hnp : statusOf st0 k ≠ some Status.pending) : statusOf st1 k = statusOf st0 k := by
  rcases h.trans k with he | ⟨hp, _⟩
  · exact he
  · exact absurd hp hnp

/-- A condition that evaluates false is a truthy (present, non-empty)
condition, since `None` and `""` both evaluate true. -/
theorem condTruthy_of_evalCond_false (wf : Workflow) (c : Option String)
    (h : evalCond wf c = false) : condTruthy c = true := by
  cases c with
  | none => exact absurd h (by simp [evalCond])
  | some cs =>
    unfold condTruthy
    by_cases hnil : cs.data = []
    · rw [evalCond, if_pos hnil] at h
      exact Bool.noConfusion h
    · simp [hnil]

theorem retryOf_setStatus (sid k : String) (s : Status) (st : EState) :
    retryOf (setStatus sid s st) k = retryOf st k := by
  unfold retryOf
  by_cases h : k = sid
  · subst h
    rw [lookup_setStatus_self]
    cases alookup st.wf.steps k <;> rfl
  · rw [lookup_setStatus_ne _ _ _ _ h]

theorem depsSatisfied_success {st : EState} {stp : Step}
    (h : depsSatisfied st stp = true) :
    ∀ d ∈ stp.dependencies, statusOf st d = some Status.success := by
  intro d hd
  exact of_decide_eq_true (List.all_eq_true.mp h d hd)

/-- One iteration of the readiness loop satisfies the update
specification for the singleton key list. -/
theorem processStep_spec (st0 : EState) (k : String) (hk : k ∈ akeys st0.wf.steps) :
    UpdSpec st0 (processStep st0 k) [k] := by
  obtain ⟨stp, hstp⟩ := Option.isSome_iff_exists.mp ((alookup_isSome_iff _ _).mpr hk)
  have hst : statusOf st0 k = some stp.status := by
    unfold statusOf; rw [hstp]; rfl
  have hdeps0 : depsOf st0 k = stp.dependencies := by
    unfold depsOf; rw [hstp]; rfl
  have hcond0 : condOf st0 k = stp.condition := by
    unfold condOf; rw [hstp]; rfl
  unfold processStep
  simp only [hstp]
  by_cases hpend : stp.status = Status.pending
  · rw [if_pos hpend]
    by_cases hb1 : (depsSatisfied st0 stp && evalCond st0.wf stp.condition) = true
    · rw [if_pos hb1]
      obtain ⟨hds, _⟩ : depsSatisfied st0 stp = true ∧ evalCond st0.wf stp.condition = true := by
        simpa using hb1
      have hdsucc := depsSatisfied_success hds
      have hs1self :
          statusOf { setStatus k Status.ready st0 with
            ready_queue := st0.ready_queue ++ [k] } k = some Status.ready := by
        show statusOf (setStatus k Status.ready st0) k = _
        rw [statusOf_setStatus_self, hst]
        rfl
      have hs1ne : ∀ k2, k2 ≠ k →
          statusOf { setStatus k Status.ready st0 with
            ready_queue := st0.ready_queue ++ [k] } k2 = statusOf st0 k2 := by
        intro k2 h2
        show statusOf (setStatus k Status.ready st0) k2 = _
        exact statusOf_setStatus_ne _ _ _ _ h2
      refine ⟨?_, rfl, rfl, ?_, ?_, ?_, ?_, ?_, ?_, ?_⟩
      · exact setStatus_shape k Status.ready st0
      · intro k2
        show retryOf (setStatus k Status.ready st0) k2 = _
        exact retryOf_setStatus _ _ _ _
      · intro k2
        by_cases h2 : k2 = k
        · subst h2
          refine Or.inr ⟨by rw [hst, hpend], Or.inl hs1self⟩
        · exact Or.inl (hs1ne k2 h2)
      · refine ⟨[k], rfl, List.nodup_singleton k, ?_⟩
        intro q hq
        have hqk : q = k := List.mem_singleton.mp hq
        subst hqk
        exact ⟨List.mem_singleton_self q, by rw [hst, hpend], hs1self⟩
      · intro q hq0 hq1 d hd
        by_cases h2 : q = k
        · subst h2
          rw [hdeps0] at hd
          have hd0 := hdsucc d hd
          have hdk : d ≠ q := by
            intro heq; subst heq
            rw [hq0] at hd0
            exact absurd (Option.some.inj hd0) (by decide)
          rw [hs1ne d hdk]
          exact hd0
        · rw [hs1ne q h2, hq0] at hq1
          exact absurd (Option.some.inj hq1) (by decide)
      · intro q hq0 hq1
        by_cases h2 : q = k
        · subst h2
          rw [hs1self] at hq1
          exact absurd (Option.some.inj hq1) (by decide)
        · rw [hs1ne q h2, hq0] at hq1
          exact absurd (Option.some.inj hq1) (by decide)
      · intro q hq0 hq1
        by_cases h2 : q = k
        · subst h2
          show q ∈ st0.ready_queue ++ [q]
          exact List.mem_append_right _ (List.mem_singleton_self q)
        · rw [hs1ne q h2, hq0] at hq1
          exact absurd (Option.some.inj hq1) (by decide)
      · intro k2 hk2 hp1
        have hk2k : k2 = k := List.mem_singleton.mp hk2
        subst hk2k
        rw [hs1self] at hp1
        exact absurd (Option.some.inj hp1) (by decide)
    · rw [if_neg hb1]
      by_cases hb2 : (depsSatisfied st0 stp && condTruthy stp.condition &&
          !(evalCond st0.wf stp.condition)) = true
      · rw [if_pos hb2]
        obtain ⟨⟨hds, htr⟩, _⟩ :
            (depsSatisfied st0 stp = true ∧ condTruthy stp.condition = true) ∧
              evalCond st0.wf stp.condition = false := by
          simpa using hb2
        have hdsucc := depsSatisfied_success hds
        have hs1self : statusOf (setStatus k Status.skipped st0) k
            = some Status.skipped := by
          rw [statusOf_setStatus_self, hst]
          rfl
        have hs1ne : ∀ k2, k2 ≠ k →
            statusOf (setStatus k Status.skipped st0) k2 = statusOf st0 k2 :=
          fun k2 h2 => statusOf_setStatus_ne _ _ _ _ h2
        refine ⟨?_, rfl, rfl, ?_, ?_, ?_, ?_, ?_, ?_, ?_⟩
        · exact setStatus_shape k Status.skipped st0
        · intro k2
          exact retryOf_setStatus _ _ _ _
        · intro k2
          by_cases h2 : k2 = k
          · subst h2
            refine Or.inr ⟨by rw [hst, hpend], Or.inr hs1self⟩
          · exact Or.inl (hs1ne k2 h2)
        · refine ⟨[], by simp [setStatus], List.nodup_nil, by simp⟩
        · intro q hq0 hq1
          by_cases h2 : q = k
          · subst h2
            rw [hs1self] at hq1
            exact absurd (Option.some.inj hq1) (by decide)
          · rw [hs1ne q h2, hq0] at hq1
            exact absurd (Option.some.inj hq1) (by decide)
        · intro q hq0 hq1
          by_cases h2 : q = k
          · subst h2
            rw [hdeps0, hcond0]
            refine ⟨?_, htr⟩
            intro d hd
            have hd0 := hdsucc d hd
            have hdk : d ≠ q := by
              intro heq; subst heq
              rw [hq0] at hd0
              exact absurd (Option.some.inj hd0) (by decide)
            rw [hs1ne d hdk]
            exact hd0
          · rw [hs1ne q h2, hq0] at hq1
            exact absurd (Option.some.inj hq1) (by decide)
        · intro q hq0 hq1
          by_cases h2 : q = k
          · subst h2
            rw [hs1self] at hq1
            exact absurd (Option.some.inj hq1) (by decide)
          · rw [hs1ne q h2, hq0] at hq1
            exact absurd (Option.some.inj hq1) (by decide)
        · intro k2 hk2 hp1
          have hk2k : k2 = k := List.mem_singleton.mp hk2
          subst hk2k
          rw [hs1self] at hp1
          exact absurd (Option.some.inj hp1) (by decide)
      · rw [if_neg hb2]
        refine ⟨rfl, rfl, rfl, fun _ => rfl, fun k2 => Or.inl rfl,
          ⟨[], by simp, List.nodup_nil, by simp⟩, ?_, ?_, ?_, ?_⟩
        · intro q hq0 hq1
          rw [hq0] at hq1
          exact absurd (Option.some.inj hq1) (by decide)
        · intro q hq0 hq1
          rw [hq0] at hq1
          exact absurd (Option.some.inj hq1) (by decide)
        · intro q hq0 hq1
          rw [hq0] at hq1
          exact absurd (Option.some.inj hq1) (by decide)
        · intro k2 hk2 _
          have hk2k : k2 = k := List.mem_singleton.mp hk2
          subst hk2k
          rw [hdeps0]
          by_cases hds : depsSatisfied st0 stp = true
          · exfalso
            have hev : evalCond st0.wf stp.condition = false := by
              cases hev : evalCond st0.wf stp.condition with
              | true => exact absurd (by rw [hds, hev]; rfl) hb1
              | false => rfl
            have htr := condTruthy_of_evalCond_false st0.wf stp.condition hev
            exact hb2 (by rw [hds, htr, hev]; rfl)
          · have hex : ∃ d ∈ stp.dependencies, ¬ statusOf st0 d = some Status.success := by
              by_contra hall
              push_neg at hall
              exact hds (List.all_eq_true.mpr
                (fun d hd => decide_eq_true (hall d hd)))
            obtain ⟨d, hd, hns⟩ := hex
            exact ⟨d, hd, hns⟩
  · rw [if_neg hpend]
    refine ⟨rfl, rfl, rfl, fun _ => rfl, fun k2 => Or.inl rfl,
      ⟨[], by simp, List.nodup_nil, by simp⟩, ?_, ?_, ?_, ?_⟩
    · intro q hq0 hq1
      rw [hq0] at hq1
      exact absurd (Option.some.inj hq1) (by decide)
    · intro q hq0 hq1
      rw [hq0] at hq1
      exact absurd (Option.some.inj hq1) (by decide)
    · intro q hq0 hq1
      rw [hq0] at hq1
      exact absurd (Option.some.inj hq1) (by decide)
    · intro k2 hk2 hp1
      have hk2k : k2 = k := List.mem_singleton.mp hk2
      subst hk2k
      rw [hst] at hp1
      exact absurd (Option.some.inj hp1) hpend

theorem UpdSpec.refl (st : EState) (ids : List String)
    (hvac : ∀ k ∈ ids, False) : UpdSpec st st ids := by
  refine ⟨rfl, rfl, rfl, fun _ => rfl, fun _ => Or.inl rfl,
    ⟨[], by simp, List.nodup_nil, by simp⟩, ?_, ?_, ?_, ?_⟩
  · intro q hq0 hq1
    rw [hq0] at hq1
    exact absurd (Option.some.inj hq1) (by decide)
  · intro q hq0 hq1
    rw [hq0] at hq1
    exact absurd (Option.some.inj hq1) (by decide)
  · intro q hq0 hq1
    rw [hq0] at hq1
    exact absurd (Option.some.inj hq1) (by decide)
  · intro k hk
    exact absurd hk (fun hh => hvac k hh)

/-- Update specifications compose (a later pass only refines an earlier
pass, stability of non-pending statuses doing the bookkeeping). -/
theorem UpdSpec.comp {st0 st1 st2 : EState} {k : String} {rest : List String}
    (h1 : UpdSpec st0 st1 [k]) (h2 : UpdSpec st1 st2 rest) (hk : k ∉ rest) :
    UpdSpec st0 st2 (k :: rest) := by
  have hacc := fun k2 => shape_eq_accessors h1.shape k2
  have hpend01 : ∀ k2, statusOf st1 k2 = some Status.pending →
      statusOf st0 k2 = some Status.pending := by
    intro k2 hp1
    rcases h1.trans k2 with e1 | ⟨p0, r1⟩
    · rw [← e1]; exact hp1
    · rcases r1 with r1 | r1 <;>
        (rw [hp1] at r1; exact absurd (Option.some.inj r1) (by decide))
  have hpend12 : ∀ k2, statusOf st2 k2 = some Status.pending →
      statusOf st1 k2 = some Status.pending := by
    intro k2 hp2
    rcases h2.trans k2 with e2 | ⟨p1, r2⟩
    · rw [← e2]; exact hp2
    · rcases r2 with r2 | r2 <;>
        (rw [hp2] at r2; exact absurd (Option.some.inj r2) (by decide))
  have hready12 : ∀ k2, statusOf st1 k2 = some Status.ready →
      statusOf st2 k2 = some Status.ready := by
    intro k2 hr1
    have hst := h2.not_pending_stable k2 (by
      rw [hr1]; intro hh; exact absurd (Option.some.inj hh) (by decide))
    rw [hst]; exact hr1
  have hskip12 : ∀ k2, statusOf st1 k2 = some Status.skipped →
      statusOf st2 k2 = some Status.skipped := by
    intro k2 hr1
    have hst := h2.not_pending_stable k2 (by
      rw [hr1]; intro hh; exact absurd (Option.some.inj hh) (by decide))
    rw [hst]; exact hr1
  refine ⟨h2.shape.trans h1.shape, h2.invd.trans h1.invd, h2.log.trans h1.log, ?_,
    ?_, ?_, ?_, ?_, ?_, ?_⟩
  · intro k2
    rw [h2.retr k2, h1.retr k2]
  · intro k2
    rcases h2.trans k2 with e2 | ⟨p1, r2⟩
    · rcases h1.trans k2 with e1 | ⟨p0, r1⟩
      · exact Or.inl (e2.trans e1)
      · rw [e2]
        exact Or.inr ⟨p0, r1⟩
    · exact Or.inr ⟨hpend01 k2 p1, r2⟩
  · obtain ⟨t1, q1eq, nd1, props1⟩ := h1.queue
    obtain ⟨t2, q2eq, nd2, props2⟩ := h2.queue
    refine ⟨t1 ++ t2, by rw [q2eq, q1eq, List.append_assoc], ?_, ?_⟩
    · refine nd1.append nd2 ?_
      intro a ha1 ha2
      have hak : a = k := List.mem_singleton.mp (props1 a ha1).1
      subst hak
      exact hk (props2 a ha2).1
    · intro q hq
      rcases List.mem_append.mp hq with hq1 | hq2
      · obtain ⟨hmem, hp0, hr1⟩ := props1 q hq1
        have hqk : q = k := List.mem_singleton.mp hmem
        subst hqk
        exact ⟨List.mem_cons_self _ _, hp0, hready12 q hr1⟩
      · obtain ⟨hmem, hp1, hr2⟩ := props2 q hq2
        exact ⟨List.mem_cons_of_mem _ hmem, hpend01 q hp1, hr2⟩
  · intro q hp0 hr2 d hd
    rcases h1.trans q with e1 | ⟨_, r1⟩
    · have hp1 : statusOf st1 q = some Status.pending := by rw [e1]; exact hp0
      have hdd : d ∈ depsOf st1 q := by rw [(hacc q).1]; exact hd
      exact h2.readyDeps q hp1 hr2 d hdd
    · rcases r1 with r1 | r1
      · exact (h2.success_stable d).mpr (h1.readyDeps q hp0 r1 d hd)
      · exfalso
        rw [hskip12 q r1] at hr2
        exact absurd (Option.some.inj hr2) (by decide)
  · intro q hp0 hsk2
    rcases h1.trans q with e1 | ⟨_, r1⟩
    · have hp1 : statusOf st1 q = some Status.pending := by rw [e1]; exact hp0
      obtain ⟨hds, htr⟩ := h2.skipDeps q hp1 hsk2
      refine ⟨?_, ?_⟩
      · intro d hd
        exact hds d (by rw [(hacc q).1]; exact hd)
      · rw [← (hacc q).2.1]
        exact htr
    · rcases r1 with r1 | r1
      · exfalso
        rw [hready12 q r1] at hsk2
        exact absurd (Option.some.inj hsk2) (by decide)
      · obtain ⟨hds, htr⟩ := h1.skipDeps q hp0 r1
        exact ⟨fun d hd => (h2.success_stable d).mpr (hds d hd), htr⟩
  · intro q hp0 hr2
    rcases h1.trans q with e1 | ⟨_, r1⟩
    · exact h2.readyQueue q (by rw [e1]; exact hp0) hr2
    · rcases r1 with r1 | r1
      · have hq1 := h1.readyQueue q hp0 r1
        obtain ⟨t2, q2eq, _, _⟩ := h2.queue
        rw [q2eq]
        exact List.mem_append_left _ hq1
      · exfalso
        rw [hskip12 q r1] at hr2
        exact absurd (Option.some.inj hr2) (by decide)
  · intro k2 hmem hp2
    rcases List.mem_cons.mp hmem with heq | hmem2
    · subst heq
      obtain ⟨d, hd, hns⟩ := h1.pendBlocked k2 (List.mem_singleton_self _) (hpend12 k2 hp2)
      refine ⟨d, hd, ?_⟩
      intro hsucc2
      exact hns ((h2.success_stable d).mp hsucc2)
    · obtain ⟨d, hd, hns⟩ := h2.pendBlocked k2 hmem2 hp2
      refine ⟨d, ?_, hns⟩
      rw [← (hacc k2).1]
      exact hd

/-- The whole `_update_ready_queue` pass over a duplicate-free key list. -/
theorem update_fold_spec :
    ∀ (ids : List String) (st0 : EState), ids.Nodup →
    (∀ i ∈ ids, i ∈ akeys st0.wf.steps) →
    UpdSpec st0 (List.foldl processStep st0 ids) ids := by
  intro ids
  induction ids with
  | nil =>
    intro st0 _ _
    exact UpdSpec.refl st0 [] (by simp)
  | cons k rest ih =>
    intro st0 hnd hik
    rw [List.foldl_cons]
    have h1 := processStep_spec st0 k (hik k (List.mem_cons_self _ _))
    have hkeys1 : akeys (processStep st0 k).wf.steps = akeys st0.wf.steps :=
      shape_keys h1.shape
    have h2 := ih (processStep st0 k) (List.nodup_cons.mp hnd).2
      (by
        intro i hi
        rw [hkeys1]
        exact hik i (List.mem_cons_of_mem _ hi))
    exact UpdSpec.comp h1 h2 (List.nodup_cons.mp hnd).1

/-- `_update_ready_queue` satisfies the update specification over every key
of the graph. -/
theorem update_ready_queue_spec (st : EState) (hnd : (akeys st.wf.steps).Nodup) :
    UpdSpec st (update_ready_queue st) (akeys st.wf.steps) :=
  update_fold_spec (akeys st.wf.steps) st hnd (fun _ hi => hi)

/-! ### Specification of `_skip_dependents` -/

/-- The statuses the cascade acts on: PENDING or READY. -/
def isPR (st : EState) (k : String) : Bool :=
  match statusOf st k with
  | some Status.pending => true
  | some Status.ready => true
  | _ => false

theorem isPR_congr {st1 st0 : EState} {k : String}
    (h : statusOf st1 k = statusOf st0 k) : isPR st1 k = isPR st0 k := by
  unfold isPR
  rw [h]

/-- Termination potential of the cascade loop: pending work plus everything
the still-skippable nodes could enqueue. -/
def cascPot (st : EState) (ts : List String) : Nat :=
  ts.length + (((akeys st.wf.inverse_dependencies).filter (fun k => isPR st k)).map
    (fun k => (invDepsOf st k).length + 1)).sum

theorem filter_map_sum_le (p : String → Bool) (g : String → Nat) :
    ∀ l : List String, ((l.filter p).map g).sum ≤ (l.map g).sum := by
  intro l
  induction l with
  | nil => simp
  | cons a r ih =>
    by_cases h : p a = true
    · simp only [List.filter_cons, h, if_true, List.map_cons, List.sum_cons]
      omega
    · have hf : p a = false := by simpa using h
      simp only [List.filter_cons, hf, Bool.false_eq_true, if_false, List.map_cons,
        List.sum_cons]
      omega

theorem filter_sum_flip (g : String → Nat) (p q : String → Bool) (y : String) :
    ∀ ks : List String, ks.Nodup → y ∈ ks → p y = true → q y = false →
    (∀ x ∈ ks, x ≠ y → q x = p x) →
    ((ks.filter q).map g).sum + g y = ((ks.filter p).map g).sum := by
  intro ks
  induction ks with
  | nil =>
    intro _ hy
    exact absurd hy (List.not_mem_nil y)
  | cons a r ih =>
    intro hnd hy hpy hqy hag
    have hnd2 := List.nodup_cons.mp hnd
    rcases List.mem_cons.mp hy with rfl | hyr
    · have hfr : r.filter q = r.filter p := by
        apply List.filter_congr
        intro x hx
        exact hag x (List.mem_cons_of_mem _ hx) (fun hxy => hnd2.1 (hxy ▸ hx))
      simp only [List.filter_cons, hpy, hqy, Bool.false_eq_true, if_true, if_false, hfr,
        List.map_cons, List.sum_cons]
      omega
    · have hay : a ≠ y := fun h => hnd2.1 (h ▸ hyr)
      have hqa : q a = p a := hag a (List.mem_cons_self a r) hay
      have ihh := ih hnd2.2 hyr hpy hqy
        (fun x hx hxy => hag x (List.mem_cons_of_mem _ hx) hxy)
      by_cases hpa : p a = true
      · have hqa2 : q a = true := hqa.trans hpa
        simp only [List.filter_cons, hpa, hqa2, if_true, List.map_cons, List.sum_cons]
        omega
      · have hpa2 : p a = false := by simpa using hpa
        have hqa2 : q a = false := hqa.trans hpa2
        simp only [List.filter_cons, hpa2, hqa2, Bool.false_eq_true, if_false]
        omega

theorem akeys_map_getD_sum {α : Type} (g : α → Nat) (d : α) :
    ∀ l : List (String × α), (akeys l).Nodup →
    ((akeys l).map (fun k => g ((alookup l k).getD d))).sum
      = (l.map (fun p => g p.2)).sum := by
  intro l
  induction l with
  | nil => intro _; rfl
  | cons pr r ih =>
    obtain ⟨k, v⟩ := pr
    intro hnd
    have hkeys : akeys ((k, v) :: r) = k :: akeys r := rfl
    rw [hkeys] at hnd
    have hknr : k ∉ akeys r := (List.nodup_cons.mp hnd).1
    have hself : alookup ((k, v) :: r) k = some v := by simp [alookup]
    have htail : (akeys r).map (fun k2 => g ((alookup ((k, v) :: r) k2).getD d))
        = (akeys r).map (fun k2 => g ((alookup r k2).getD d)) := by
      apply List.map_congr_left
      intro x hx
      have hxk : ¬ (k = x) := fun h => hknr (h ▸ hx)
      simp [alookup, hxk]
    have hmain : ((akeys ((k, v) :: r)).map
        (fun k2 => g ((alookup ((k, v) :: r) k2).getD d))).sum
        = g v + ((akeys r).map (fun k2 => g ((alookup r k2).getD d))).sum := by
      rw [hkeys]
      simp only [List.map_cons, List.sum_cons, hself, Option.getD_some, htail]
    rw [hmain, ih (List.nodup_cons.mp hnd).2]
    simp [List.sum_cons]

/-- What `_skip_dependents` guarantees relative to its starting state `st0`
and worklist `ts`: the static shape, log and retry counters are untouched;
statuses change only from PENDING/READY to SKIPPED; the ready queue loses
exactly the skipped entries; every worklist entry that was PENDING/READY
ends SKIPPED; and skipping is transitively closed through the
reverse-dependency lists. -/
structure CascSpec (st0 st1 : EState) (ts : List String) : Prop where
  shape : shapeOf st1.wf = shapeOf st0.wf
  invd : st1.wf.inverse_dependencies = st0.wf.inverse_dependencies
  log : st1.execution_order = st0.execution_order
  retr : ∀ k, retryOf st1 k = retryOf st0 k
  trans : ∀ k, statusOf st1 k = statusOf st0 k ∨
    (isPR st0 k = true ∧ statusOf st1 k = some Status.skipped)
  queue : ∀ q, q ∈ st1.ready_queue ↔ (q ∈ st0.ready_queue ∧ statusOf st1 q = statusOf st0 q)
  nodupQ : st1.ready_queue.Nodup
  complete : ∀ y ∈ ts, isPR st0 y = true → statusOf st1 y = some Status.skipped
  closure : ∀ y, isPR st0 y = true → statusOf st1 y = some Status.skipped →
    ∀ z ∈ invDepsOf st0 y, isPR st1 z = false

theorem CascSpec.casc_refl (st : EState) (hnd : st.ready_queue.Nodup) :
    CascSpec st st [] := by
  refine ⟨rfl, rfl, rfl, fun _ => rfl, fun _ => Or.inl rfl, ?_, hnd, ?_, ?_⟩
  · intro q
    exact ⟨fun h => ⟨h, rfl⟩, fun h => h.1⟩
  · intro y hy
    exact absurd hy (List.not_mem_nil y)
  · intro y hpr hsk z _
    simp [isPR, hsk] at hpr

theorem skipLoop_spec : ∀ (fuel : Nat) (st : EState) (ts skipped : List String),
    WFGraph st.wf → st.ready_queue.Nodup →
    cascPot st ts ≤ fuel →
    (∀ z ∈ skipped, statusOf st z = some Status.skipped) →
    (∀ i ∈ ts, i ∈ akeys st.wf.steps) →
    CascSpec st (skipLoop fuel st ts skipped) ts := by
  intro fuel
  induction fuel with
  | zero =>
    intro st ts skipped _ hndq hfuel _ _
    have hlen : ts.length = 0 := by
      have := hfuel
      unfold cascPot at this
      omega
    have hts : ts = [] := List.eq_nil_of_length_eq_zero hlen
    subst hts
    exact CascSpec.casc_refl st hndq
  | succ fuel ih =>
    intro st ts skipped HG hndq hfuel Hsk Hts
    match ts with
    | [] =>
      exact CascSpec.casc_refl st hndq
    | a :: rest =>
      have hrest_mem : ∀ i ∈ rest, i ∈ akeys st.wf.steps :=
        fun i hi => Hts i (List.mem_cons_of_mem _ hi)
      have hfuel_rest : cascPot st rest ≤ fuel := by
        unfold cascPot at hfuel ⊢
        simp only [List.length_cons] at hfuel
        omega
      by_cases hmem : a ∈ skipped
      · -- already skipped: the loop drops the head
        have heq : skipLoop (fuel + 1) st (a :: rest) skipped
            = skipLoop fuel st rest skipped := by
          simp [skipLoop, hmem]
        rw [heq]
        have hIH := ih st rest skipped HG hndq hfuel_rest Hsk hrest_mem
        refine ⟨hIH.shape, hIH.invd, hIH.log, hIH.retr, hIH.trans, hIH.queue,
          hIH.nodupQ, ?_, hIH.closure⟩
        intro y hy hpr
        rcases List.mem_cons.mp hy with rfl | hyr
        · have hsk := Hsk y hmem
          simp [isPR, hsk] at hpr
        · exact hIH.complete y hyr hpr
      · have haKeys : a ∈ akeys st.wf.steps := Hts a (List.mem_cons_self a rest)
        obtain ⟨stp, hlk⟩ : ∃ stp, alookup st.wf.steps a = some stp := by
          have := (alookup_isSome_iff st.wf.steps a).mpr haKeys
          cases h : alookup st.wf.steps a with
          | none => rw [h] at this; exact absurd this (by simp)
          | some s => exact ⟨s, rfl⟩
        have hsa : statusOf st a = some stp.status := by simp [statusOf, hlk]
        by_cases hPR : stp.status = Status.pending ∨ stp.status = Status.ready
        · -- the head gets skipped and its reverse dependents enqueued
          set st2 : EState := { setStatus a Status.skipped st with
            ready_queue := st.ready_queue.erase a } with hst2
          have heq : skipLoop (fuel + 1) st (a :: rest) skipped
              = skipLoop fuel st2 (rest ++ invDepsOf st2 a) (a :: skipped) := by
            simp [skipLoop, hmem, hlk, hPR, hst2]
          have f1 : shapeOf st2.wf = shapeOf st.wf := setStatus_shape a Status.skipped st
          have f2 : st2.wf.inverse_dependencies = st.wf.inverse_dependencies := rfl
          have f3 : st2.execution_order = st.execution_order := rfl
          have f4 : ∀ k, retryOf st2 k = retryOf st k :=
            fun k => retryOf_setStatus a k Status.skipped st
          have f5 : statusOf st2 a = some Status.skipped := by
            show statusOf (setStatus a Status.skipped st) a = some Status.skipped
            rw [statusOf_setStatus_self, hsa]
            rfl
          have f6 : ∀ k, k ≠ a → statusOf st2 k = statusOf st k :=
            fun k hk => statusOf_setStatus_ne a k Status.skipped st hk
          have f7 : st2.ready_queue = st.ready_queue.erase a := rfl
          have f8 : isPR st a = true := by
            rcases hPR with h | h <;> simp [isPR, hsa, h]
          have f5f : isPR st2 a = false := by simp [isPR, f5]
          have f9 : ∀ x, invDepsOf st2 x = invDepsOf st x := by
            intro x
            unfold invDepsOf
            rw [f2]
          have f10 : akeys st2.wf.steps = akeys st.wf.steps := by
            show akeys (setStatus a Status.skipped st).wf.steps = akeys st.wf.steps
            exact akeys_amodify _ _ _
          have HG2 : WFGraph st2.wf := WFGraph.of_shape f1 f2 HG
          have hndq2 : st2.ready_queue.Nodup := by
            rw [f7]
            exact hndq.erase a
          have Hsk2 : ∀ z ∈ a :: skipped, statusOf st2 z = some Status.skipped := by
            intro z hz
            rcases List.mem_cons.mp hz with rfl | hzr
            · exact f5
            · have hza : z ≠ a := fun h => hmem (h ▸ hzr)
              rw [f6 z hza]
              exact Hsk z hzr
          have hinv_mem : ∀ i ∈ invDepsOf st a, i ∈ akeys st.wf.steps := by
            intro i hi
            unfold invDepsOf at hi
            cases hlv : alookup st.wf.inverse_dependencies a with
            | none => rw [hlv] at hi; exact absurd hi (List.not_mem_nil i)
            | some l =>
              rw [hlv] at hi
              exact HG.invMem_keys hlv hi haKeys
          have Hts2 : ∀ i ∈ rest ++ invDepsOf st2 a, i ∈ akeys st2.wf.steps := by
            intro i hi
            rw [f10]
            rcases List.mem_append.mp hi with hir | hii
            · exact hrest_mem i hir
            · rw [f9 a] at hii
              exact hinv_mem i hii
          -- fuel accounting
          have hks : akeys st2.wf.inverse_dependencies = akeys st.wf.inverse_dependencies := by
            rw [f2]
          have hgfun : (fun k => (invDepsOf st2 k).length + 1)
              = (fun k => (invDepsOf st k).length + 1) := by
            funext x
            rw [f9 x]
          have haks : a ∈ akeys st.wf.inverse_dependencies := HG.keysInv a haKeys
          have hagree : ∀ x ∈ akeys st.wf.inverse_dependencies, x ≠ a →
              isPR st2 x = isPR st x :=
            fun x _ hx => isPR_congr (f6 x hx)
          have hflip := filter_sum_flip (fun k => (invDepsOf st k).length + 1)
            (fun k => isPR st k) (fun k => isPR st2 k) a
            (akeys st.wf.inverse_dependencies) HG.nodupInvKeys haks f8 f5f hagree
          have hfuel2 : cascPot st2 (rest ++ invDepsOf st2 a) ≤ fuel := by
            unfold cascPot at hfuel ⊢
            rw [hks, hgfun, List.length_append, f9 a]
            simp only [List.length_cons] at hfuel
            have hga : ((fun k => (invDepsOf st k).length + 1) a)
                = (invDepsOf st a).length + 1 := rfl
            omega
          have hIH := ih st2 (rest ++ invDepsOf st2 a) (a :: skipped)
            HG2 hndq2 hfuel2 Hsk2 Hts2
          rw [heq]
          -- the final SKIPPED status of the head
          have hFa : statusOf (skipLoop fuel st2 (rest ++ invDepsOf st2 a) (a :: skipped)) a
              = some Status.skipped := by
            rcases hIH.trans a with h | ⟨_, h⟩
            · rw [h]; exact f5
            · exact h
          refine ⟨hIH.shape.trans f1, hIH.invd.trans f2, hIH.log.trans f3,
            fun k => (hIH.retr k).trans (f4 k), ?_, ?_, hIH.nodupQ, ?_, ?_⟩
          · -- trans
            intro k
            by_cases hk : k = a
            · subst hk
              exact Or.inr ⟨f8, hFa⟩
            · rcases hIH.trans k with h | ⟨hpr2, h⟩
              · exact Or.inl (h.trans (f6 k hk))
              · refine Or.inr ⟨?_, h⟩
                rw [isPR_congr (f6 k hk)] at hpr2
                exact hpr2
          · -- queue
            intro q
            rw [hIH.queue q, f7]
            by_cases hq : q = a
            · subst hq
              constructor
              · rintro ⟨hqm, _⟩
                have := (hndq.mem_erase_iff.mp hqm).1
                exact absurd rfl this
              · rintro ⟨_, hstat⟩
                rw [hFa, hsa] at hstat
                rcases hPR with h | h <;> rw [h] at hstat <;> exact absurd hstat (by simp)
            · constructor
              · rintro ⟨hqm, hstat⟩
                exact ⟨(hndq.mem_erase_iff.mp hqm).2, hstat.trans (f6 q hq)⟩
              · rintro ⟨hqm, hstat⟩
                refine ⟨hndq.mem_erase_iff.mpr ⟨hq, hqm⟩, ?_⟩
                rw [f6 q hq]
                exact hstat
          · -- complete
            intro y hy hpr
            by_cases hya : y = a
            · subst hya
              exact hFa
            · rcases List.mem_cons.mp hy with h | hyr
              · exact absurd h hya
              · have hpr2 : isPR st2 y = true := by
                  rw [isPR_congr (f6 y hya)]
                  exact hpr
                exact hIH.complete y (List.mem_append_left _ hyr) hpr2
          · -- closure
            intro y hpr hsk z hz
            by_cases hya : y = a
            · subst hya
              have hz2 : z ∈ invDepsOf st2 y := by rw [f9 y]; exact hz
              have hzts : z ∈ rest ++ invDepsOf st2 y := List.mem_append_right _ hz2
              by_cases hzPR : isPR st2 z = true
              · have hzf := hIH.complete z hzts hzPR
                simp [isPR, hzf]
              · have hzf : isPR st2 z = false := by simpa using hzPR
                rcases hIH.trans z with h | ⟨hzp, _⟩
                · rw [isPR_congr h]
                  exact hzf
                · rw [hzp] at hzf
                  exact absurd hzf (by simp)
            · have hpr2 : isPR st2 y = true := by
                rw [isPR_congr (f6 y hya)]
                exact hpr
              have hz2 : z ∈ invDepsOf st2 y := by rw [f9 y]; exact hz
              exact hIH.closure y hpr2 hsk z hz2
        · -- head not PENDING/READY: dropped
          have heq : skipLoop (fuel + 1) st (a :: rest) skipped
              = skipLoop fuel st rest skipped := by
            simp [skipLoop, hmem, hlk, hPR]
          rw [heq]
          have hIH := ih st rest skipped HG hndq hfuel_rest Hsk hrest_mem
          refine ⟨hIH.shape, hIH.invd, hIH.log, hIH.retr, hIH.trans, hIH.queue,
            hIH.nodupQ, ?_, hIH.closure⟩
          intro y hy hpr
          rcases List.mem_cons.mp hy with rfl | hyr
          · exfalso
            apply hPR
            unfold isPR at hpr
            rw [hsa] at hpr
            cases h : stp.status <;> rw [h] at hpr <;> simp at hpr
            · exact Or.inl rfl
            · exact Or.inr rfl
          · exact hIH.complete y hyr hpr

/-- `_skip_dependents` satisfies the cascade specification on its initial
worklist, the reverse dependents of the failed step. -/
theorem skip_dependents_spec (st : EState) (root : String) (HG : WFGraph st.wf)
    (hndq : st.ready_queue.Nodup) (hroot : root ∈ akeys st.wf.steps) :
    CascSpec st (skip_dependents root st) (invDepsOf st root) := by
  apply skipLoop_spec (cascadeFuel st root) st (invDepsOf st root) [] HG hndq
  · -- fuel bound
    unfold cascPot cascadeFuel
    have hle := filter_map_sum_le (fun k => isPR st k)
      (fun k => (invDepsOf st k).length + 1) (akeys st.wf.inverse_dependencies)
    have heq := akeys_map_getD_sum (fun l : List String => l.length + 1) []
      st.wf.inverse_dependencies HG.nodupInvKeys
    have heq2 : ((akeys st.wf.inverse_dependencies).map
        (fun k => (invDepsOf st k).length + 1)).sum
        = (st.wf.inverse_dependencies.map (fun p => p.2.length + 1)).sum := by
      rw [← heq]
      rfl
    omega
  · intro z hz
    exact absurd hz (List.not_mem_nil z)
  · intro i hi
    unfold invDepsOf at hi
    cases hlv : alookup st.wf.inverse_dependencies root with
    | none => rw [hlv] at hi; exact absurd hi (List.not_mem_nil i)
    | some l =>
      rw [hlv] at hi
      exact HG.invMem_keys hlv hi hroot

/-! ### Case lemmas for the outcome application and dispatch -/

theorem statusOf_none_iff (st : EState) (k : String) :
    statusOf st k = none ↔ k ∉ akeys st.wf.steps := by
  unfold statusOf
  rw [← alookup_eq_none_iff]
  cases alookup st.wf.steps k <;> simp

theorem statusOf_isSome_mem {st : EState} {k : String} {s : Status}
    (h : statusOf st k = some s) : k ∈ akeys st.wf.steps := by
  by_contra hk
  have := (statusOf_none_iff st k).mpr hk
  rw [h] at this
  exact Option.noConfusion this

theorem applyOutcome_true (sid : String) (st : EState) :
    applyOutcome true sid st = setStatus sid Status.success st := by
  unfold applyOutcome
  rw [if_pos rfl]

theorem applyOutcome_false_retry {sid : String} {st : EState} {stp : Step} {m : Nat}
    (hlk : alookup st.wf.steps sid = some stp)
    (hm : retryMax stp.failure_strategy = some m) (hlt : stp.retry_count < m) :
    applyOutcome false sid st = setStatus sid Status.pending (bumpRetry sid st) := by
  unfold applyOutcome
  simp only [Bool.false_eq_true, if_false, hlk, hm, hlt, if_true]

theorem applyOutcome_false_final_some {sid : String} {st : EState} {stp : Step} {m : Nat}
    (hlk : alookup st.wf.steps sid = some stp)
    (hm : retryMax stp.failure_strategy = some m) (hge : ¬ stp.retry_count < m) :
    applyOutcome false sid st = setStatus sid Status.failed st := by
  unfold applyOutcome
  simp only [Bool.false_eq_true, if_false, hlk, hm, hge]

theorem applyOutcome_false_final_none {sid : String} {st : EState} {stp : Step}
    (hlk : alookup st.wf.steps sid = some stp)
    (hm : retryMax stp.failure_strategy = none) :
    applyOutcome false sid st = setStatus sid Status.failed st := by
  unfold applyOutcome
  simp only [Bool.false_eq_true, if_false, hlk, hm]

theorem applyOutcome_false_none {sid : String} {st : EState}
    (hlk : alookup st.wf.steps sid = none) :
    applyOutcome false sid st = st := by
  unfold applyOutcome
  simp only [Bool.false_eq_true, if_false, hlk]

theorem setStatus_queue (sid : String) (s : Status) (st : EState) :
    (setStatus sid s st).ready_queue = st.ready_queue := rfl

theorem setStatus_log (sid : String) (s : Status) (st : EState) :
    (setStatus sid s st).execution_order = st.execution_order := rfl

theorem setStatus_invd (sid : String) (s : Status) (st : EState) :
    (setStatus sid s st).wf.inverse_dependencies = st.wf.inverse_dependencies := rfl

theorem bumpRetry_queue (sid : String) (st : EState) :
    (bumpRetry sid st).ready_queue = st.ready_queue := rfl

theorem bumpRetry_log (sid : String) (st : EState) :
    (bumpRetry sid st).execution_order = st.execution_order := rfl

theorem bumpRetry_invd (sid : String) (st : EState) :
    (bumpRetry sid st).wf.inverse_dependencies = st.wf.inverse_dependencies := rfl

theorem retryOf_bumpRetry_self {sid : String} {st : EState} {stp : Step}
    (hlk : alookup st.wf.steps sid = some stp) :
    retryOf (bumpRetry sid st) sid = retryOf st sid + 1 := by
  unfold retryOf
  rw [lookup_bumpRetry_self, hlk]
  rfl

theorem retryOf_bumpRetry_ne (sid k : String) (st : EState) (h : k ≠ sid) :
    retryOf (bumpRetry sid st) k = retryOf st k := by
  unfold retryOf
  rw [lookup_bumpRetry_ne _ _ _ h]

theorem applyOutcome_queue (b : Bool) (sid : String) (st : EState) :
    (applyOutcome b sid st).ready_queue = st.ready_queue := by
  cases b
  · cases hlk : alookup st.wf.steps sid with
    | none => rw [applyOutcome_false_none hlk]
    | some stp =>
      cases hm : retryMax stp.failure_strategy with
      | none => rw [applyOutcome_false_final_none hlk hm]; rfl
      | some m =>
        by_cases hlt : stp.retry_count < m
        · rw [applyOutcome_false_retry hlk hm hlt]; rfl
        · rw [applyOutcome_false_final_some hlk hm hlt]; rfl
  · rw [applyOutcome_true]; rfl

theorem applyOutcome_log (b : Bool) (sid : String) (st : EState) :
    (applyOutcome b sid st).execution_order = st.execution_order := by
  cases b
  · cases hlk : alookup st.wf.steps sid with
    | none => rw [applyOutcome_false_none hlk]
    | some stp =>
      cases hm : retryMax stp.failure_strategy with
      | none => rw [applyOutcome_false_final_none hlk hm]; rfl
      | some m =>
        by_cases hlt : stp.retry_count < m
        · rw [applyOutcome_false_retry hlk hm hlt]; rfl
        · rw [applyOutcome_false_final_some hlk hm hlt]; rfl
  · rw [applyOutcome_true]; rfl

theorem applyOutcome_invd (b : Bool) (sid : String) (st : EState) :
    (applyOutcome b sid st).wf.inverse_dependencies = st.wf.inverse_dependencies := by
  cases b
  · cases hlk : alookup st.wf.steps sid with
    | none => rw [applyOutcome_false_none hlk]
    | some stp =>
      cases hm : retryMax stp.failure_strategy with
      | none => rw [applyOutcome_false_final_none hlk hm]; rfl
      | some m =>
        by_cases hlt : stp.retry_count < m
        · rw [applyOutcome_false_retry hlk hm hlt]; rfl
        · rw [applyOutcome_false_final_some hlk hm hlt]; rfl
  · rw [applyOutcome_true]; rfl

theorem applyOutcome_shape (b : Bool) (sid : String) (st : EState) :
    shapeOf (applyOutcome b sid st).wf = shapeOf st.wf := by
  cases b
  · cases hlk : alookup st.wf.steps sid with
    | none => rw [applyOutcome_false_none hlk]
    | some stp =>
      cases hm : retryMax stp.failure_strategy with
      | none => rw [applyOutcome_false_final_none hlk hm]; exact setStatus_shape _ _ _
      | some m =>
        by_cases hlt : stp.retry_count < m
        · rw [applyOutcome_false_retry hlk hm hlt]
          exact (setStatus_shape _ _ _).trans (bumpRetry_shape _ _)
        · rw [applyOutcome_false_final_some hlk hm hlt]; exact setStatus_shape _ _ _
  · rw [applyOutcome_true]; exact setStatus_shape _ _ _

theorem applyOutcome_status_ne (b : Bool) (sid k : String) (st : EState) (h : k ≠ sid) :
    statusOf (applyOutcome b sid st) k = statusOf st k := by
  cases b
  · cases hlk : alookup st.wf.steps sid with
    | none => rw [applyOutcome_false_none hlk]
    | some stp =>
      cases hm : retryMax stp.failure_strategy with
      | none => rw [applyOutcome_false_final_none hlk hm]; exact statusOf_setStatus_ne _ _ _ _ h
      | some m =>
        by_cases hlt : stp.retry_count < m
        · rw [applyOutcome_false_retry hlk hm hlt]
          rw [statusOf_setStatus_ne _ _ _ _ h]
          exact statusOf_bumpRetry _ _ _
        · rw [applyOutcome_false_final_some hlk hm hlt]; exact statusOf_setStatus_ne _ _ _ _ h
  · rw [applyOutcome_true]; exact statusOf_setStatus_ne _ _ _ _ h

theorem applyOutcome_retry_ne (b : Bool) (sid k : String) (st : EState) (h : k ≠ sid) :
    retryOf (applyOutcome b sid st) k = retryOf st k := by
  cases b
  · cases hlk : alookup st.wf.steps sid with
    | none => rw [applyOutcome_false_none hlk]
    | some stp =>
      cases hm : retryMax stp.failure_strategy with
      | none => rw [applyOutcome_false_final_none hlk hm]; exact retryOf_setStatus _ _ _ _
      | some m =>
        by_cases hlt : stp.retry_count < m
        · rw [applyOutcome_false_retry hlk hm hlt]
          rw [retryOf_setStatus]
          exact retryOf_bumpRetry_ne _ _ _ h
        · rw [applyOutcome_false_final_some hlk hm hlt]; exact retryOf_setStatus _ _ _ _
  · rw [applyOutcome_true]; exact retryOf_setStatus _ _ _ _

/-- The status and retry counter of the completed step after the outcome
application, by case: success, retry within budget, terminal failure. -/
theorem applyOutcome_self_cases {sid : String} {st : EState} {stp : Step}
    (hlk : alookup st.wf.steps sid = some stp) (b : Bool) :
    (b = true → statusOf (applyOutcome b sid st) sid = some Status.success ∧
      retryOf (applyOutcome b sid st) sid = retryOf st sid) ∧
    (b = false → ∀ m, retryMax stp.failure_strategy = some m → stp.retry_count < m →
      statusOf (applyOutcome b sid st) sid = some Status.pending ∧
      retryOf (applyOutcome b sid st) sid = retryOf st sid + 1) ∧
    (b = false → (∀ m, retryMax stp.failure_strategy = some m → ¬ stp.retry_count < m) →
      statusOf (applyOutcome b sid st) sid = some Status.failed ∧
      retryOf (applyOutcome b sid st) sid = retryOf st sid) := by
  have hst : statusOf st sid = some stp.status := by unfold statusOf; rw [hlk]; rfl
  refine ⟨?_, ?_, ?_⟩
  · rintro rfl
    rw [applyOutcome_true]
    constructor
    · rw [statusOf_setStatus_self, hst]; rfl
    · exact retryOf_setStatus _ _ _ _
  · rintro rfl m hm hlt
    rw [applyOutcome_false_retry hlk hm hlt]
    constructor
    · rw [statusOf_setStatus_self, statusOf_bumpRetry, hst]; rfl
    · rw [retryOf_setStatus]
      exact retryOf_bumpRetry_self hlk
  · rintro rfl hge
    cases hm : retryMax stp.failure_strategy with
    | none =>
      rw [applyOutcome_false_final_none hlk hm]
      exact ⟨by rw [statusOf_setStatus_self, hst]; rfl, retryOf_setStatus _ _ _ _⟩
    | some m =>
      rw [applyOutcome_false_final_some hlk hm (hge m hm)]
      exact ⟨by rw [statusOf_setStatus_self, hst]; rfl, retryOf_setStatus _ _ _ _⟩

theorem dispatchStep_queue (sid : String) (st : EState) :
    (dispatchStep sid st).ready_queue = st.ready_queue.erase sid := rfl

theorem dispatchStep_log (sid : String) (st : EState) :
    (dispatchStep sid st).execution_order = st.execution_order ++ [sid] := rfl

theorem dispatchStep_shape (sid : String) (st : EState) :
    shapeOf (dispatchStep sid st).wf = shapeOf st.wf := setStatus_shape _ _ _

theorem dispatchStep_invd (sid : String) (st : EState) :
    (dispatchStep sid st).wf.inverse_dependencies = st.wf.inverse_dependencies := rfl

theorem statusOf_dispatch_self {sid : String} {st : EState} {stp : Step}
    (hlk : alookup st.wf.steps sid = some stp) :
    statusOf (dispatchStep sid st) sid = some Status.running := by
  show statusOf (setStatus sid Status.running st) sid = some Status.running
  rw [statusOf_setStatus_self]
  unfold statusOf
  rw [hlk]
  rfl

theorem statusOf_dispatch_ne (sid k : String) (st : EState) (h : k ≠ sid) :
    statusOf (dispatchStep sid st) k = statusOf st k :=
  statusOf_setStatus_ne sid k Status.running st h

theorem retryOf_dispatch (sid k : String) (st : EState) :
    retryOf (dispatchStep sid st) k = retryOf st k :=
  retryOf_setStatus sid k Status.running st

theorem count_append_one (l : List String) (s k : String) :
    (l ++ [s]).count k = l.count k + (if k = s then 1 else 0) := by
  rw [List.count_append]
  by_cases h : k = s
  · subst h
    simp [List.count_cons]
  · simp [List.count_cons, h, Ne.symm h]

/-! ### The master run invariant -/

/-- Stability facts through a cascade. -/
theorem CascSpec.succ_stable {st0 st1 : EState} {ts : List String}
    (h : CascSpec st0 st1 ts) (k : String) :
    statusOf st1 k = some Status.success ↔ statusOf st0 k = some Status.success := by
  rcases h.trans k with he | ⟨hpr, hsk⟩
  · rw [he]
  · constructor
    · intro h1
      rw [h1] at hsk
      exact absurd (Option.some.inj hsk) (by decide)
    · intro h0
      simp [isPR, h0] at hpr
    
theorem CascSpec.skipped_stable {st0 st1 : EState} {ts : List String}
    (h : CascSpec st0 st1 ts) (k : String)
    (hk : statusOf st0 k = some Status.skipped) :
    statusOf st1 k = some Status.skipped := by
  rcases h.trans k with he | ⟨_, hsk⟩
  · rw [he, hk]
  · exact hsk

theorem CascSpec.nonPR_stable {st0 st1 : EState} {ts : List String}
    (h : CascSpec st0 st1 ts) (k : String)
    (hk : isPR st0 k = false) : statusOf st1 k = statusOf st0 k := by
  rcases h.trans k with he | ⟨hpr, _⟩
  · exact he
  · rw [hpr] at hk
    exact absurd hk (by simp)

/-- All statuses every reachable step can have are in place: queue/READY
agreement, dependency success below every started step, a blocking
dependency above every PENDING step, the cascade closure facts, and the
attempt accounting. -/
structure Inv (st : EState) : Prop where
  graph : WFGraph st.wf
  qnodup : st.ready_queue.Nodup
  qready : ∀ q ∈ st.ready_queue, statusOf st q = some Status.ready
  readyQ : ∀ q, statusOf st q = some Status.ready → q ∈ st.ready_queue
  depsSucc : ∀ k, (statusOf st k = some Status.ready ∨ statusOf st k = some Status.running ∨
      statusOf st k = some Status.success ∨ statusOf st k = some Status.failed) →
    ∀ d ∈ depsOf st k, statusOf st d = some Status.success
  pendDep : ∀ k, statusOf st k = some Status.pending →
    ∃ d ∈ depsOf st k, statusOf st d ≠ some Status.success
  inv1 : ∀ k, statusOf st k = some Status.failed →
    ∀ z ∈ invDepsOf st k, statusOf st z = some Status.skipped
  inv2 : ∀ y, statusOf st y = some Status.skipped →
    (∀ d ∈ depsOf st y, statusOf st d = some Status.success) ∨
    (∀ z ∈ invDepsOf st y, statusOf st z = some Status.skipped)
  counts : ∀ k, st.execution_order.count k = retryOf st k +
    (if statusOf st k = some Status.running ∨ statusOf st k = some Status.success ∨
        statusOf st k = some Status.failed then 1 else 0)
  rcBound : ∀ k m, retryMax (fsOf st k) = some m → retryOf st k ≤ m
  failedRC : ∀ k m, statusOf st k = some Status.failed →
    retryMax (fsOf st k) = some m → retryOf st k = m
  zeroRC : ∀ k, retryMax (fsOf st k) = none → retryOf st k = 0

/-- Dispatching a ready-queue member preserves the invariant. -/
theorem Inv_dispatch {st : EState} (hI : Inv st) {sid : String}
    (hq : sid ∈ st.ready_queue) : Inv (dispatchStep sid st) := by
  have hrdy : statusOf st sid = some Status.ready := hI.qready sid hq
  obtain ⟨stp, hlk⟩ : ∃ stp, alookup st.wf.steps sid = some stp := by
    cases h : alookup st.wf.steps sid with
    | none =>
      have : statusOf st sid = none := by unfold statusOf; rw [h]; rfl
      rw [hrdy] at this
      exact Option.noConfusion this
    | some s => exact ⟨s, rfl⟩
  have hself : statusOf (dispatchStep sid st) sid = some Status.running :=
    statusOf_dispatch_self hlk
  have hshape : shapeOf (dispatchStep sid st).wf = shapeOf st.wf := dispatchStep_shape sid st
  have hacc : ∀ k, depsOf (dispatchStep sid st) k = depsOf st k ∧
      condOf (dispatchStep sid st) k = condOf st k ∧
      fsOf (dispatchStep sid st) k = fsOf st k :=
    shape_eq_accessors hshape
  have hinvdeps : ∀ x, invDepsOf (dispatchStep sid st) x = invDepsOf st x := by
    intro x
    unfold invDepsOf
    rw [dispatchStep_invd]
  -- a step with status SUCCESS at st keeps it, and sid is not such a step
  have hsucc_pres : ∀ d, statusOf st d = some Status.success →
      statusOf (dispatchStep sid st) d = some Status.success := by
    intro d hd
    have hdsid : d ≠ sid := by
      intro h
      rw [h, hrdy] at hd
      exact absurd (Option.some.inj hd) (by decide)
    rw [statusOf_dispatch_ne _ _ _ hdsid]
    exact hd
  have hskip_pres : ∀ d, statusOf st d = some Status.skipped →
      statusOf (dispatchStep sid st) d = some Status.skipped := by
    intro d hd
    have hdsid : d ≠ sid := by
      intro h
      rw [h, hrdy] at hd
      exact absurd (Option.some.inj hd) (by decide)
    rw [statusOf_dispatch_ne _ _ _ hdsid]
    exact hd
  refine ⟨WFGraph.of_shape hshape (dispatchStep_invd sid st) hI.graph, ?_, ?_, ?_, ?_, ?_,
    ?_, ?_, ?_, ?_, ?_, ?_⟩
  · rw [dispatchStep_queue]
    exact hI.qnodup.erase sid
  · intro q hqm
    rw [dispatchStep_queue] at hqm
    obtain ⟨hqs, hqmem⟩ := hI.qnodup.mem_erase_iff.mp hqm
    rw [statusOf_dispatch_ne _ _ _ hqs]
    exact hI.qready q hqmem
  · intro q hqr
    have hqs : q ≠ sid := by
      intro h
      rw [h, hself] at hqr
      exact absurd (Option.some.inj hqr) (by decide)
    rw [statusOf_dispatch_ne _ _ _ hqs] at hqr
    rw [dispatchStep_queue]
    exact hI.qnodup.mem_erase_iff.mpr ⟨hqs, hI.readyQ q hqr⟩
  · intro k hk d hd
    rw [(hacc k).1] at hd
    by_cases hks : k = sid
    · subst hks
      exact hsucc_pres d (hI.depsSucc k (Or.inl hrdy) d hd)
    · rw [statusOf_dispatch_ne _ _ _ hks] at hk
      exact hsucc_pres d (hI.depsSucc k hk d hd)
  · intro k hk
    have hks : k ≠ sid := by
      intro h
      rw [h, hself] at hk
      exact absurd (Option.some.inj hk) (by decide)
    rw [statusOf_dispatch_ne _ _ _ hks] at hk
    obtain ⟨d, hd, hds⟩ := hI.pendDep k hk
    refine ⟨d, by rw [(hacc k).1]; exact hd, ?_⟩
    by_cases hdsid : d = sid
    · subst hdsid
      rw [hself]
      intro h
      exact absurd (Option.some.inj h) (by decide)
    · rw [statusOf_dispatch_ne _ _ _ hdsid]
      exact hds
  · intro k hk z hz
    have hks : k ≠ sid := by
      intro h
      rw [h, hself] at hk
      exact absurd (Option.some.inj hk) (by decide)
    rw [statusOf_dispatch_ne _ _ _ hks] at hk
    rw [hinvdeps k] at hz
    exact hskip_pres z (hI.inv1 k hk z hz)
  · intro y hy
    have hys : y ≠ sid := by
      intro h
      rw [h, hself] at hy
      exact absurd (Option.some.inj hy) (by decide)
    rw [statusOf_dispatch_ne _ _ _ hys] at hy
    rcases hI.inv2 y hy with hl | hr
    · left
      intro d hd
      rw [(hacc y).1] at hd
      exact hsucc_pres d (hl d hd)
    · right
      intro z hz
      rw [hinvdeps y] at hz
      exact hskip_pres z (hr z hz)
  · intro k
    rw [dispatchStep_log, count_append_one, retryOf_dispatch]
    by_cases hks : k = sid
    · subst hks
      rw [hself, if_pos rfl]
      have := hI.counts k
      rw [hrdy] at this
      rw [if_neg (by decide)] at this
      rw [this]
      rw [if_pos (Or.inl rfl)]
    · rw [statusOf_dispatch_ne _ _ _ hks, if_neg hks]
      have := hI.counts k
      omega
  · intro k m hm
    rw [(hacc k).2.2] at hm
    rw [retryOf_dispatch]
    exact hI.rcBound k m hm
  · intro k m hk hm
    have hks : k ≠ sid := by
      intro h
      rw [h, hself] at hk
      exact absurd (Option.some.inj hk) (by decide)
    rw [statusOf_dispatch_ne _ _ _ hks] at hk
    rw [(hacc k).2.2] at hm
    rw [retryOf_dispatch]
    exact hI.failedRC k m hk hm
  · intro k hm
    rw [(hacc k).2.2] at hm
    rw [retryOf_dispatch]
    exact hI.zeroRC k hm

/-- The invariant minus the blocked-PENDING clause: what holds right before
the `_update_ready_queue` pass that closes every engine action (the pass
re-establishes the missing clause). -/
structure PreInv (st : EState) : Prop where
  graph : WFGraph st.wf
  qnodup : st.ready_queue.Nodup
  qready : ∀ q ∈ st.ready_queue, statusOf st q = some Status.ready
  readyQ : ∀ q, statusOf st q = some Status.ready → q ∈ st.ready_queue
  depsSucc : ∀ k, (statusOf st k = some Status.ready ∨ statusOf st k = some Status.running ∨
      statusOf st k = some Status.success ∨ statusOf st k = some Status.failed) →
    ∀ d ∈ depsOf st k, statusOf st d = some Status.success
  inv1 : ∀ k, statusOf st k = some Status.failed →
    ∀ z ∈ invDepsOf st k, statusOf st z = some Status.skipped
  inv2 : ∀ y, statusOf st y = some Status.skipped →
    (∀ d ∈ depsOf st y, statusOf st d = some Status.success) ∨
    (∀ z ∈ invDepsOf st y, statusOf st z = some Status.skipped)
  counts : ∀ k, st.execution_order.count k = retryOf st k +
    (if statusOf st k = some Status.running ∨ statusOf st k = some Status.success ∨
        statusOf st k = some Status.failed then 1 else 0)
  rcBound : ∀ k m, retryMax (fsOf st k) = some m → retryOf st k ≤ m
  failedRC : ∀ k m, statusOf st k = some Status.failed →
    retryMax (fsOf st k) = some m → retryOf st k = m
  zeroRC : ∀ k, retryMax (fsOf st k) = none → retryOf st k = 0

theorem Inv.toPreInv {st : EState} (h : Inv st) : PreInv st :=
  ⟨h.graph, h.qnodup, h.qready, h.readyQ, h.depsSucc, h.inv1, h.inv2, h.counts,
   h.rcBound, h.failedRC, h.zeroRC⟩

/-- The readiness pass turns the pre-invariant into the full invariant. -/
theorem PreInv_update {st : EState} (hP : PreInv st) : Inv (update_ready_queue st) := by
  have hU : UpdSpec st (update_ready_queue st) (akeys st.wf.steps) :=
    update_ready_queue_spec st hP.graph.nodupKeys
  obtain ⟨t, hq, htn, htm⟩ := hU.queue
  have hacc := shape_eq_accessors hU.shape
  have hinvdeps : ∀ x, invDepsOf (update_ready_queue st) x = invDepsOf st x := by
    intro x
    unfold invDepsOf
    rw [hU.invd]
  have hkeys : akeys (update_ready_queue st).wf.steps = akeys st.wf.steps :=
    shape_keys hU.shape
  refine ⟨WFGraph.of_shape hU.shape hU.invd hP.graph, ?_, ?_, ?_, ?_, ?_, ?_, ?_, ?_, ?_, ?_, ?_⟩
  · rw [hq]
    refine hP.qnodup.append htn ?_
    intro q hq0 hqt
    have := hP.qready q hq0
    have hpend := (htm q hqt).2.1
    rw [this] at hpend
    exact absurd (Option.some.inj hpend) (by decide)
  · intro q hqm
    rw [hq] at hqm
    rcases List.mem_append.mp hqm with h0 | ht
    · have hr := hP.qready q h0
      have := hU.not_pending_stable q (by rw [hr]; intro h; exact absurd (Option.some.inj h) (by decide))
      rw [this, hr]
    · exact (htm q ht).2.2
  · intro q hqr
    rcases hU.trans q with he | ⟨hp, _⟩
    · rw [he] at hqr
      rw [hq]
      exact List.mem_append_left _ (hP.readyQ q hqr)
    · exact hU.readyQueue q hp hqr
  · intro k hk d hd
    rw [(hacc k).1] at hd
    rcases hU.trans k with he | ⟨hp, hr⟩
    · rw [he] at hk
      exact (hU.success_stable d).mpr (hP.depsSucc k hk d hd)
    · rcases hr with hr | hr
      · exact hU.readyDeps k hp hr d hd
      · rcases hk with h | h | h | h <;>
          (rw [hr] at h; exact absurd (Option.some.inj h) (by decide))
  · intro k hk
    have hkm : k ∈ akeys st.wf.steps := by
      rw [← hkeys]
      exact statusOf_isSome_mem hk
    obtain ⟨d, hd, hds⟩ := hU.pendBlocked k hkm hk
    exact ⟨d, by rw [(hacc k).1]; exact hd, hds⟩
  · intro k hk z hz
    rcases hU.trans k with he | ⟨hp, hr⟩
    · rw [he] at hk
      rw [hinvdeps k] at hz
      have hsk := hP.inv1 k hk z hz
      have := hU.not_pending_stable z (by rw [hsk]; intro h; exact absurd (Option.some.inj h) (by decide))
      rw [this, hsk]
    · rcases hr with hr | hr <;> (rw [hr] at hk; exact absurd (Option.some.inj hk) (by decide))
  · intro y hy
    rcases hU.trans y with he | ⟨hp, hr⟩
    · rw [he] at hy
      rcases hP.inv2 y hy with hl | hrr
      · left
        intro d hd
        rw [(hacc y).1] at hd
        exact (hU.success_stable d).mpr (hl d hd)
      · right
        intro z hz
        rw [hinvdeps y] at hz
        have hsk := hrr z hz
        have := hU.not_pending_stable z (by rw [hsk]; intro h; exact absurd (Option.some.inj h) (by decide))
        rw [this, hsk]
    · rcases hr with hr | hr
      · rw [hr] at hy
        exact absurd (Option.some.inj hy) (by decide)
      · left
        intro d hd
        rw [(hacc y).1] at hd
        exact (hU.skipDeps y hp hr).1 d hd
  · intro k
    rw [hU.log, hU.retr]
    have hc := hP.counts k
    rcases hU.trans k with he | ⟨hp, hr⟩
    · rw [he]
      exact hc
    · rw [hp] at hc
      rcases hr with hr | hr <;>
        (rw [hr]
         rw [if_neg (by intro h; rcases h with h | h | h <;> exact absurd (Option.some.inj h) (by decide))] at hc ⊢
         exact hc)
  · intro k m hm
    rw [(hacc k).2.2] at hm
    rw [hU.retr]
    exact hP.rcBound k m hm
  · intro k m hk hm
    rcases hU.trans k with he | ⟨hp, hr⟩
    · rw [he] at hk
      rw [(hacc k).2.2] at hm
      rw [hU.retr]
      exact hP.failedRC k m hk hm
    · rcases hr with hr | hr <;> (rw [hr] at hk; exact absurd (Option.some.inj hk) (by decide))
  · intro k hm
    rw [(hacc k).2.2] at hm
    rw [hU.retr]
    exact hP.zeroRC k hm

theorem isPR_true_iff (st : EState) (k : String) :
    isPR st k = true ↔
      (statusOf st k = some Status.pending ∨ statusOf st k = some Status.ready) := by
  unfold isPR
  cases h : statusOf st k with
  | none => simp
  | some s => cases s <;> simp

theorem statusOf_mem_isSome {st : EState} {k : String} (h : k ∈ akeys st.wf.steps) :
    ∃ s, statusOf st k = some s := by
  obtain ⟨v, hv⟩ := Option.isSome_iff_exists.mp ((alookup_isSome_iff st.wf.steps k).mpr h)
  exact ⟨v.status, by unfold statusOf; rw [hv]; rfl⟩

/-- After a non-terminally-failing outcome (success or a retry within
budget), the state satisfies the pre-invariant. -/
theorem PreInv_nocasc {st s1 : EState} (hI : Inv st) {sid : String} {stp : Step}
    (hrun : statusOf st sid = some Status.running)
    (hlk : alookup st.wf.steps sid = some stp) {b : Bool}
    (hs1 : s1 = applyOutcome b sid st)
    (hnf : statusOf s1 sid ≠ some Status.failed) : PreInv s1 := by
  have hsidkeys : sid ∈ akeys st.wf.steps := statusOf_isSome_mem hrun
  have hrc : retryOf st sid = stp.retry_count := by unfold retryOf; rw [hlk]; rfl
  have hfs : fsOf st sid = stp.failure_strategy := by unfold fsOf; rw [hlk]; rfl
  have hA_shape : shapeOf s1.wf = shapeOf st.wf := by rw [hs1]; exact applyOutcome_shape b sid st
  have hA_invd : s1.wf.inverse_dependencies = st.wf.inverse_dependencies := by
    rw [hs1]; exact applyOutcome_invd b sid st
  have hA_q : s1.ready_queue = st.ready_queue := by rw [hs1]; exact applyOutcome_queue b sid st
  have hA_log : s1.execution_order = st.execution_order := by
    rw [hs1]; exact applyOutcome_log b sid st
  have hA_ne : ∀ k, k ≠ sid → statusOf s1 k = statusOf st k := by
    intro k hk; rw [hs1]; exact applyOutcome_status_ne b sid k st hk
  have hA_ner : ∀ k, k ≠ sid → retryOf s1 k = retryOf st k := by
    intro k hk; rw [hs1]; exact applyOutcome_retry_ne b sid k st hk
  have hA_acc := shape_eq_accessors hA_shape
  have hA_inv : ∀ x, invDepsOf s1 x = invDepsOf st x := by
    intro x; unfold invDepsOf; rw [hA_invd]
  have hsnr : sid ∉ st.ready_queue := by
    intro h
    have := hI.qready sid h
    rw [hrun] at this
    exact absurd (Option.some.inj this) (by decide)
  have hcases := applyOutcome_self_cases hlk b
  have hsid1 : (statusOf s1 sid = some Status.success ∧ retryOf s1 sid = retryOf st sid)
      ∨ (statusOf s1 sid = some Status.pending ∧
          ∃ m, retryMax stp.failure_strategy = some m ∧ stp.retry_count < m ∧
            retryOf s1 sid = retryOf st sid + 1) := by
    cases b with
    | true =>
      obtain ⟨h1, h2⟩ := hcases.1 rfl
      exact Or.inl ⟨by rw [hs1]; exact h1, by rw [hs1]; exact h2⟩
    | false =>
      cases hm : retryMax stp.failure_strategy with
      | none =>
        exfalso
        apply hnf
        rw [hs1, applyOutcome_false_final_none hlk hm, statusOf_setStatus_self, hrun]
        rfl
      | some m =>
        by_cases hlt : stp.retry_count < m
        · obtain ⟨h1, h2⟩ := hcases.2.1 rfl m hm hlt
          exact Or.inr ⟨by rw [hs1]; exact h1, m, rfl, hlt, by rw [hs1]; exact h2⟩
        · exfalso
          apply hnf
          rw [hs1, applyOutcome_false_final_some hlk hm hlt, statusOf_setStatus_self, hrun]
          rfl
  have hsid_ns : statusOf s1 sid = some Status.success ∨ statusOf s1 sid = some Status.pending := by
    rcases hsid1 with ⟨h, _⟩ | ⟨h, _⟩
    · exact Or.inl h
    · exact Or.inr h
  have hsucc1 : ∀ d, statusOf st d = some Status.success →
      statusOf s1 d = some Status.success := by
    intro d hd
    have hds : d ≠ sid := by
      intro h; rw [h, hrun] at hd; exact absurd (Option.some.inj hd) (by decide)
    rw [hA_ne d hds]; exact hd
  have hskip1 : ∀ z, statusOf st z = some Status.skipped →
      statusOf s1 z = some Status.skipped := by
    intro z hz
    have hzs : z ≠ sid := by
      intro h; rw [h, hrun] at hz; exact absurd (Option.some.inj hz) (by decide)
    rw [hA_ne z hzs]; exact hz
  refine ⟨WFGraph.of_shape hA_shape hA_invd hI.graph, ?_, ?_, ?_, ?_, ?_, ?_, ?_, ?_, ?_, ?_⟩
  · rw [hA_q]; exact hI.qnodup
  · intro q hq
    rw [hA_q] at hq
    have hqs : q ≠ sid := fun h => hsnr (h ▸ hq)
    rw [hA_ne q hqs]
    exact hI.qready q hq
  · intro q hq
    have hqs : q ≠ sid := by
      intro h
      rw [h] at hq
      rcases hsid_ns with h2 | h2 <;> (rw [hq] at h2; exact absurd (Option.some.inj h2) (by decide))
    rw [hA_ne q hqs] at hq
    rw [hA_q]
    exact hI.readyQ q hq
  · intro k hk d hd
    rw [(hA_acc k).1] at hd
    by_cases hks : k = sid
    · subst hks
      rcases hsid1 with ⟨h1, _⟩ | ⟨h1, _⟩
      · exact hsucc1 d (hI.depsSucc k (Or.inr (Or.inl hrun)) d hd)
      · rcases hk with h | h | h | h <;> (rw [h1] at h; exact absurd (Option.some.inj h) (by decide))
    · rw [hA_ne k hks] at hk
      exact hsucc1 d (hI.depsSucc k hk d hd)
  · intro k hk z hz
    have hks : k ≠ sid := by
      intro h
      rw [h] at hk
      rcases hsid_ns with h2 | h2 <;> (rw [hk] at h2; exact absurd (Option.some.inj h2) (by decide))
    rw [hA_ne k hks] at hk
    rw [hA_inv k] at hz
    exact hskip1 z (hI.inv1 k hk z hz)
  · intro y hy
    have hys : y ≠ sid := by
      intro h
      rw [h] at hy
      rcases hsid_ns with h2 | h2 <;> (rw [hy] at h2; exact absurd (Option.some.inj h2) (by decide))
    rw [hA_ne y hys] at hy
    rcases hI.inv2 y hy with hl | hr
    · left
      intro d hd
      rw [(hA_acc y).1] at hd
      exact hsucc1 d (hl d hd)
    · right
      intro z hz
      rw [hA_inv y] at hz
      exact hskip1 z (hr z hz)
  · intro k
    by_cases hks : k = sid
    · subst hks
      have hc := hI.counts k
      rw [hrun, if_pos (Or.inl rfl)] at hc
      rw [hA_log]
      rcases hsid1 with ⟨h1, h2⟩ | ⟨h1, _, _, _, h2⟩
      · rw [h1, h2, if_pos (Or.inr (Or.inl rfl))]
        exact hc
      · rw [h1, h2, if_neg (by intro h; rcases h with h | h | h <;> exact absurd (Option.some.inj h) (by decide))]
        omega
    · rw [hA_log, hA_ner k hks, hA_ne k hks]
      exact hI.counts k
  · intro k m hm
    rw [(hA_acc k).2.2] at hm
    by_cases hks : k = sid
    · subst hks
      rcases hsid1 with ⟨_, h2⟩ | ⟨_, m2, hm2, hlt2, h2⟩
      · rw [h2]
        exact hI.rcBound k m hm
      · rw [h2]
        rw [hfs, hm2] at hm
        have : m2 = m := Option.some.inj hm
        subst this
        rw [hrc]
        omega
    · rw [hA_ner k hks]
      exact hI.rcBound k m hm
  · intro k m hk hm
    have hks : k ≠ sid := by
      intro h
      rw [h] at hk
      exact hnf hk
    rw [hA_ne k hks] at hk
    rw [(hA_acc k).2.2] at hm
    rw [hA_ner k hks]
    exact hI.failedRC k m hk hm
  · intro k hm
    rw [(hA_acc k).2.2] at hm
    by_cases hks : k = sid
    · subst hks
      rcases hsid1 with ⟨_, h2⟩ | ⟨_, m2, hm2, _, _⟩
      · rw [h2]
        exact hI.zeroRC k hm
      · exfalso
        rw [hfs] at hm
        rw [hm] at hm2
        exact Option.noConfusion hm2
    · rw [hA_ner k hks]
      exact hI.zeroRC k hm

/-- After a terminal failure and its skip cascade, the state satisfies
the pre-invariant. -/
theorem PreInv_casc {st s1 : EState} (hI : Inv st) {sid : String} {stp : Step}
    (hrun : statusOf st sid = some Status.running)
    (hlk : alookup st.wf.steps sid = some stp)
    (hs1 : s1 = applyOutcome false sid st)
    (hf : statusOf s1 sid = some Status.failed) : PreInv (skip_dependents sid s1) := by
  have hsidkeys : sid ∈ akeys st.wf.steps := statusOf_isSome_mem hrun
  have hrc : retryOf st sid = stp.retry_count := by unfold retryOf; rw [hlk]; rfl
  have hfs : fsOf st sid = stp.failure_strategy := by unfold fsOf; rw [hlk]; rfl
  have hA_shape : shapeOf s1.wf = shapeOf st.wf := by rw [hs1]; exact applyOutcome_shape false sid st
  have hA_invd : s1.wf.inverse_dependencies = st.wf.inverse_dependencies := by
    rw [hs1]; exact applyOutcome_invd false sid st
  have hA_q : s1.ready_queue = st.ready_queue := by rw [hs1]; exact applyOutcome_queue false sid st
  have hA_log : s1.execution_order = st.execution_order := by
    rw [hs1]; exact applyOutcome_log false sid st
  have hA_ne : ∀ k, k ≠ sid → statusOf s1 k = statusOf st k := by
    intro k hk; rw [hs1]; exact applyOutcome_status_ne false sid k st hk
  have hA_ner : ∀ k, k ≠ sid → retryOf s1 k = retryOf st k := by
    intro k hk; rw [hs1]; exact applyOutcome_retry_ne false sid k st hk
  have hA_acc := shape_eq_accessors hA_shape
  have hA_inv : ∀ x, invDepsOf s1 x = invDepsOf st x := by
    intro x; unfold invDepsOf; rw [hA_invd]
  have hsidkeys1 : sid ∈ akeys s1.wf.steps := by rw [shape_keys hA_shape]; exact hsidkeys
  have hsnr : sid ∉ st.ready_queue := by
    intro h
    have := hI.qready sid h
    rw [hrun] at this
    exact absurd (Option.some.inj this) (by decide)
  -- the terminal branch of the outcome application
  have hterm : retryOf s1 sid = retryOf st sid ∧
      ∀ m, retryMax stp.failure_strategy = some m → ¬ stp.retry_count < m := by
    cases hm : retryMax stp.failure_strategy with
    | none =>
      constructor
      · rw [hs1, applyOutcome_false_final_none hlk hm]
        exact retryOf_setStatus _ _ _ _
      · intro m h
        exact Option.noConfusion h
    | some m =>
      by_cases hlt : stp.retry_count < m
      · exfalso
        rw [hs1, applyOutcome_false_retry hlk hm hlt, statusOf_setStatus_self,
          statusOf_bumpRetry, hrun] at hf
        exact absurd (Option.some.inj hf) (by decide)
      · constructor
        · rw [hs1, applyOutcome_false_final_some hlk hm hlt]
          exact retryOf_setStatus _ _ _ _
        · intro m2 h2
          have hmm : m = m2 := Option.some.inj h2
          subst hmm
          exact hlt
  have hfrc_sid : ∀ m, retryMax stp.failure_strategy = some m → retryOf st sid = m := by
    intro m hm
    have h1 := hI.rcBound sid m (by rw [hfs]; exact hm)
    have h2 := hterm.2 m hm
    rw [hrc]
    rw [hrc] at h1
    omega
  have HG1 : WFGraph s1.wf := WFGraph.of_shape hA_shape hA_invd hI.graph
  have hq1 : s1.ready_queue.Nodup := by rw [hA_q]; exact hI.qnodup
  have hC : CascSpec s1 (skip_dependents sid s1) (invDepsOf s1 sid) :=
    skip_dependents_spec s1 sid HG1 hq1 hsidkeys1
  have hCshape : shapeOf (skip_dependents sid s1).wf = shapeOf st.wf := hC.shape.trans hA_shape
  have hCinvd : (skip_dependents sid s1).wf.inverse_dependencies = st.wf.inverse_dependencies :=
    hC.invd.trans hA_invd
  have hacc2 := shape_eq_accessors hCshape
  have hinv2x : ∀ x, invDepsOf (skip_dependents sid s1) x = invDepsOf st x := by
    intro x; unfold invDepsOf; rw [hCinvd]
  have h2sid : statusOf (skip_dependents sid s1) sid = some Status.failed := by
    have := hC.nonPR_stable sid (by simp [isPR, hf])
    rw [this, hf]
  -- status of direct dependents of the failed step
  obtain ⟨l, hl, hiff⟩ := hI.graph.invSpec sid hsidkeys
  have hinvsid : invDepsOf st sid = l := by unfold invDepsOf; rw [hl]; rfl
  have hzstat : ∀ z ∈ invDepsOf st sid,
      statusOf st z = some Status.pending ∨ statusOf st z = some Status.skipped := by
    intro z hz
    rw [hinvsid] at hz
    obtain ⟨s, hzs, hzmem⟩ := (hiff z).mp hz
    have hzk : z ∈ akeys st.wf.steps := (alookup_isSome_iff _ _).mp (by simp [hzs])
    have hzst : statusOf st z = some s.status := by unfold statusOf; rw [hzs]; rfl
    have hdz : sid ∈ depsOf st z := by unfold depsOf; rw [hzs]; exact hzmem
    cases hv : s.status with
    | pending => left; rw [hzst, hv]
    | skipped => right; rw [hzst, hv]
    | ready =>
      exfalso
      have := hI.depsSucc z (Or.inl (by rw [hzst, hv])) sid hdz
      rw [hrun] at this
      exact absurd (Option.some.inj this) (by decide)
    | running =>
      exfalso
      have := hI.depsSucc z (Or.inr (Or.inl (by rw [hzst, hv]))) sid hdz
      rw [hrun] at this
      exact absurd (Option.some.inj this) (by decide)
    | success =>
      exfalso
      have := hI.depsSucc z (Or.inr (Or.inr (Or.inl (by rw [hzst, hv])))) sid hdz
      rw [hrun] at this
      exact absurd (Option.some.inj this) (by decide)
    | failed =>
      exfalso
      have := hI.depsSucc z (Or.inr (Or.inr (Or.inr (by rw [hzst, hv])))) sid hdz
      rw [hrun] at this
      exact absurd (Option.some.inj this) (by decide)
  have hzskip : ∀ z ∈ invDepsOf st sid,
      statusOf (skip_dependents sid s1) z = some Status.skipped := by
    intro z hz
    rcases hzstat z hz with hp | hsk
    · have hzs : z ≠ sid := by
        intro h; rw [h, hrun] at hp; exact absurd (Option.some.inj hp) (by decide)
      have h1 : statusOf s1 z = some Status.pending := by rw [hA_ne z hzs]; exact hp
      exact hC.complete z (by rw [hA_inv sid]; exact hz)
        ((isPR_true_iff s1 z).mpr (Or.inl h1))
    · have hzs : z ≠ sid := by
        intro h; rw [h, hrun] at hsk; exact absurd (Option.some.inj hsk) (by decide)
      exact hC.skipped_stable z (by rw [hA_ne z hzs]; exact hsk)
  have hsucc2 : ∀ d, statusOf st d = some Status.success →
      statusOf (skip_dependents sid s1) d = some Status.success := by
    intro d hd
    have hds : d ≠ sid := by
      intro h; rw [h, hrun] at hd; exact absurd (Option.some.inj hd) (by decide)
    exact (hC.succ_stable d).mpr (by rw [hA_ne d hds]; exact hd)
  have hskip2 : ∀ z, statusOf st z = some Status.skipped →
      statusOf (skip_dependents sid s1) z = some Status.skipped := by
    intro z hz
    have hzs : z ≠ sid := by
      intro h; rw [h, hrun] at hz; exact absurd (Option.some.inj hz) (by decide)
    exact hC.skipped_stable z (by rw [hA_ne z hzs]; exact hz)
  have hdepsSucc1 : ∀ k, (statusOf s1 k = some Status.ready ∨ statusOf s1 k = some Status.running ∨
      statusOf s1 k = some Status.success ∨ statusOf s1 k = some Status.failed) →
      ∀ d ∈ depsOf s1 k, statusOf s1 d = some Status.success := by
    intro k hk d hd
    rw [(hA_acc k).1] at hd
    by_cases hks : k = sid
    · subst hks
      have hds : d ≠ k := by
        intro h
        have := hI.depsSucc k (Or.inr (Or.inl hrun)) d hd
        rw [h, hrun] at this
        exact absurd (Option.some.inj this) (by decide)
      rw [hA_ne d hds]
      exact hI.depsSucc k (Or.inr (Or.inl hrun)) d hd
    · rw [hA_ne k hks] at hk
      have hsd := hI.depsSucc k hk d hd
      have hds : d ≠ sid := by
        intro h; rw [h, hrun] at hsd; exact absurd (Option.some.inj hsd) (by decide)
      rw [hA_ne d hds]
      exact hsd
  have h2ne : ∀ k, k ≠ sid → (statusOf (skip_dependents sid s1) k = statusOf st k ∨
      (isPR st k = true ∧ statusOf (skip_dependents sid s1) k = some Status.skipped)) := by
    intro k hks
    rcases hC.trans k with he | ⟨hpr, hsk⟩
    · left; rw [he, hA_ne k hks]
    · right
      refine ⟨?_, hsk⟩
      rw [isPR_congr (hA_ne k hks)] at hpr
      exact hpr
  refine ⟨WFGraph.of_shape hCshape hCinvd hI.graph, hC.nodupQ, ?_, ?_, ?_, ?_, ?_, ?_, ?_, ?_, ?_⟩
  · intro q hq
    obtain ⟨hq1m, hqst⟩ := (hC.queue q).mp hq
    rw [hA_q] at hq1m
    have hqr := hI.qready q hq1m
    have hqs : q ≠ sid := fun h => hsnr (h ▸ hq1m)
    rw [hqst, hA_ne q hqs]
    exact hqr
  · intro q hq
    have hqs : q ≠ sid := by
      intro h
      rw [h, h2sid] at hq
      exact absurd (Option.some.inj hq) (by decide)
    rcases h2ne q hqs with he | ⟨_, hsk⟩
    · rw [he] at hq
      have hmem : q ∈ s1.ready_queue := by rw [hA_q]; exact hI.readyQ q hq
      refine (hC.queue q).mpr ⟨hmem, ?_⟩
      rcases hC.trans q with he2 | ⟨_, hsk2⟩
      · exact he2
      · exfalso
        rw [hsk2] at he
        rw [← he] at hq
        exact absurd (Option.some.inj hq) (by decide)
    · rw [hsk] at hq
      exact absurd (Option.some.inj hq) (by decide)
  · intro k hk d hd
    rw [(hacc2 k).1] at hd
    by_cases hks : k = sid
    · subst hks
      exact hsucc2 d (hI.depsSucc k (Or.inr (Or.inl hrun)) d hd)
    · rcases h2ne k hks with he | ⟨_, hsk⟩
      · rw [he] at hk
        exact hsucc2 d (hI.depsSucc k hk d hd)
      · rcases hk with h | h | h | h <;> (rw [hsk] at h; exact absurd (Option.some.inj h) (by decide))
  · intro k hk z hz
    by_cases hks : k = sid
    · subst hks
      rw [hinv2x k] at hz
      exact hzskip z hz
    · rcases h2ne k hks with he | ⟨_, hsk⟩
      · rw [he] at hk
        rw [hinv2x k] at hz
        exact hskip2 z (hI.inv1 k hk z hz)
      · rw [hsk] at hk
        exact absurd (Option.some.inj hk) (by decide)
  · intro y hy
    have hys : y ≠ sid := by
      intro h
      rw [h, h2sid] at hy
      exact absurd (Option.some.inj hy) (by decide)
    rcases hC.trans y with he | ⟨hpr, _⟩
    · rw [he, hA_ne y hys] at hy
      rcases hI.inv2 y hy with hl | hr
      · left
        intro d hd
        rw [(hacc2 y).1] at hd
        exact hsucc2 d (hl d hd)
      · right
        intro z hz
        rw [hinv2x y] at hz
        exact hskip2 z (hr z hz)
    · -- newly skipped by the cascade: its dependents end skipped too
      right
      intro z hz
      rw [hinv2x y] at hz
      have hykeys : y ∈ akeys st.wf.steps := by
        have h1 : y ∈ akeys (skip_dependents sid s1).wf.steps := statusOf_isSome_mem hy
        rw [shape_keys hCshape] at h1
        exact h1
      obtain ⟨ly, hly, hiffy⟩ := hI.graph.invSpec y hykeys
      have hinvy : invDepsOf st y = ly := by unfold invDepsOf; rw [hly]; rfl
      have hzky : z ∈ akeys st.wf.steps := by
        refine hI.graph.invMem_keys hly ?_ hykeys
        rw [← hinvy]
        exact hz
      obtain ⟨sz, hszs, hszm⟩ := (hiffy z).mp (by rw [← hinvy]; exact hz)
      have hydep : y ∈ depsOf s1 z := by
        rw [(hA_acc z).1]
        unfold depsOf
        rw [hszs]
        exact hszm
      -- z cannot have started at s1, else y would be SUCCESS
      have hynotsucc : statusOf s1 y ≠ some Status.success := by
        intro h
        rcases (isPR_true_iff s1 y).mp hpr with h2 | h2 <;>
          (rw [h] at h2; exact absurd (Option.some.inj h2) (by decide))
      have hzk1 : z ∈ akeys s1.wf.steps := by rw [shape_keys hA_shape]; exact hzky
      obtain ⟨sz1, hsz1⟩ := statusOf_mem_isSome hzk1
      have hz1cases : statusOf s1 z = some Status.pending ∨
          statusOf s1 z = some Status.skipped := by
        cases hv : sz1 with
        | pending => left; rw [hsz1, hv]
        | skipped => right; rw [hsz1, hv]
        | ready =>
          exfalso
          exact hynotsucc (hdepsSucc1 z (Or.inl (by rw [hsz1, hv])) y hydep)
        | running =>
          exfalso
          exact hynotsucc (hdepsSucc1 z (Or.inr (Or.inl (by rw [hsz1, hv]))) y hydep)
        | success =>
          exfalso
          exact hynotsucc (hdepsSucc1 z (Or.inr (Or.inr (Or.inl (by rw [hsz1, hv])))) y hydep)
        | failed =>
          exfalso
          exact hynotsucc (hdepsSucc1 z (Or.inr (Or.inr (Or.inr (by rw [hsz1, hv])))) y hydep)
      rcases hz1cases with hzp | hzsk
      · have hcl := hC.closure y hpr hy z (by rw [hA_inv y]; exact hz)
        rcases hC.trans z with he2 | ⟨_, hsk2⟩
        · exfalso
          have htrue : isPR (skip_dependents sid s1) z = true :=
            (isPR_true_iff _ z).mpr (Or.inl (by rw [he2, hzp]))
          rw [htrue] at hcl
          exact Bool.noConfusion hcl
        · exact hsk2
      · exact hC.skipped_stable z hzsk
  · intro k
    rw [hC.log, hA_log, hC.retr k]
    by_cases hks : k = sid
    · subst hks
      have hc := hI.counts k
      rw [hrun, if_pos (Or.inl rfl)] at hc
      rw [hterm.1, h2sid, if_pos (Or.inr (Or.inr rfl))]
      exact hc
    · rw [hA_ner k hks]
      rcases h2ne k hks with he | ⟨hpr, hsk⟩
      · rw [he]
        exact hI.counts k
      · have hc := hI.counts k
        rcases (isPR_true_iff st k).mp hpr with h2 | h2 <;>
          (rw [h2, if_neg (by intro h; rcases h with h | h | h <;> exact absurd (Option.some.inj h) (by decide))] at hc
           rw [hsk, if_neg (by intro h; rcases h with h | h | h <;> exact absurd (Option.some.inj h) (by decide))]
           exact hc)
  · intro k m hm
    rw [(hacc2 k).2.2] at hm
    rw [hC.retr k]
    by_cases hks : k = sid
    · subst hks
      rw [hterm.1]
      exact hI.rcBound k m hm
    · rw [hA_ner k hks]
      exact hI.rcBound k m hm
  · intro k m hk hm
    rw [(hacc2 k).2.2] at hm
    rw [hC.retr k]
    by_cases hks : k = sid
    · subst hks
      rw [hterm.1]
      rw [hfs] at hm
      exact hfrc_sid m hm
    · rw [hA_ner k hks]
      rcases h2ne k hks with he | ⟨_, hsk⟩
      · rw [he] at hk
        exact hI.failedRC k m hk hm
      · rw [hsk] at hk
        exact absurd (Option.some.inj hk) (by decide)
  · intro k hm
    rw [(hacc2 k).2.2] at hm
    rw [hC.retr k]
    by_cases hks : k = sid
    · subst hks
      rw [hterm.1]
      exact hI.zeroRC k hm
    · rw [hA_ner k hks]
      exact hI.zeroRC k hm

/-- Completing a running step preserves the invariant. -/
theorem Inv_complete {st : EState} (hI : Inv st) (oracle : String → Nat → Bool)
    {sid : String} (hrun : statusOf st sid = some Status.running) :
    Inv (completeStep oracle sid st) := by
  obtain ⟨stp, hlk⟩ : ∃ stp, alookup st.wf.steps sid = some stp := by
    cases h : alookup st.wf.steps sid with
    | none =>
      have : statusOf st sid = none := by unfold statusOf; rw [h]; rfl
      rw [hrun] at this
      exact Option.noConfusion this
    | some s => exact ⟨s, rfl⟩
  have heq : completeStep oracle sid st = update_ready_queue
      (if (oracle sid (st.execution_order.count sid - 1)) = false ∧
          statusOf (applyOutcome (oracle sid (st.execution_order.count sid - 1)) sid st) sid
            = some Status.failed
       then skip_dependents sid (applyOutcome (oracle sid (st.execution_order.count sid - 1)) sid st)
       else applyOutcome (oracle sid (st.execution_order.count sid - 1)) sid st) := rfl
  rw [heq]
  by_cases hcasc : (oracle sid (st.execution_order.count sid - 1)) = false ∧
      statusOf (applyOutcome (oracle sid (st.execution_order.count sid - 1)) sid st) sid
        = some Status.failed
  · rw [if_pos hcasc]
    exact PreInv_update (PreInv_casc hI hrun hlk (by rw [hcasc.1]) hcasc.2)
  · rw [if_neg hcasc]
    refine PreInv_update (PreInv_nocasc hI hrun hlk rfl ?_)
    intro hfail
    cases hbv : oracle sid (st.execution_order.count sid - 1) with
    | false =>
      rw [hbv] at hcasc hfail
      exact hcasc ⟨rfl, hfail⟩
    | true =>
      rw [hbv, applyOutcome_true, statusOf_setStatus_self, hrun] at hfail
      exact absurd (Option.some.inj hfail) (by decide)

/-! ### The invariant along whole runs -/

/-- A pristine parsed workflow: every step `PENDING` with a zero retry
counter, as built by `parse_workflow`. -/
def Fresh (wf : Workflow) : Prop :=
  ∀ p ∈ wf.steps, p.2.status = Status.pending ∧ p.2.retry_count = 0

theorem Inv_init {wf : Workflow} (hG : WFGraph wf) (hF : Fresh wf) : Inv (initState wf) := by
  have hstat : ∀ k s, statusOf { wf := wf, ready_queue := [], execution_order := [] } k
      = some s → s = Status.pending := by
    intro k s h
    unfold statusOf at h
    cases hlk : alookup wf.steps k with
    | none =>
      rw [hlk] at h
      exact Option.noConfusion h
    | some v =>
      rw [hlk] at h
      have hv : v.status = s := Option.some.inj h
      rw [← hv]
      exact (hF (k, v) (alookup_mem hlk)).1
  have hrc : ∀ k, retryOf { wf := wf, ready_queue := [], execution_order := [] } k = 0 := by
    intro k
    unfold retryOf
    cases hlk : alookup wf.steps k with
    | none => rfl
    | some v =>
      have h0 : v.retry_count = 0 := (hF (k, v) (alookup_mem hlk)).2
      simp [h0]
  have hP : PreInv { wf := wf, ready_queue := [], execution_order := [] } := by
    refine ⟨hG, List.nodup_nil, ?_, ?_, ?_, ?_, ?_, ?_, ?_, ?_, ?_⟩
    · intro q hq
      exact absurd hq (List.not_mem_nil q)
    · intro q hq
      exact absurd (hstat q Status.ready hq) (by decide)
    · intro k hk
      rcases hk with h | h | h | h <;> exact absurd (hstat k _ h) (by decide)
    · intro k hk
      exact absurd (hstat k Status.failed hk) (by decide)
    · intro y hy
      exact absurd (hstat y Status.skipped hy) (by decide)
    · intro k
      rw [hrc k]
      rw [if_neg (by intro h; rcases h with h | h | h <;> exact absurd (hstat k _ h) (by decide))]
      simp
    · intro k m _
      rw [hrc k]
      exact Nat.zero_le m
    · intro k m hk _
      exact absurd (hstat k Status.failed hk) (by decide)
    · intro k _
      exact hrc k
  exact PreInv_update hP

theorem Inv_reachable {wf : Workflow} (hG : WFGraph wf) (hF : Fresh wf)
    {oracle : String → Nat → Bool} {st : EState} (hre : Reachable oracle wf st) : Inv st := by
  induction hre with
  | refl => exact Inv_init hG hF
  | tail hab hbc ih =>
    obtain ⟨act, hstep⟩ := hbc
    cases hstep with
    | dispatch sid h => exact Inv_dispatch ih h
    | complete sid h => exact Inv_complete ih oracle h

/-! ### Shape preservation along whole runs -/

theorem processStep_none {st : EState} {k : String}
    (h : alookup st.wf.steps k = none) : processStep st k = st := by
  unfold processStep
  rw [h]

theorem processStep_shape (st : EState) (k : String) :
    shapeOf (processStep st k).wf = shapeOf st.wf ∧
    (processStep st k).wf.inverse_dependencies = st.wf.inverse_dependencies := by
  by_cases hk : k ∈ akeys st.wf.steps
  · have h := processStep_spec st k hk
    exact ⟨h.shape, h.invd⟩
  · rw [processStep_none ((alookup_eq_none_iff _ _).mpr hk)]
    exact ⟨rfl, rfl⟩

theorem update_fold_shape (ids : List String) :
    ∀ st : EState, shapeOf (ids.foldl processStep st).wf = shapeOf st.wf ∧
    (ids.foldl processStep st).wf.inverse_dependencies = st.wf.inverse_dependencies := by
  induction ids with
  | nil => intro st; exact ⟨rfl, rfl⟩
  | cons a r ih =>
    intro st
    have h1 := processStep_shape st a
    have h2 := ih (processStep st a)
    exact ⟨h2.1.trans h1.1, h2.2.trans h1.2⟩

theorem update_ready_queue_shape (st : EState) :
    shapeOf (update_ready_queue st).wf = shapeOf st.wf ∧
    (update_ready_queue st).wf.inverse_dependencies = st.wf.inverse_dependencies :=
  update_fold_shape (akeys st.wf.steps) st

theorem skipLoop_shape : ∀ (fuel : Nat) (st : EState) (ts skipped : List String),
    shapeOf (skipLoop fuel st ts skipped).wf = shapeOf st.wf ∧
    (skipLoop fuel st ts skipped).wf.inverse_dependencies = st.wf.inverse_dependencies := by
  intro fuel
  induction fuel with
  | zero => intro st ts skipped; exact ⟨rfl, rfl⟩
  | succ fuel ih =>
    intro st ts skipped
    match ts with
    | [] => exact ⟨rfl, rfl⟩
    | a :: rest =>
      by_cases hmem : a ∈ skipped
      · have heq : skipLoop (fuel + 1) st (a :: rest) skipped
            = skipLoop fuel st rest skipped := by simp [skipLoop, hmem]
        rw [heq]
        exact ih st rest skipped
      · cases hlk : alookup st.wf.steps a with
        | none =>
          have heq : skipLoop (fuel + 1) st (a :: rest) skipped = st := by
            simp [skipLoop, hmem, hlk]
          rw [heq]
          exact ⟨rfl, rfl⟩
        | some stp =>
          by_cases hPR : stp.status = Status.pending ∨ stp.status = Status.ready
          · have heq : skipLoop (fuel + 1) st (a :: rest) skipped
                = skipLoop fuel
                    { setStatus a Status.skipped st with
                      ready_queue := st.ready_queue.erase a }
                    (rest ++ invDepsOf { setStatus a Status.skipped st with
                      ready_queue := st.ready_queue.erase a } a)
                    (a :: skipped) := by
              simp [skipLoop, hmem, hlk, hPR]
            rw [heq]
            have h1 := ih { setStatus a Status.skipped st with
              ready_queue := st.ready_queue.erase a }
              (rest ++ invDepsOf { setStatus a Status.skipped st with
                ready_queue := st.ready_queue.erase a } a) (a :: skipped)
            exact ⟨h1.1.trans (setStatus_shape _ _ _), h1.2⟩
          · have heq : skipLoop (fuel + 1) st (a :: rest) skipped
                = skipLoop fuel st rest skipped := by simp [skipLoop, hmem, hlk, hPR]
            rw [heq]
            exact ih st rest skipped

theorem skip_dependents_shape (sid : String) (st : EState) :
    shapeOf (skip_dependents sid st).wf = shapeOf st.wf ∧
    (skip_dependents sid st).wf.inverse_dependencies = st.wf.inverse_dependencies :=
  skipLoop_shape _ _ _ _

theorem completeStep_shape (oracle : String → Nat → Bool) (sid : String) (st : EState) :
    shapeOf (completeStep oracle sid st).wf = shapeOf st.wf ∧
    (completeStep oracle sid st).wf.inverse_dependencies = st.wf.inverse_dependencies := by
  have heq : completeStep oracle sid st = update_ready_queue
      (if (oracle sid (st.execution_order.count sid - 1)) = false ∧
          statusOf (applyOutcome (oracle sid (st.execution_order.count sid - 1)) sid st) sid
            = some Status.failed
       then skip_dependents sid (applyOutcome (oracle sid (st.execution_order.count sid - 1)) sid st)
       else applyOutcome (oracle sid (st.execution_order.count sid - 1)) sid st) := rfl
  rw [heq]
  by_cases hcasc : (oracle sid (st.execution_order.count sid - 1)) = false ∧
      statusOf (applyOutcome (oracle sid (st.execution_order.count sid - 1)) sid st) sid
        = some Status.failed
  · rw [if_pos hcasc]
    have h1 := update_ready_queue_shape
      (skip_dependents sid (applyOutcome (oracle sid (st.execution_order.count sid - 1)) sid st))
    have h2 := skip_dependents_shape sid
      (applyOutcome (oracle sid (st.execution_order.count sid - 1)) sid st)
    have h3s := applyOutcome_shape (oracle sid (st.execution_order.count sid - 1)) sid st
    have h3i := applyOutcome_invd (oracle sid (st.execution_order.count sid - 1)) sid st
    exact ⟨(h1.1.trans h2.1).trans h3s, (h1.2.trans h2.2).trans h3i⟩
  · rw [if_neg hcasc]
    have h1 := update_ready_queue_shape
      (applyOutcome (oracle sid (st.execution_order.count sid - 1)) sid st)
    have h3s := applyOutcome_shape (oracle sid (st.execution_order.count sid - 1)) sid st
    have h3i := applyOutcome_invd (oracle sid (st.execution_order.count sid - 1)) sid st
    exact ⟨h1.1.trans h3s, h1.2.trans h3i⟩

theorem Reachable_shape {wf : Workflow} {oracle : String → Nat → Bool} {st : EState}
    (hre : Reachable oracle wf st) :
    shapeOf st.wf = shapeOf wf ∧ st.wf.inverse_dependencies = wf.inverse_dependencies := by
  induction hre with
  | refl =>
    exact update_ready_queue_shape { wf := wf, ready_queue := [], execution_order := [] }
  | tail hab hbc ih =>
    obtain ⟨act, hstep⟩ := hbc
    cases hstep with
    | dispatch sid h =>
      exact ⟨(dispatchStep_shape sid _).trans ih.1, (dispatchStep_invd sid _).trans ih.2⟩
    | complete sid h =>
      exact ⟨(completeStep_shape oracle sid _).1.trans ih.1,
        (completeStep_shape oracle sid _).2.trans ih.2⟩

/-! ### Transition summary of a completion -/

/-- What one completion does to every status: other steps change only
`PENDING/READY → READY/SKIPPED`; the completed step ends `SUCCESS`,
terminally `FAILED`, or back through `PENDING` (with its retry counter
bumped, within a declared budget); retry counters of other steps and the
log never change. -/
theorem completeStep_transition {st : EState} (hI : Inv st) (oracle : String → Nat → Bool)
    {sid : String} (hrun : statusOf st sid = some Status.running) :
    (∀ k, k ≠ sid →
      (statusOf (completeStep oracle sid st) k = statusOf st k ∨
      ((statusOf st k = some Status.pending ∨ statusOf st k = some Status.ready) ∧
        (statusOf (completeStep oracle sid st) k = some Status.ready ∨
         statusOf (completeStep oracle sid st) k = some Status.skipped))) ∧
      retryOf (completeStep oracle sid st) k = retryOf st k) ∧
    ((statusOf (completeStep oracle sid st) sid = some Status.success ∧
        retryOf (completeStep oracle sid st) sid = retryOf st sid) ∨
     (statusOf (completeStep oracle sid st) sid = some Status.failed ∧
        retryOf (completeStep oracle sid st) sid = retryOf st sid) ∨
     ((statusOf (completeStep oracle sid st) sid = some Status.pending ∨
       statusOf (completeStep oracle sid st) sid = some Status.ready ∨
       statusOf (completeStep oracle sid st) sid = some Status.skipped) ∧
        retryOf (completeStep oracle sid st) sid = retryOf st sid + 1 ∧
        ∃ m, retryMax (fsOf st sid) = some m ∧ retryOf st sid < m)) ∧
    (completeStep oracle sid st).execution_order = st.execution_order := by
  obtain ⟨stp, hlk⟩ : ∃ stp, alookup st.wf.steps sid = some stp := by
    cases h : alookup st.wf.steps sid with
    | none =>
      have : statusOf st sid = none := by unfold statusOf; rw [h]; rfl
      rw [hrun] at this
      exact Option.noConfusion this
    | some s => exact ⟨s, rfl⟩
  have hsidkeys : sid ∈ akeys st.wf.steps := statusOf_isSome_mem hrun
  have hrc : retryOf st sid = stp.retry_count := by unfold retryOf; rw [hlk]; rfl
  have hfs : fsOf st sid = stp.failure_strategy := by unfold fsOf; rw [hlk]; rfl
  have heq : completeStep oracle sid st = update_ready_queue
      (if (oracle sid (st.execution_order.count sid - 1)) = false ∧
          statusOf (applyOutcome (oracle sid (st.execution_order.count sid - 1)) sid st) sid
            = some Status.failed
       then skip_dependents sid (applyOutcome (oracle sid (st.execution_order.count sid - 1)) sid st)
       else applyOutcome (oracle sid (st.execution_order.count sid - 1)) sid st) := rfl
  -- facts about the outcome stage, for the oracle value at hand
  have hA_shape := applyOutcome_shape (oracle sid (st.execution_order.count sid - 1)) sid st
  have hA_invd := applyOutcome_invd (oracle sid (st.execution_order.count sid - 1)) sid st
  have hA_q := applyOutcome_queue (oracle sid (st.execution_order.count sid - 1)) sid st
  have hA_log := applyOutcome_log (oracle sid (st.execution_order.count sid - 1)) sid st
  have hA_ne := fun k hk => applyOutcome_status_ne (oracle sid (st.execution_order.count sid - 1)) sid k st hk
  have hA_ner := fun k hk => applyOutcome_retry_ne (oracle sid (st.execution_order.count sid - 1)) sid k st hk
  rw [heq]
  by_cases hcasc : (oracle sid (st.execution_order.count sid - 1)) = false ∧
      statusOf (applyOutcome (oracle sid (st.execution_order.count sid - 1)) sid st) sid
        = some Status.failed
  · rw [if_pos hcasc]
    have HG1 : WFGraph (applyOutcome (oracle sid (st.execution_order.count sid - 1)) sid st).wf :=
      WFGraph.of_shape hA_shape hA_invd hI.graph
    have hq1 : (applyOutcome (oracle sid (st.execution_order.count sid - 1)) sid st).ready_queue.Nodup := by
      rw [hA_q]; exact hI.qnodup
    have hsidkeys1 : sid ∈ akeys (applyOutcome (oracle sid (st.execution_order.count sid - 1)) sid st).wf.steps := by
      rw [shape_keys hA_shape]; exact hsidkeys
    have hC := skip_dependents_spec _ sid HG1 hq1 hsidkeys1
    have HG2 : WFGraph (skip_dependents sid (applyOutcome (oracle sid (st.execution_order.count sid - 1)) sid st)).wf :=
      WFGraph.of_shape hC.shape hC.invd HG1
    have hU := update_ready_queue_spec _ HG2.nodupKeys
    -- the terminal branch: the retry counter is unchanged
    have hb0 : oracle sid (st.execution_order.count sid - 1) = false := hcasc.1
    have hfail0 : statusOf (applyOutcome false sid st) sid = some Status.failed := by
      rw [← hb0]
      exact hcasc.2
    have hr1 : retryOf (applyOutcome (oracle sid (st.execution_order.count sid - 1)) sid st) sid
        = retryOf st sid := by
      rw [hb0]
      cases hm : retryMax stp.failure_strategy with
      | none =>
        rw [applyOutcome_false_final_none hlk hm]
        exact retryOf_setStatus _ _ _ _
      | some m =>
        by_cases hlt : stp.retry_count < m
        · exfalso
          rw [applyOutcome_false_retry hlk hm hlt, statusOf_setStatus_self,
            statusOf_bumpRetry, hrun] at hfail0
          exact absurd (Option.some.inj hfail0) (by decide)
        · rw [applyOutcome_false_final_some hlk hm hlt]
          exact retryOf_setStatus _ _ _ _
    refine ⟨?_, ?_, ?_⟩
    · intro k hk
      constructor
      · rcases hU.trans k with hu | ⟨hup, hur⟩
        · rcases hC.trans k with hc | ⟨hcp, hcs⟩
          · left
            rw [hu, hc, hA_ne k hk]
          · right
            rw [isPR_congr (hA_ne k hk)] at hcp
            refine ⟨(isPR_true_iff st k).mp hcp, ?_⟩
            right
            rw [hu, hcs]
        · right
          refine ⟨?_, ?_⟩
          · rcases hC.trans k with hc | ⟨_, hcs⟩
            · left
              rw [← hA_ne k hk, ← hc]
              exact hup
            · rw [hcs] at hup
              exact absurd (Option.some.inj hup) (by decide)
          · rcases hur with h | h
            · exact Or.inl h
            · exact Or.inr h
      · rw [hU.retr k, hC.retr k, hA_ner k hk]
    · right; left
      constructor
      · have h2 : statusOf (skip_dependents sid (applyOutcome (oracle sid (st.execution_order.count sid - 1)) sid st)) sid
            = some Status.failed := by
          have := hC.nonPR_stable sid (by simp [isPR, hcasc.2])
          rw [this, hcasc.2]
        have := hU.not_pending_stable sid (by rw [h2]; intro h; exact absurd (Option.some.inj h) (by decide))
        rw [this, h2]
      · rw [hU.retr sid, hC.retr sid, hr1]
    · rw [hU.log, hC.log, hA_log]
  · rw [if_neg hcasc]
    have HG1 : WFGraph (applyOutcome (oracle sid (st.execution_order.count sid - 1)) sid st).wf :=
      WFGraph.of_shape hA_shape hA_invd hI.graph
    have hU := update_ready_queue_spec _ HG1.nodupKeys
    have hcases := applyOutcome_self_cases hlk (oracle sid (st.execution_order.count sid - 1))
    refine ⟨?_, ?_, ?_⟩
    · intro k hk
      constructor
      · rcases hU.trans k with hu | ⟨hup, hur⟩
        · left
          rw [hu, hA_ne k hk]
        · right
          rw [hA_ne k hk] at hup
          refine ⟨Or.inl hup, ?_⟩
          rcases hur with h | h
          · exact Or.inl h
          · exact Or.inr h
      · rw [hU.retr k, hA_ner k hk]
    · by_cases hbv : oracle sid (st.execution_order.count sid - 1) = true
      · left
        obtain ⟨h1, h2⟩ := hcases.1 hbv
        constructor
        · have := hU.not_pending_stable sid (by rw [h1]; intro h; exact absurd (Option.some.inj h) (by decide))
          rw [this, h1]
        · rw [hU.retr sid]
          exact h2
      · have hbf : oracle sid (st.execution_order.count sid - 1) = false := by
          simpa using hbv
        right; right
        cases hm : retryMax stp.failure_strategy with
        | none =>
          exfalso
          apply hcasc
          refine ⟨hbf, ?_⟩
          rw [hbf, applyOutcome_false_final_none hlk hm, statusOf_setStatus_self, hrun]
          rfl
        | some m =>
          by_cases hlt : stp.retry_count < m
          · obtain ⟨h1, h2⟩ := hcases.2.1 hbf m hm hlt
            refine ⟨?_, ?_, m, by rw [hfs]; exact hm, by rw [hrc]; exact hlt⟩
            · rcases hU.trans sid with hu | ⟨_, hur⟩
              · left
                rw [hu, h1]
              · rcases hur with h | h
                · right; left; exact h
                · right; right; exact h
            · rw [hU.retr sid]
              exact h2
          · exfalso
            apply hcasc
            refine ⟨hbf, ?_⟩
            rw [hbf, applyOutcome_false_final_some hlk hm hlt, statusOf_setStatus_self, hrun]
            rfl
    · rw [hU.log, hA_log]

/-- Steps already in a terminal status are untouched by a completion. -/
theorem completeStep_terminal_stable {st : EState} (hI : Inv st)
    (oracle : String → Nat → Bool) {sid : String}
    (hrun : statusOf st sid = some Status.running) (k : String) :
    (statusOf st k = some Status.success →
      statusOf (completeStep oracle sid st) k = some Status.success) ∧
    (statusOf st k = some Status.failed →
      statusOf (completeStep oracle sid st) k = some Status.failed) ∧
    (statusOf st k = some Status.skipped →
      statusOf (completeStep oracle sid st) k = some Status.skipped) := by
  have htr := completeStep_transition hI oracle hrun
  have hgen : ∀ s : Status, s ≠ Status.running → statusOf st k = some s →
      s ≠ Status.pending → s ≠ Status.ready →
      statusOf (completeStep oracle sid st) k = some s := by
    intro s hsr hks hsp hsy
    have hk : k ≠ sid := by
      intro h
      rw [h, hrun] at hks
      exact hsr (Option.some.inj hks).symm
    rcases (htr.1 k hk).1 with h | ⟨hpr, _⟩
    · rw [h, hks]
    · rcases hpr with h2 | h2 <;> (rw [hks] at h2; first
        | exact absurd (Option.some.inj h2) hsp
        | exact absurd (Option.some.inj h2) hsy)
  exact ⟨fun h => hgen Status.success (by decide) h (by decide) (by decide),
    fun h => hgen Status.failed (by decide) h (by decide) (by decide),
    fun h => hgen Status.skipped (by decide) h (by decide) (by decide)⟩

/-- No step is RUNNING after a completion, provided the completed step was
the only running one. -/
theorem completeStep_norun {st : EState} (hI : Inv st) (oracle : String → Nat → Bool)
    {sid : String} (hrun : statusOf st sid = some Status.running)
    (honly : ∀ k, statusOf st k = some Status.running → k = sid) :
    ∀ k, statusOf (completeStep oracle sid st) k ≠ some Status.running := by
  have htr := completeStep_transition hI oracle hrun
  intro k hk
  by_cases hks : k = sid
  · subst hks
    rcases htr.2.1 with ⟨h, _⟩ | ⟨h, _⟩ | ⟨h, _, _⟩
    · rw [hk] at h; exact absurd (Option.some.inj h) (by decide)
    · rw [hk] at h; exact absurd (Option.some.inj h) (by decide)
    · rcases h with h | h | h <;> (rw [hk] at h; exact absurd (Option.some.inj h) (by decide))
  · rcases (htr.1 k hks).1 with h | ⟨_, hpr⟩
    · rw [hk] at h
      exact hks (honly k h.symm)
    · rcases hpr with h | h <;> (rw [hk] at h; exact absurd (Option.some.inj h) (by decide))

/-! ### Decidable construction of `WFGraph` for concrete workflows -/

def depEdgeB (wf : Workflow) (x y : String) : Bool :=
  match alookup wf.steps x with
  | some s => decide (y ∈ s.dependencies)
  | none => false

theorem depEdgeB_iff (wf : Workflow) (x y : String) :
    depEdgeB wf x y = true ↔ depEdge wf x y := by
  unfold depEdgeB depEdge
  cases h : alookup wf.steps x with
  | none => simp
  | some s => simp

/-- Decidable check of the reverse-dependency index consistency. -/
def invSpecB (wf : Workflow) : Bool :=
  (akeys wf.steps).all (fun x =>
    match alookup wf.inverse_dependencies x with
    | none => false
    | some l =>
      l.all (fun y => depEdgeB wf y x) &&
      wf.steps.all (fun p => ! depEdgeB wf p.1 x || decide (p.1 ∈ l)))

theorem invSpec_of_B {wf : Workflow} (h : invSpecB wf = true) :
    ∀ x ∈ akeys wf.steps, ∃ l, alookup wf.inverse_dependencies x = some l ∧
      ∀ y, y ∈ l ↔ depEdge wf y x := by
  intro x hx
  have hall := List.all_eq_true.mp h x hx
  cases hl : alookup wf.inverse_dependencies x with
  | none =>
    simp only [hl] at hall
    exact Bool.noConfusion hall
  | some l =>
    simp only [hl] at hall
    obtain ⟨h1, h2⟩ : l.all (fun y => depEdgeB wf y x) = true ∧
        wf.steps.all (fun p => ! depEdgeB wf p.1 x || decide (p.1 ∈ l)) = true := by
      simpa using hall
    refine ⟨l, rfl, ?_⟩
    intro y
    constructor
    · intro hy
      exact (depEdgeB_iff wf y x).mp (List.all_eq_true.mp h1 y hy)
    · intro hy
      obtain ⟨s, hs, hmem⟩ := hy
      have hpmem := alookup_mem hs
      have hchk := List.all_eq_true.mp h2 (y, s) hpmem
      have hedge : depEdgeB wf y x = true := (depEdgeB_iff wf y x).mpr ⟨s, hs, hmem⟩
      rw [hedge] at hchk
      simpa using hchk

theorem WFGraph_of_B {wf : Workflow}
    (h1 : (akeys wf.steps).Nodup) (h2 : WFdepsB wf = true) (h3 : invSpecB wf = true)
    (h4 : (akeys wf.inverse_dependencies).Nodup)
    (h5 : ∀ k ∈ akeys wf.steps, k ∈ akeys wf.inverse_dependencies) : WFGraph wf :=
  ⟨h1, WFdeps_of_B h2, invSpec_of_B h3, h4, h5⟩

/-! ### Claim C1 -/

/-- C1: causal order.  Along every run (the action system covers the
sequential loop and every parallel interleaving), a step can be dispatched
only when each of its declared dependencies has status SUCCESS, and a step
moves from PENDING to READY only in a state where all its dependencies are
SUCCESS. -/
theorem C1_causal_order (oracle : String → Nat → Bool) (wf : Workflow)
    (hG : WFGraph wf) (hF : Fresh wf) (st st2 : EState) (sid : String)
    (hre : Reachable oracle wf st) :
    (EStep oracle st (Act.dispatch sid) st2 →
      ∀ d ∈ depsOf st sid, statusOf st d = some Status.success) ∧
    (∀ act k, EStep oracle st act st2 → statusOf st k = some Status.pending →
      statusOf st2 k = some Status.ready →
      ∀ d ∈ depsOf st2 k, statusOf st2 d = some Status.success) := by
  have hI := Inv_reachable hG hF hre
  constructor
  · intro hstep d hd
    have hq : sid ∈ st.ready_queue := by
      cases hstep
      assumption
    exact hI.depsSucc sid (Or.inl (hI.qready sid hq)) d hd
  · intro act k hstep hp hr d hd
    have hre2 : Reachable oracle wf st2 := Relation.ReflTransGen.tail hre ⟨act, hstep⟩
    have hI2 := Inv_reachable hG hF hre2
    exact hI2.depsSucc k (Or.inl hr) d hd

/-- A two-step workflow (`b` depends on `a`) used as concrete input for the
engine claims. -/
def wfC1 : Workflow :=
  { name := "w"
    steps := [("a", { id := "a", command := "c" }),
              ("b", { id := "b", command := "c", dependencies := ["a"] })]
    inverse_dependencies := [("a", ["b"]), ("b", [])] }

theorem wfC1_graph : WFGraph wfC1 :=
  WFGraph_of_B (by decide) (by decide) (by decide) (by decide) (by decide)

/-- Closed witness for C1, on the two-step workflow with an always-succeed
oracle: the freshly seeded state dispatches `a`. -/
theorem C1_witness :
    (EStep (fun _ _ => true) (initState wfC1) (Act.dispatch "a")
        (dispatchStep "a" (initState wfC1)) →
      ∀ d ∈ depsOf (initState wfC1) "a",
        statusOf (initState wfC1) d = some Status.success) ∧
    (∀ act k, EStep (fun _ _ => true) (initState wfC1) act
        (dispatchStep "a" (initState wfC1)) →
      statusOf (initState wfC1) k = some Status.pending →
      statusOf (dispatchStep "a" (initState wfC1)) k = some Status.ready →
      ∀ d ∈ depsOf (dispatchStep "a" (initState wfC1)) k,
        statusOf (dispatchStep "a" (initState wfC1)) d = some Status.success) :=
  C1_causal_order (fun _ _ => true) wfC1 wfC1_graph (by unfold Fresh; decide)
    (initState wfC1) (dispatchStep "a" (initState wfC1)) "a" Relation.ReflTransGen.refl

/-! ### Claim C5 -/

/-- C5: condition gating.  When the readiness loop reaches a PENDING step
whose dependencies are all SUCCESS but whose condition evaluates false, the
step goes directly to SKIPPED and nothing is enqueued; and a SKIPPED step
in any reachable state is not in the ready queue, stays SKIPPED under every
engine action, and is never the dispatched step. -/
theorem C5_condition_gating (oracle : String → Nat → Bool) (wf : Workflow)
    (hG : WFGraph wf) (hF : Fresh wf) (st : EState) (hre : Reachable oracle wf st)
    (k : String) :
    (∀ st0 : EState, ∀ stp, alookup st0.wf.steps k = some stp →
      stp.status = Status.pending →
      depsSatisfied st0 stp = true → evalCond st0.wf stp.condition = false →
      statusOf (processStep st0 k) k = some Status.skipped ∧
      (processStep st0 k).ready_queue = st0.ready_queue) ∧
    (statusOf st k = some Status.skipped →
      k ∉ st.ready_queue ∧
      ∀ act st2, EStep oracle st act st2 →
        statusOf st2 k = some Status.skipped ∧ act ≠ Act.dispatch k) := by
  constructor
  · intro st0 stp hlk hp hds hev
    have hcondT : condTruthy stp.condition = true :=
      condTruthy_of_evalCond_false st0.wf stp.condition hev
    have hc1 : ¬ ((depsSatisfied st0 stp && evalCond st0.wf stp.condition) = true) := by
      rw [hds, hev]
      decide
    have hc2 : (depsSatisfied st0 stp && condTruthy stp.condition &&
        !(evalCond st0.wf stp.condition)) = true := by
      rw [hds, hcondT, hev]
      rfl
    have hst : statusOf st0 k = some stp.status := by unfold statusOf; rw [hlk]; rfl
    have heqp : processStep st0 k = setStatus k Status.skipped st0 := by
      unfold processStep
      simp only [hlk]
      rw [if_pos hp, if_neg hc1, if_pos hc2]
    rw [heqp]
    constructor
    · rw [statusOf_setStatus_self, hst]
      rfl
    · rfl
  · intro hsk
    have hI := Inv_reachable hG hF hre
    constructor
    · intro hmem
      have := hI.qready k hmem
      rw [hsk] at this
      exact absurd (Option.some.inj this) (by decide)
    · intro act st2 hstep
      cases hstep with
      | dispatch sid h =>
        have hks : k ≠ sid := by
          intro he
          have := hI.qready sid h
          rw [← he, hsk] at this
          exact absurd (Option.some.inj this) (by decide)
        constructor
        · rw [statusOf_dispatch_ne sid k _ hks]
          exact hsk
        · intro hact
          injection hact with h2
          exact hks h2.symm
      | complete sid h =>
        constructor
        · exact (completeStep_terminal_stable hI oracle h k).2.2 hsk
        · intro hact
          exact Act.noConfusion hact

/-- A one-step workflow whose only step has a truthy condition that
evaluates false (its own status is PENDING, not SUCCESS). -/
def wfC5 : Workflow :=
  { name := "w"
    steps := [("c", { id := "c", command := "x",
                      condition := some "status_c == 'SUCCESS'" })]
    inverse_dependencies := [("c", [])] }

/-- Closed witness for C5: the base state skips step `c` directly during
the readiness pass, and in the seeded state (where `c` is already SKIPPED)
it is out of the queue and stable. -/
theorem C5_witness :
    (statusOf (processStep { wf := wfC5, ready_queue := [], execution_order := [] } "c") "c"
        = some Status.skipped ∧
      (processStep { wf := wfC5, ready_queue := [], execution_order := [] } "c").ready_queue
        = ({ wf := wfC5, ready_queue := [], execution_order := [] } : EState).ready_queue) ∧
    ("c" ∉ (initState wfC5).ready_queue ∧
      ∀ act st2, EStep (fun _ _ => true) (initState wfC5) act st2 →
        statusOf st2 "c" = some Status.skipped ∧ act ≠ Act.dispatch "c") := by
  have h := C5_condition_gating (fun _ _ => true) wfC5
    (WFGraph_of_B (by decide) (by decide) (by decide) (by decide) (by decide))
    (by unfold Fresh; decide) (initState wfC5) Relation.ReflTransGen.refl "c"
  refine ⟨h.1 { wf := wfC5, ready_queue := [], execution_order := [] }
    { id := "c", command := "x", condition := some "status_c == 'SUCCESS'" }
    (by decide) (by decide) (by decide) (by decide), h.2 (by decide)⟩

/-! ### Claim C10 -/

/-- C10: a syntactically well-formed reference to a nonexistent step makes
the condition evaluate true, and a PENDING step carrying such a condition
(with its dependencies SUCCESS) is marked READY and enqueued by the
readiness pass exactly as if it had no condition. -/
theorem C10_unknown_reference (st : EState) (c : String) (v op w : List Char)
    (rest : List (List Char))
    (htok : pywords (padEq c.data) = v :: op :: w :: rest)
    (hpre : ("status_".data.isPrefixOf v || "result_".data.isPrefixOf v) = true)
    (hmiss : alookup st.wf.steps ⟨v.drop 7⟩ = none) :
    evalCond st.wf (some c) = true ∧
    (∀ k stp, alookup st.wf.steps k = some stp → stp.status = Status.pending →
      stp.condition = some c → depsSatisfied st stp = true →
      statusOf (processStep st k) k = some Status.ready ∧
      (processStep st k).ready_queue = st.ready_queue ++ [k]) := by
  have h1 : evalCond st.wf (some c) = true :=
    evalCond_unknown_id st.wf c v op w rest htok hpre hmiss
  refine ⟨h1, ?_⟩
  intro k stp hlk hp hcond hds
  have hc1 : (depsSatisfied st stp && evalCond st.wf stp.condition) = true := by
    rw [hds, hcond, h1]
    rfl
  have hst : statusOf st k = some stp.status := by unfold statusOf; rw [hlk]; rfl
  have heqp : processStep st k =
      { setStatus k Status.ready st with ready_queue := st.ready_queue ++ [k] } := by
    unfold processStep
    simp only [hlk]
    rw [if_pos hp, if_pos hc1]
  rw [heqp]
  constructor
  · show statusOf (setStatus k Status.ready st) k = some Status.ready
    rw [statusOf_setStatus_self, hst]
    rfl
  · rfl

/-- A one-step workflow whose step references the nonexistent `zz` in its
condition. -/
def wfC10 : Workflow :=
  { name := "w"
    steps := [("a", { id := "a", command := "x",
                      condition := some "status_zz == 'OK'" })]
    inverse_dependencies := [("a", [])] }

/-- Closed witness for C10: the dangling reference evaluates true and the
step is enqueued as if unconditioned. -/
theorem C10_witness :
    evalCond wfC10 (some "status_zz == 'OK'") = true ∧
    (statusOf (processStep { wf := wfC10, ready_queue := [], execution_order := [] } "a") "a"
        = some Status.ready ∧
      (processStep { wf := wfC10, ready_queue := [], execution_order := [] } "a").ready_queue
        = ({ wf := wfC10, ready_queue := [], execution_order := [] } : EState).ready_queue ++ ["a"]) := by
  have h := C10_unknown_reference { wf := wfC10, ready_queue := [], execution_order := [] }
    "status_zz == 'OK'" ("status_zz".data) ("==".data) ("'OK'".data) []
    (by decide) (by decide) (by decide)
  exact ⟨h.1, h.2 "a" { id := "a", command := "x", condition := some "status_zz == 'OK'" }
    (by decide) (by decide) (by decide) (by decide)⟩

/-! ### Claim C2 -/

/-- Erase the condition attribute of a step: the cascade never reads it. -/
def eraseStepCond (s : Step) : Step := { s with condition := none }

/-- Erase every condition in a state, leaving statuses, dependencies,
queues and the log untouched. -/
def eraseConds (st : EState) : EState :=
  { st with wf := { st.wf with
      steps := st.wf.steps.map (fun p => (p.1, eraseStepCond p.2)) } }

theorem amodify_map_comm (f g : Step → Step) (hcomm : ∀ s, f (g s) = g (f s)) :
    ∀ (l : List (String × Step)) (key : String),
    amodify f (l.map (fun p => (p.1, g p.2))) key
      = (amodify f l key).map (fun p => (p.1, g p.2)) := by
  intro l
  induction l with
  | nil => intro key; rfl
  | cons p r ih =>
    intro key
    obtain ⟨k, v⟩ := p
    by_cases h : k = key
    · simp [amodify, h, hcomm v]
    · simp [amodify, h, ih key]

theorem setStatus_eraseConds (sid : String) (s : Status) (st : EState) :
    setStatus sid s (eraseConds st) = eraseConds (setStatus sid s st) := by
  unfold setStatus eraseConds
  have hsteps := amodify_map_comm (fun stp => { stp with status := s }) eraseStepCond
    (fun stp => rfl) st.wf.steps sid
  simp only [hsteps]

theorem statusOf_eraseConds (st : EState) (k : String) :
    statusOf (eraseConds st) k = statusOf st k := by
  unfold statusOf eraseConds
  have := alookup_mapVal eraseStepCond st.wf.steps k
  simp only [this]
  cases alookup st.wf.steps k <;> rfl

theorem invDepsOf_eraseConds (st : EState) (k : String) :
    invDepsOf (eraseConds st) k = invDepsOf st k := rfl

/-- The skip cascade commutes with erasing every condition: it never
examines condition expressions. -/
theorem skipLoop_eraseConds : ∀ (fuel : Nat) (st : EState) (ts skipped : List String),
    skipLoop fuel (eraseConds st) ts skipped = eraseConds (skipLoop fuel st ts skipped) := by
  intro fuel
  induction fuel with
  | zero => intro st ts skipped; rfl
  | succ fuel ih =>
    intro st ts skipped
    match ts with
    | [] => rfl
    | a :: rest =>
      have hlkE : alookup (eraseConds st).wf.steps a
          = (alookup st.wf.steps a).map eraseStepCond :=
        alookup_mapVal eraseStepCond st.wf.steps a
      by_cases hmem : a ∈ skipped
      · have h1 : skipLoop (fuel + 1) (eraseConds st) (a :: rest) skipped
            = skipLoop fuel (eraseConds st) rest skipped := by simp [skipLoop, hmem]
        have h2 : skipLoop (fuel + 1) st (a :: rest) skipped
            = skipLoop fuel st rest skipped := by simp [skipLoop, hmem]
        rw [h1, h2, ih]
      · cases hlk : alookup st.wf.steps a with
        | none =>
          have hlkE2 : alookup (eraseConds st).wf.steps a = none := by
            rw [hlkE, hlk]
            rfl
          have h1 : skipLoop (fuel + 1) (eraseConds st) (a :: rest) skipped
              = eraseConds st := by simp [skipLoop, hmem, hlkE2]
          have h2 : skipLoop (fuel + 1) st (a :: rest) skipped = st := by
            simp [skipLoop, hmem, hlk]
          rw [h1, h2]
        | some stp =>
          have hlkE2 : alookup (eraseConds st).wf.steps a = some (eraseStepCond stp) := by
            rw [hlkE, hlk]
            rfl
          have hstE : (eraseStepCond stp).status = stp.status := rfl
          by_cases hPR : stp.status = Status.pending ∨ stp.status = Status.ready
          · have hPRE : (eraseStepCond stp).status = Status.pending ∨
                (eraseStepCond stp).status = Status.ready := by rw [hstE]; exact hPR
            have h1 : skipLoop (fuel + 1) (eraseConds st) (a :: rest) skipped
                = skipLoop fuel
                    { setStatus a Status.skipped (eraseConds st) with
                      ready_queue := (eraseConds st).ready_queue.erase a }
                    (rest ++ invDepsOf { setStatus a Status.skipped (eraseConds st) with
                      ready_queue := (eraseConds st).ready_queue.erase a } a)
                    (a :: skipped) := by
              simp [skipLoop, hmem, hlkE2, hPRE]
            have h2 : skipLoop (fuel + 1) st (a :: rest) skipped
                = skipLoop fuel
                    { setStatus a Status.skipped st with
                      ready_queue := st.ready_queue.erase a }
                    (rest ++ invDepsOf { setStatus a Status.skipped st with
                      ready_queue := st.ready_queue.erase a } a)
                    (a :: skipped) := by
              simp [skipLoop, hmem, hlk, hPR]
            have hstate : ({ setStatus a Status.skipped (eraseConds st) with
                ready_queue := (eraseConds st).ready_queue.erase a } : EState)
                = eraseConds { setStatus a Status.skipped st with
                    ready_queue := st.ready_queue.erase a } := by
              rw [setStatus_eraseConds]
              rfl
            have hinv : invDepsOf { setStatus a Status.skipped (eraseConds st) with
                ready_queue := (eraseConds st).ready_queue.erase a } a
                = invDepsOf { setStatus a Status.skipped st with
                    ready_queue := st.ready_queue.erase a } a := by
              rw [hstate]
              rfl
            rw [h1, h2, hinv, hstate, ih]
          · have hPRE : ¬ ((eraseStepCond stp).status = Status.pending ∨
                (eraseStepCond stp).status = Status.ready) := by rw [hstE]; exact hPR
            have h1 : skipLoop (fuel + 1) (eraseConds st) (a :: rest) skipped
                = skipLoop fuel (eraseConds st) rest skipped := by
              simp [skipLoop, hmem, hlkE2, hPRE]
            have h2 : skipLoop (fuel + 1) st (a :: rest) skipped
                = skipLoop fuel st rest skipped := by
              simp [skipLoop, hmem, hlk, hPR]
            rw [h1, h2, ih]

theorem skip_dependents_eraseConds (root : String) (st : EState) :
    skip_dependents root (eraseConds st) = eraseConds (skip_dependents root st) := by
  unfold skip_dependents
  have hfuel : cascadeFuel (eraseConds st) root = cascadeFuel st root := rfl
  have hinv : invDepsOf (eraseConds st) root = invDepsOf st root := rfl
  rw [hfuel, hinv, skipLoop_eraseConds]

/-- In an invariant state, every transitive dependent of a terminally
FAILED step is SKIPPED (the inductive consequence of the cascade closure
and dependency-success facts). -/
theorem failed_descendants_skipped {st : EState} (hI : Inv st) {sid : String}
    (hfail : statusOf st sid = some Status.failed) :
    ∀ z, Relation.TransGen (depEdge st.wf) z sid → statusOf st z = some Status.skipped := by
  have hsidkeys : sid ∈ akeys st.wf.steps := statusOf_isSome_mem hfail
  have main : ∀ z, Relation.TransGen (depEdge st.wf) z sid →
      statusOf st z = some Status.skipped ∧
      ∃ d ∈ depsOf st z, statusOf st d ≠ some Status.success := by
    intro z hz
    refine Relation.TransGen.head_induction_on hz ?_ ?_
    · intro a h
      obtain ⟨s, hls, hmem⟩ := h
      obtain ⟨l, hl, hiff⟩ := hI.graph.invSpec sid hsidkeys
      have hal : a ∈ l := (hiff a).mpr ⟨s, hls, hmem⟩
      have hainv : a ∈ invDepsOf st sid := by
        unfold invDepsOf
        rw [hl]
        exact hal
      refine ⟨hI.inv1 sid hfail a hainv, sid, ?_, ?_⟩
      · unfold depsOf
        rw [hls]
        exact hmem
      · rw [hfail]
        intro h2
        exact absurd (Option.some.inj h2) (by decide)
    · intro a c h2 hc ihc
      obtain ⟨hcsk, hcd⟩ := ihc
      have hckeys : c ∈ akeys st.wf.steps := statusOf_isSome_mem hcsk
      rcases hI.inv2 c hcsk with hl | hr
      · exfalso
        obtain ⟨d, hd, hds⟩ := hcd
        exact hds (hl d hd)
      · obtain ⟨l, hlc, hiffc⟩ := hI.graph.invSpec c hckeys
        obtain ⟨s, hla, hcm⟩ := h2
        have hal : a ∈ l := (hiffc a).mpr ⟨s, hla, hcm⟩
        have hainv : a ∈ invDepsOf st c := by
          unfold invDepsOf
          rw [hlc]
          exact hal
        refine ⟨hr a hainv, c, ?_, ?_⟩
        · unfold depsOf
          rw [hla]
          exact hcm
        · rw [hcsk]
          intro h3
          exact absurd (Option.some.inj h3) (by decide)
  intro z hz
  exact (main z hz).1

/-- C2: the skip cascade.  In every reachable state where a step is
terminally FAILED, every transitive dependent is SKIPPED and out of the
ready queue; a completion leaves already-terminal steps untouched; and the
cascade commutes with erasing every condition expression (it never
re-examines them). -/
theorem C2_skip_cascade (oracle : String → Nat → Bool) (wf : Workflow)
    (hG : WFGraph wf) (hF : Fresh wf) (st : EState) (hre : Reachable oracle wf st)
    (sid : String) :
    (statusOf st sid = some Status.failed →
      ∀ z, Relation.TransGen (depEdge wf) z sid →
        statusOf st z = some Status.skipped ∧ z ∉ st.ready_queue) ∧
    (∀ st2, EStep oracle st (Act.complete sid) st2 → ∀ k,
      (statusOf st k = some Status.success → statusOf st2 k = some Status.success) ∧
      (statusOf st k = some Status.failed → statusOf st2 k = some Status.failed) ∧
      (statusOf st k = some Status.skipped → statusOf st2 k = some Status.skipped)) ∧
    (∀ root (st0 : EState), skip_dependents root (eraseConds st0)
        = eraseConds (skip_dependents root st0)) := by
  have hI := Inv_reachable hG hF hre
  have hsh := (Reachable_shape hre).1
  refine ⟨?_, ?_, ?_⟩
  · intro hfail z hz
    have hz2 : Relation.TransGen (depEdge st.wf) z sid :=
      Relation.TransGen.mono (fun x y h => (shape_depEdge hsh x y).mpr h) hz
    have hsk := failed_descendants_skipped hI hfail z hz2
    refine ⟨hsk, ?_⟩
    intro hmem
    have := hI.qready z hmem
    rw [hsk] at this
    exact absurd (Option.some.inj this) (by decide)
  · intro st2 hstep k
    have hrun : statusOf st sid = some Status.running := by
      cases hstep
      assumption
    have hst2 : st2 = completeStep oracle sid st := by
      cases hstep
      rfl
    rw [hst2]
    exact completeStep_terminal_stable hI oracle hrun k
  · intro root st0
    exact skip_dependents_eraseConds root st0

def orFalse : String → Nat → Bool := fun _ _ => false

/-- The state of the two-step workflow after dispatching and terminally
failing step `a`. -/
def stC2v : EState := completeStep orFalse "a" (dispatchStep "a" (initState wfC1))

/-- Closed witness for C2: after `a` fails, its dependent `b` is SKIPPED
and out of the queue, and the cascade commutes with condition erasure. -/
theorem C2_witness :
    (statusOf stC2v "b" = some Status.skipped ∧ "b" ∉ stC2v.ready_queue) ∧
    skip_dependents "a" (eraseConds stC2v) = eraseConds (skip_dependents "a" stC2v) := by
  have h := C2_skip_cascade orFalse wfC1 wfC1_graph (by unfold Fresh; decide) stC2v
    (Relation.ReflTransGen.tail
      (Relation.ReflTransGen.tail Relation.ReflTransGen.refl
        ⟨Act.dispatch "a", EStep.dispatch (initState wfC1) "a" (by decide)⟩)
      ⟨Act.complete "a", EStep.complete (dispatchStep "a" (initState wfC1)) "a" (by decide)⟩)
    "a"
  exact ⟨h.1 (by decide) "b"
    (Relation.TransGen.single ⟨{ id := "b", command := "c", dependencies := ["a"] },
      by decide, by decide⟩),
    h.2.2 "a" stC2v⟩

/-! ### Claim C3 -/

/-- C3: retry semantics for a step with a `retry:N` policy.  A terminally
FAILED step has exactly `N+1` log entries (one per dispatch) and a retry
counter of `N`; a failing attempt within budget puts the step back to
PENDING with the counter bumped, triggers no cascade (the completion is
just the readiness pass), and leaves every other status unchanged; a
successful attempt ends SUCCESS with the counter giving the number of
failed attempts; each dispatch appends one log entry. -/
theorem C3_retry_semantics (oracle : String → Nat → Bool) (wf : Workflow)
    (hG : WFGraph wf) (hF : Fresh wf) (st : EState) (hre : Reachable oracle wf st)
    (sid : String) (N : Nat) (hN : retryMax (fsOf st sid) = some N) :
    (statusOf st sid = some Status.failed →
      st.execution_order.count sid = N + 1 ∧ retryOf st sid = N) ∧
    (statusOf st sid = some Status.running →
      (oracle sid (st.execution_order.count sid - 1) = false →
        retryOf st sid < N →
        statusOf (applyOutcome false sid st) sid = some Status.pending ∧
        retryOf (applyOutcome false sid st) sid = retryOf st sid + 1 ∧
        completeStep oracle sid st = update_ready_queue (applyOutcome false sid st) ∧
        (∀ z, z ≠ sid → statusOf (completeStep oracle sid st) z = statusOf st z)) ∧
      (oracle sid (st.execution_order.count sid - 1) = true →
        statusOf (completeStep oracle sid st) sid = some Status.success ∧
        retryOf (completeStep oracle sid st) sid = retryOf st sid ∧
        (completeStep oracle sid st).execution_order.count sid = retryOf st sid + 1)) ∧
    (∀ st2, EStep oracle st (Act.dispatch sid) st2 →
      st2.execution_order = st.execution_order ++ [sid]) := by
  have hI := Inv_reachable hG hF hre
  refine ⟨?_, ?_, ?_⟩
  · intro hfail
    have hc := hI.counts sid
    rw [hfail, if_pos (Or.inr (Or.inr rfl))] at hc
    have hrc := hI.failedRC sid N hfail hN
    rw [hrc] at hc
    exact ⟨hc, hrc⟩
  · intro hrun
    obtain ⟨stp, hlk⟩ : ∃ stp, alookup st.wf.steps sid = some stp := by
      cases h : alookup st.wf.steps sid with
      | none =>
        have : statusOf st sid = none := by unfold statusOf; rw [h]; rfl
        rw [hrun] at this
        exact Option.noConfusion this
      | some s => exact ⟨s, rfl⟩
    have hrc : retryOf st sid = stp.retry_count := by unfold retryOf; rw [hlk]; rfl
    have hfs : fsOf st sid = stp.failure_strategy := by unfold fsOf; rw [hlk]; rfl
    rw [hfs] at hN
    have heq : completeStep oracle sid st = update_ready_queue
        (if (oracle sid (st.execution_order.count sid - 1)) = false ∧
            statusOf (applyOutcome (oracle sid (st.execution_order.count sid - 1)) sid st) sid
              = some Status.failed
         then skip_dependents sid (applyOutcome (oracle sid (st.execution_order.count sid - 1)) sid st)
         else applyOutcome (oracle sid (st.execution_order.count sid - 1)) sid st) := rfl
    constructor
    · intro hb hlt
      rw [hrc] at hlt
      have happly : applyOutcome false sid st = setStatus sid Status.pending (bumpRetry sid st) :=
        applyOutcome_false_retry hlk hN hlt
      have hs1 : statusOf (applyOutcome false sid st) sid = some Status.pending := by
        rw [happly, statusOf_setStatus_self, statusOf_bumpRetry, hrun]
        rfl
      have hnc : ¬ ((oracle sid (st.execution_order.count sid - 1)) = false ∧
          statusOf (applyOutcome (oracle sid (st.execution_order.count sid - 1)) sid st) sid
            = some Status.failed) := by
        rintro ⟨_, h2⟩
        rw [hb, hs1] at h2
        exact absurd (Option.some.inj h2) (by decide)
      have hceq : completeStep oracle sid st = update_ready_queue (applyOutcome false sid st) := by
        rw [heq, if_neg hnc, hb]
      have HG1 : WFGraph (applyOutcome false sid st).wf :=
        WFGraph.of_shape (applyOutcome_shape false sid st) (applyOutcome_invd false sid st) hI.graph
      have hU := update_ready_queue_spec (applyOutcome false sid st) HG1.nodupKeys
      have hacc := shape_eq_accessors (applyOutcome_shape false sid st)
      refine ⟨hs1, ?_, hceq, ?_⟩
      · rw [happly, retryOf_setStatus]
        exact retryOf_bumpRetry_self hlk
      · intro z hz
        rw [hceq]
        have hz1 : statusOf (applyOutcome false sid st) z = statusOf st z :=
          applyOutcome_status_ne false sid z st hz
        rcases hU.trans z with hu | ⟨hup, hur⟩
        · rw [hu, hz1]
        · exfalso
          have hup0 : statusOf st z = some Status.pending := by rw [← hz1]; exact hup
          obtain ⟨d, hd, hds⟩ := hI.pendDep z hup0
          have hd1 : d ∈ depsOf (applyOutcome false sid st) z := by
            rw [(hacc z).1]
            exact hd
          have hds1 : statusOf (applyOutcome false sid st) d ≠ some Status.success := by
            by_cases hdsid : d = sid
            · subst hdsid
              rw [hs1]
              intro h
              exact absurd (Option.some.inj h) (by decide)
            · rw [applyOutcome_status_ne false sid d st hdsid]
              exact hds
          have hds2 : statusOf (update_ready_queue (applyOutcome false sid st)) d
              ≠ some Status.success := by
            intro h
            exact hds1 ((hU.success_stable d).mp h)
          rcases hur with hur | hur
          · exact hds2 (hU.readyDeps z hup hur d hd1)
          · exact hds2 ((hU.skipDeps z hup hur).1 d hd1)
    · intro hb
      have happly : applyOutcome true sid st = setStatus sid Status.success st :=
        applyOutcome_true sid st
      have hs1 : statusOf (applyOutcome true sid st) sid = some Status.success := by
        rw [happly, statusOf_setStatus_self, hrun]
        rfl
      have hnc : ¬ ((oracle sid (st.execution_order.count sid - 1)) = false ∧
          statusOf (applyOutcome (oracle sid (st.execution_order.count sid - 1)) sid st) sid
            = some Status.failed) := by
        rintro ⟨h1, _⟩
        rw [hb] at h1
        exact Bool.noConfusion h1
      have hceq : completeStep oracle sid st = update_ready_queue (applyOutcome true sid st) := by
        rw [heq, if_neg hnc, hb]
      have HG1 : WFGraph (applyOutcome true sid st).wf :=
        WFGraph.of_shape (applyOutcome_shape true sid st) (applyOutcome_invd true sid st) hI.graph
      have hU := update_ready_queue_spec (applyOutcome true sid st) HG1.nodupKeys
      have hlog : (completeStep oracle sid st).execution_order = st.execution_order := by
        rw [hceq, hU.log, applyOutcome_log]
      refine ⟨?_, ?_, ?_⟩
      · rw [hceq]
        have := hU.not_pending_stable sid (by rw [hs1]; intro h; exact absurd (Option.some.inj h) (by decide))
        rw [this, hs1]
      · rw [hceq, hU.retr sid, happly, retryOf_setStatus]
      · rw [hlog]
        have hc := hI.counts sid
        rw [hrun, if_pos (Or.inl rfl)] at hc
        exact hc
  · intro st2 hstep
    cases hstep
    rfl

/-- A one-step workflow whose only step retries once. -/
def wfC3 : Workflow :=
  { name := "w"
    steps := [("r", { id := "r", command := "x", failure_strategy := some "retry:1" })]
    inverse_dependencies := [("r", [])] }

def stC3 : EState := dispatchStep "r" (initState wfC3)

/-- Closed witness for C3: the first failing attempt of the retrying step
puts it back to PENDING with the counter bumped and no cascade. -/
theorem C3_witness :
    statusOf (applyOutcome false "r" stC3) "r" = some Status.pending ∧
    retryOf (applyOutcome false "r" stC3) "r" = retryOf stC3 "r" + 1 ∧
    completeStep orFalse "r" stC3 = update_ready_queue (applyOutcome false "r" stC3) ∧
    (∀ z, z ≠ "r" → statusOf (completeStep orFalse "r" stC3) z = statusOf stC3 z) :=
  ((C3_retry_semantics orFalse wfC3
      (WFGraph_of_B (by decide) (by decide) (by decide) (by decide) (by decide))
      (by unfold Fresh; decide) stC3
      (Relation.ReflTransGen.tail Relation.ReflTransGen.refl
        ⟨Act.dispatch "r", EStep.dispatch (initState wfC3) "r" (by decide)⟩)
      "r" 1 (by decide)).2.1 (by decide)).1 (by decide) (by decide)

/-! ### Claim C7 -/

theorem map_sum_le_of_le (l : List String) (f g : String → Nat)
    (h : ∀ x ∈ l, f x ≤ g x) : (l.map f).sum ≤ (l.map g).sum := by
  induction l with
  | nil => exact Nat.le_refl 0
  | cons a r ih =>
    simp only [List.map_cons, List.sum_cons]
    have h1 := h a (List.mem_cons_self a r)
    have h2 := ih (fun x hx => h x (List.mem_cons_of_mem _ hx))
    omega

theorem map_sum_lt_of_mem (l : List String) (f g : String → Nat)
    (hle : ∀ x ∈ l, f x ≤ g x) (y : String) (hy : y ∈ l) (hlt : f y < g y) :
    (l.map f).sum < (l.map g).sum := by
  induction l with
  | nil => exact absurd hy (List.not_mem_nil y)
  | cons a r ih =>
    simp only [List.map_cons, List.sum_cons]
    rcases List.mem_cons.mp hy with rfl | hyr
    · have h2 := map_sum_le_of_le r f g (fun x hx => hle x (List.mem_cons_of_mem _ hx))
      omega
    · have h1 := hle a (List.mem_cons_self a r)
      have h2 := ih (fun x hx => hle x (List.mem_cons_of_mem _ hx)) hyr
      omega

/-- Remaining dispatch allowance of a step: its retry budget plus one while
it can still run, zero once terminal. -/
def budget (st : EState) (k : String) : Nat :=
  match statusOf st k with
  | some Status.pending => (retryMax (fsOf st k)).getD 0 + 1 - retryOf st k
  | some Status.ready => (retryMax (fsOf st k)).getD 0 + 1 - retryOf st k
  | some Status.running => (retryMax (fsOf st k)).getD 0 + 1 - retryOf st k
  | _ => 0

/-- The termination measure of the sequential loop. -/
def measureM (st : EState) : Nat := ((akeys st.wf.steps).map (budget st)).sum

theorem budget_congr {st1 st0 : EState} {k : String}
    (hs : statusOf st1 k = statusOf st0 k) (hr : retryOf st1 k = retryOf st0 k)
    (hf : fsOf st1 k = fsOf st0 k) : budget st1 k = budget st0 k := by
  unfold budget
  rw [hs, hr, hf]

theorem budget_le_cap (st : EState) (k : String) :
    budget st k ≤ (retryMax (fsOf st k)).getD 0 + 1 := by
  unfold budget
  cases statusOf st k with
  | none => exact Nat.zero_le _
  | some s => cases s <;> first | exact Nat.zero_le _ | exact Nat.sub_le _ _

/-- Each loop iteration (dispatch one ready step, complete it) strictly
decreases the measure. -/
theorem measure_iter_lt {st : EState} (hI : Inv st) (oracle : String → Nat → Bool)
    {sid : String} (hq : sid ∈ st.ready_queue) :
    measureM (completeStep oracle sid (dispatchStep sid st)) < measureM st := by
  have hrdy : statusOf st sid = some Status.ready := hI.qready sid hq
  obtain ⟨stp, hlk⟩ : ∃ stp, alookup st.wf.steps sid = some stp := by
    cases h : alookup st.wf.steps sid with
    | none =>
      have : statusOf st sid = none := by unfold statusOf; rw [h]; rfl
      rw [hrdy] at this
      exact Option.noConfusion this
    | some s => exact ⟨s, rfl⟩
  have hI1 : Inv (dispatchStep sid st) := Inv_dispatch hI hq
  have hrun : statusOf (dispatchStep sid st) sid = some Status.running :=
    statusOf_dispatch_self hlk
  have htr := completeStep_transition hI1 oracle hrun
  have hsh2 : shapeOf (completeStep oracle sid (dispatchStep sid st)).wf = shapeOf st.wf :=
    (completeStep_shape oracle sid (dispatchStep sid st)).1.trans (dispatchStep_shape sid st)
  have hacc2 := shape_eq_accessors hsh2
  have hacc1 := shape_eq_accessors (dispatchStep_shape sid st)
  have hkeys : akeys (completeStep oracle sid (dispatchStep sid st)).wf.steps
      = akeys st.wf.steps := shape_keys hsh2
  have hcap : retryOf st sid ≤ (retryMax (fsOf st sid)).getD 0 := by
    cases hm : retryMax (fsOf st sid) with
    | none =>
      rw [hI.zeroRC sid hm]
      exact Nat.zero_le _
    | some m =>
      simpa using hI.rcBound sid m hm
  have hb_sid : budget st sid = (retryMax (fsOf st sid)).getD 0 + 1 - retryOf st sid := by
    unfold budget
    rw [hrdy]
  have hb_sid_pos : 1 ≤ budget st sid := by
    rw [hb_sid]
    omega
  have hstrict : budget (completeStep oracle sid (dispatchStep sid st)) sid < budget st sid := by
    rcases htr.2.1 with ⟨h1, _⟩ | ⟨h1, _⟩ | ⟨h1, h2, m, hm, hlt⟩
    · have hz : budget (completeStep oracle sid (dispatchStep sid st)) sid = 0 := by
        unfold budget
        rw [h1]
      omega
    · have hz : budget (completeStep oracle sid (dispatchStep sid st)) sid = 0 := by
        unfold budget
        rw [h1]
      omega
    · have hm0 : retryMax (fsOf st sid) = some m := by
        rw [← (hacc1 sid).2.2]
        exact hm
      have hrc2 : retryOf (completeStep oracle sid (dispatchStep sid st)) sid
          = retryOf st sid + 1 := by
        rw [h2, retryOf_dispatch]
      have hlt0 : retryOf st sid < m := by
        rw [← retryOf_dispatch sid sid st]
        exact hlt
      rcases h1 with h1 | h1 | h1
      · have hv : budget (completeStep oracle sid (dispatchStep sid st)) sid
            = (retryMax (fsOf (completeStep oracle sid (dispatchStep sid st)) sid)).getD 0 + 1
              - retryOf (completeStep oracle sid (dispatchStep sid st)) sid := by
          unfold budget
          rw [h1]
        rw [hv, (hacc2 sid).2.2, hrc2, hb_sid, hm0]
        simp only [Option.getD_some]
        omega
      · have hv : budget (completeStep oracle sid (dispatchStep sid st)) sid
            = (retryMax (fsOf (completeStep oracle sid (dispatchStep sid st)) sid)).getD 0 + 1
              - retryOf (completeStep oracle sid (dispatchStep sid st)) sid := by
          unfold budget
          rw [h1]
        rw [hv, (hacc2 sid).2.2, hrc2, hb_sid, hm0]
        simp only [Option.getD_some]
        omega
      · have hz : budget (completeStep oracle sid (dispatchStep sid st)) sid = 0 := by
          unfold budget
          rw [h1]
        omega
  have hle : ∀ k ∈ akeys st.wf.steps,
      budget (completeStep oracle sid (dispatchStep sid st)) k ≤ budget st k := by
    intro k _
    by_cases hks : k = sid
    · subst hks
      exact Nat.le_of_lt hstrict
    · obtain ⟨hst, hrc⟩ := htr.1 k hks
      have heqr : retryOf (completeStep oracle sid (dispatchStep sid st)) k = retryOf st k := by
        rw [hrc, retryOf_dispatch]
      rcases hst with h | ⟨hpr, hfin⟩
      · have heqs : statusOf (completeStep oracle sid (dispatchStep sid st)) k
            = statusOf st k := by
          rw [h, statusOf_dispatch_ne sid k st hks]
        rw [budget_congr heqs heqr (hacc2 k).2.2]
      · have hpr0 : statusOf st k = some Status.pending ∨ statusOf st k = some Status.ready := by
          rw [← statusOf_dispatch_ne sid k st hks]
          exact hpr
        rcases hfin with hf | hf
        · have h2v : budget (completeStep oracle sid (dispatchStep sid st)) k
              = (retryMax (fsOf (completeStep oracle sid (dispatchStep sid st)) k)).getD 0 + 1
                - retryOf (completeStep oracle sid (dispatchStep sid st)) k := by
            unfold budget
            rw [hf]
          have h0v : budget st k = (retryMax (fsOf st k)).getD 0 + 1 - retryOf st k := by
            unfold budget
            rcases hpr0 with h | h <;> rw [h]
          rw [h2v, h0v, (hacc2 k).2.2, heqr]
        · have h2v : budget (completeStep oracle sid (dispatchStep sid st)) k = 0 := by
            unfold budget
            rw [hf]
          omega
  have hsum := map_sum_lt_of_mem (akeys st.wf.steps)
    (budget (completeStep oracle sid (dispatchStep sid st))) (budget st)
    hle sid (statusOf_isSome_mem hrdy) hstrict
  unfold measureM
  rw [hkeys]
  exact hsum

/-- The sequential loop with FIFO selection drains the queue, preserves the
invariant and no-running, and only takes engine actions. -/
theorem seqLoop_master (oracle : String → Nat → Bool) :
    ∀ (fuel : Nat) (st : EState), Inv st → (∀ k, statusOf st k ≠ some Status.running) →
    measureM st < fuel →
    Inv (seqLoop oracle fifoSel fuel st) ∧
    (∀ k, statusOf (seqLoop oracle fifoSel fuel st) k ≠ some Status.running) ∧
    (seqLoop oracle fifoSel fuel st).ready_queue = [] ∧
    Relation.ReflTransGen (fun a b => ∃ act, EStep oracle a act b) st
      (seqLoop oracle fifoSel fuel st) := by
  intro fuel
  induction fuel with
  | zero =>
    intro st _ _ hm
    exact absurd hm (Nat.not_lt_zero _)
  | succ fuel ih =>
    intro st hI hNR hm
    by_cases hqe : st.ready_queue = []
    · have heq : seqLoop oracle fifoSel (fuel + 1) st = st := by simp [seqLoop, hqe]
      rw [heq]
      exact ⟨hI, hNR, hqe, Relation.ReflTransGen.refl⟩
    · obtain ⟨a, t, hql⟩ : ∃ a t, st.ready_queue = a :: t := by
        cases hql : st.ready_queue with
        | nil => exact absurd hql hqe
        | cons a t => exact ⟨a, t, rfl⟩
      have hsel : fifoSel st = some a := by unfold fifoSel; rw [hql]; rfl
      have heq : seqLoop oracle fifoSel (fuel + 1) st
          = seqLoop oracle fifoSel fuel (completeStep oracle a (dispatchStep a st)) := by
        simp [seqLoop, hqe, hsel]
      have ha : a ∈ st.ready_queue := by rw [hql]; exact List.mem_cons_self a t
      have hrdy := hI.qready a ha
      obtain ⟨stp, hlk⟩ : ∃ stp, alookup st.wf.steps a = some stp := by
        cases h : alookup st.wf.steps a with
        | none =>
          have : statusOf st a = none := by unfold statusOf; rw [h]; rfl
          rw [hrdy] at this
          exact Option.noConfusion this
        | some s => exact ⟨s, rfl⟩
      have hI1 := Inv_dispatch hI ha
      have hrun : statusOf (dispatchStep a st) a = some Status.running :=
        statusOf_dispatch_self hlk
      have hI2 := Inv_complete hI1 oracle hrun
      have honly : ∀ k, statusOf (dispatchStep a st) k = some Status.running → k = a := by
        intro k hk
        by_contra hks
        rw [statusOf_dispatch_ne a k st hks] at hk
        exact hNR k hk
      have hNR2 := completeStep_norun hI1 oracle hrun honly
      have hlt := measure_iter_lt hI oracle ha
      have hm2 : measureM (completeStep oracle a (dispatchStep a st)) < fuel := by omega
      obtain ⟨e1, e2, e3, e4⟩ := ih (completeStep oracle a (dispatchStep a st)) hI2 hNR2 hm2
      rw [heq]
      refine ⟨e1, e2, e3, ?_⟩
      exact Relation.ReflTransGen.head ⟨Act.dispatch a, EStep.dispatch st a ha⟩
        (Relation.ReflTransGen.head
          ⟨Act.complete a, EStep.complete (dispatchStep a st) a hrun⟩ e4)

theorem NoRunning_init {wf : Workflow} (hG : WFGraph wf) (hF : Fresh wf) :
    ∀ k, statusOf (initState wf) k ≠ some Status.running := by
  intro k hk
  have hU : UpdSpec { wf := wf, ready_queue := [], execution_order := [] }
      (initState wf) (akeys wf.steps) :=
    update_ready_queue_spec { wf := wf, ready_queue := [], execution_order := [] } hG.nodupKeys
  rcases hU.trans k with hu | ⟨_, hur⟩
  · rw [hu] at hk
    unfold statusOf at hk
    cases hlk : alookup wf.steps k with
    | none =>
      rw [hlk] at hk
      exact Option.noConfusion hk
    | some v =>
      rw [hlk] at hk
      have hv : v.status = Status.running := Option.some.inj hk
      have := (hF (k, v) (alookup_mem hlk)).1
      rw [hv] at this
      exact absurd this (by decide)
  · rcases hur with h | h <;> (rw [hk] at h; exact absurd (Option.some.inj h) (by decide))

theorem measureM_init_lt {wf : Workflow} (hG : WFGraph wf) :
    measureM (initState wf) < seqFuel wf := by
  have hsh : shapeOf (initState wf).wf
      = shapeOf ({ wf := wf, ready_queue := [], execution_order := [] } : EState).wf :=
    (update_ready_queue_shape { wf := wf, ready_queue := [], execution_order := [] }).1
  have hkeys : akeys (initState wf).wf.steps = akeys wf.steps := shape_keys hsh
  have hacc := shape_eq_accessors hsh
  have hle := map_sum_le_of_le (akeys wf.steps) (budget (initState wf))
    (fun k => (retryMax (fsOf (initState wf) k)).getD 0 + 1)
    (fun k _ => budget_le_cap (initState wf) k)
  have hmap1 : (akeys wf.steps).map (fun k => (retryMax (fsOf (initState wf) k)).getD 0 + 1)
      = (akeys wf.steps).map (fun k =>
          (retryMax ((alookup wf.steps k).getD { id := "", command := "" }).failure_strategy).getD 0
            + 1) := by
    apply List.map_congr_left
    intro k hk
    obtain ⟨v, hv⟩ := Option.isSome_iff_exists.mp ((alookup_isSome_iff wf.steps k).mpr hk)
    have h1 : fsOf (initState wf) k = v.failure_strategy := by
      rw [(hacc k).2.2]
      unfold fsOf
      rw [show alookup ({ wf := wf, ready_queue := [], execution_order := [] } : EState).wf.steps k
        = some v from hv]
      rfl
    rw [h1, hv]
    rfl
  have hmap2 : ((akeys wf.steps).map (fun k =>
      (retryMax ((alookup wf.steps k).getD { id := "", command := "" }).failure_strategy).getD 0
        + 1)).sum
      = (wf.steps.map (fun p => (retryMax p.2.failure_strategy).getD 0 + 1)).sum :=
    akeys_map_getD_sum (fun v : Step => (retryMax v.failure_strategy).getD 0 + 1)
      { id := "", command := "" } wf.steps hG.nodupKeys
  have hmap3 : (wf.steps.map (fun p => (retryMax p.2.failure_strategy).getD 0 + 1)).sum
      = (wf.steps.map (fun p => match retryMax p.2.failure_strategy with
          | some m => m + 1
          | none => 1)).sum := by
    congr 1
    apply List.map_congr_left
    intro p _
    cases hm : retryMax p.2.failure_strategy <;> simp [hm]
  rw [hmap1] at hle
  rw [hmap2, hmap3] at hle
  unfold measureM seqFuel
  rw [hkeys]
  omega

/-- When the queue is empty and nothing is running, every stored step is
SUCCESS, FAILED or SKIPPED, or PENDING with a FAILED or SKIPPED ancestor
through dependencies. -/
theorem exit_classification {st : EState} (hI : Inv st)
    (hNR : ∀ k, statusOf st k ≠ some Status.running)
    (hqe : st.ready_queue = []) (hacyc : Acyclic st.wf) :
    ∀ k ∈ akeys st.wf.steps,
      statusOf st k = some Status.success ∨ statusOf st k = some Status.failed ∨
      statusOf st k = some Status.skipped ∨
      (statusOf st k = some Status.pending ∧
        ∃ a, Relation.TransGen (depEdge st.wf) k a ∧
          (statusOf st a = some Status.failed ∨ statusOf st a = some Status.skipped)) := by
  haveI hfin : Finite {x // x ∈ akeys st.wf.steps} :=
    (List.finite_toSet (akeys st.wf.steps)).to_subtype
  haveI htrans : IsTrans {x // x ∈ akeys st.wf.steps}
      (fun d k => Relation.TransGen (depEdge st.wf) k.1 d.1) :=
    ⟨fun _ _ _ h1 h2 => Relation.TransGen.trans h2 h1⟩
  haveI hirr : IsIrrefl {x // x ∈ akeys st.wf.steps}
      (fun d k => Relation.TransGen (depEdge st.wf) k.1 d.1) :=
    ⟨fun x h => hacyc x.1 h⟩
  have hwf : WellFounded (fun d k : {x // x ∈ akeys st.wf.steps} =>
      Relation.TransGen (depEdge st.wf) k.1 d.1) :=
    Finite.wellFounded_of_trans_of_irrefl _
  have key : ∀ x : {x // x ∈ akeys st.wf.steps},
      statusOf st x.1 = some Status.pending →
      ∃ a, Relation.TransGen (depEdge st.wf) x.1 a ∧
        (statusOf st a = some Status.failed ∨ statusOf st a = some Status.skipped) := by
    intro x
    refine @WellFounded.induction _ _ hwf
      (fun z => statusOf st z.1 = some Status.pending →
        ∃ a, Relation.TransGen (depEdge st.wf) z.1 a ∧
          (statusOf st a = some Status.failed ∨ statusOf st a = some Status.skipped)) x ?_
    intro z ihz hp
    obtain ⟨d, hd, hds⟩ := hI.pendDep z.1 hp
    obtain ⟨s, hls⟩ : ∃ s, alookup st.wf.steps z.1 = some s := by
      cases h : alookup st.wf.steps z.1 with
      | none =>
        have : statusOf st z.1 = none := by unfold statusOf; rw [h]; rfl
        rw [hp] at this
        exact Option.noConfusion this
      | some s => exact ⟨s, rfl⟩
    have hd2 : d ∈ s.dependencies := by
      unfold depsOf at hd
      rw [hls] at hd
      exact hd
    have hedge : depEdge st.wf z.1 d := ⟨s, hls, hd2⟩
    have hdkeys : d ∈ akeys st.wf.steps := hI.graph.depsExist z.1 s hls d hd2
    obtain ⟨sd, hsd⟩ := @statusOf_mem_isSome st d hdkeys
    cases hv : sd with
    | pending =>
      have hdp : statusOf st d = some Status.pending := by rw [hsd, hv]
      obtain ⟨a, ha, hstat⟩ := ihz ⟨d, hdkeys⟩ (Relation.TransGen.single hedge) hdp
      exact ⟨a, Relation.TransGen.head hedge ha, hstat⟩
    | ready =>
      exfalso
      have := hI.readyQ d (by rw [hsd, hv])
      rw [hqe] at this
      exact absurd this (List.not_mem_nil d)
    | running =>
      exfalso
      exact hNR d (by rw [hsd, hv])
    | success =>
      exfalso
      exact hds (by rw [hsd, hv])
    | failed => exact ⟨d, Relation.TransGen.single hedge, Or.inl (by rw [hsd, hv])⟩
    | skipped => exact ⟨d, Relation.TransGen.single hedge, Or.inr (by rw [hsd, hv])⟩
  intro k hk
  obtain ⟨sk, hsk⟩ := @statusOf_mem_isSome st k hk
  cases hv : sk with
  | success => exact Or.inl (by rw [hsk, hv])
  | failed => exact Or.inr (Or.inl (by rw [hsk, hv]))
  | skipped => exact Or.inr (Or.inr (Or.inl (by rw [hsk, hv])))
  | running =>
    exfalso
    exact hNR k (by rw [hsk, hv])
  | ready =>
    exfalso
    have := hI.readyQ k (by rw [hsk, hv])
    rw [hqe] at this
    exact absurd this (List.not_mem_nil k)
  | pending =>
    have hp : statusOf st k = some Status.pending := by rw [hsk, hv]
    exact Or.inr (Or.inr (Or.inr ⟨hp, key ⟨k, hk⟩ hp⟩))

/-- C7 (amended): drain to exhaustion.  On a well-formed acyclic graph the
FIFO sequential run always empties the ready queue regardless of command
failures; at exit every step is SUCCESS, FAILED or SKIPPED, or PENDING with
a FAILED-or-SKIPPED ancestor (a SKIPPED-only ancestry is possible, so
PENDING does not require a failure); and if no step ended FAILED or SKIPPED
then every step is SUCCESS. -/
theorem C7_drain (oracle : String → Nat → Bool) (wf : Workflow)
    (hG : WFGraph wf) (hF : Fresh wf) (hacyc : Acyclic wf) :
    (runSequential oracle fifoSel wf).ready_queue = [] ∧
    (∀ k ∈ akeys wf.steps,
      statusOf (runSequential oracle fifoSel wf) k = some Status.success ∨
      statusOf (runSequential oracle fifoSel wf) k = some Status.failed ∨
      statusOf (runSequential oracle fifoSel wf) k = some Status.skipped ∨
      (statusOf (runSequential oracle fifoSel wf) k = some Status.pending ∧
        ∃ a, Relation.TransGen (depEdge wf) k a ∧
          (statusOf (runSequential oracle fifoSel wf) a = some Status.failed ∨
           statusOf (runSequential oracle fifoSel wf) a = some Status.skipped))) ∧
    ((∀ k ∈ akeys wf.steps,
        statusOf (runSequential oracle fifoSel wf) k ≠ some Status.failed ∧
        statusOf (runSequential oracle fifoSel wf) k ≠ some Status.skipped) →
      ∀ k ∈ akeys wf.steps,
        statusOf (runSequential oracle fifoSel wf) k = some Status.success) := by
  have hI0 := Inv_init hG hF
  have hNR0 := NoRunning_init hG hF
  have hm0 := @measureM_init_lt wf hG
  obtain ⟨hIf, hNRf, hqf, hchain⟩ := seqLoop_master oracle (seqFuel wf) (initState wf) hI0 hNR0 hm0
  have hre : Reachable oracle wf (runSequential oracle fifoSel wf) := hchain
  have hsh := (Reachable_shape hre).1
  have hkeysf : akeys (runSequential oracle fifoSel wf).wf.steps = akeys wf.steps :=
    shape_keys hsh
  have hacycf : Acyclic (runSequential oracle fifoSel wf).wf := by
    intro m hm
    exact hacyc m (Relation.TransGen.mono (fun x y h => (shape_depEdge hsh x y).mp h) hm)
  have hcls := exit_classification hIf hNRf hqf hacycf
  refine ⟨hqf, ?_, ?_⟩
  · intro k hk
    have hk2 : k ∈ akeys (runSequential oracle fifoSel wf).wf.steps := by
      rw [hkeysf]
      exact hk
    rcases hcls k hk2 with h | h | h | ⟨hp, a, ha, hstat⟩
    · exact Or.inl h
    · exact Or.inr (Or.inl h)
    · exact Or.inr (Or.inr (Or.inl h))
    · refine Or.inr (Or.inr (Or.inr ⟨hp, a, ?_, hstat⟩))
      exact Relation.TransGen.mono (fun x y h => (shape_depEdge hsh x y).mp h) ha
  · intro hnf k hk
    have hk2 : k ∈ akeys (runSequential oracle fifoSel wf).wf.steps := by
      rw [hkeysf]
      exact hk
    rcases hcls k hk2 with h | h | h | ⟨_, a, ha, hstat⟩
    · exact h
    · exact absurd h (hnf k hk).1
    · exact absurd h (hnf k hk).2
    · exfalso
      have hakeys : a ∈ akeys wf.steps := by
        rw [← hkeysf]
        rcases hstat with h | h <;> exact statusOf_isSome_mem h
      rcases hstat with h | h
      · exact (hnf a hakeys).1 h
      · exact (hnf a hakeys).2 h

/-- A graph whose step `c` carries a condition that evaluates false at the
first readiness pass (its own status is not yet SUCCESS) and whose step `d`
depends on `c`. -/
def wfC7 : Workflow :=
  { name := "w"
    steps := [("c", { id := "c", command := "x",
                      condition := some "status_c == 'SUCCESS'" }),
              ("d", { id := "d", command := "x", dependencies := ["c"] })]
    inverse_dependencies := [("c", ["d"]), ("d", [])] }

theorem wfC7_acyclic : Acyclic wfC7 := by
  refine Acyclic.of_rank wfC7 (fun x => if x = "d" then 1 else 0) ?_
  rintro x y ⟨s, hs, hy⟩
  have hm := alookup_mem hs
  simp only [wfC7, List.mem_cons, List.not_mem_nil, or_false, Prod.mk.injEq] at hm
  rcases hm with ⟨hx, hs2⟩ | ⟨hx, hs2⟩
  · subst hs2
    exact absurd hy (List.not_mem_nil y)
  · subst hs2
    subst hx
    have hy2 : y = "c" := List.mem_singleton.mp hy
    subst hy2
    decide

/-- C7, counterexample to the original claim: with an always-succeeding
oracle (no command ever fails) the run over `wfC7` ends with `d` still
PENDING — its ancestor `c` was SKIPPED by its condition, and no step is
FAILED. -/
theorem C7_counterexample :
    statusOf (runSequential (fun _ _ => true) fifoSel wfC7) "d" = some Status.pending ∧
    (∀ k ∈ akeys wfC7.steps,
      statusOf (runSequential (fun _ _ => true) fifoSel wfC7) k ≠ some Status.failed) := by
  constructor
  · rfl
  · decide

/-- Closed witness for the amended C7 theorem on the concrete graph
`wfC7`. -/
theorem C7_witness :
    (runSequential (fun _ _ => true) fifoSel wfC7).ready_queue = [] ∧
    (∀ k ∈ akeys wfC7.steps,
      statusOf (runSequential (fun _ _ => true) fifoSel wfC7) k = some Status.success ∨
      statusOf (runSequential (fun _ _ => true) fifoSel wfC7) k = some Status.failed ∨
      statusOf (runSequential (fun _ _ => true) fifoSel wfC7) k = some Status.skipped ∨
      (statusOf (runSequential (fun _ _ => true) fifoSel wfC7) k = some Status.pending ∧
        ∃ a, Relation.TransGen (depEdge wfC7) k a ∧
          (statusOf (runSequential (fun _ _ => true) fifoSel wfC7) a = some Status.failed ∨
           statusOf (runSequential (fun _ _ => true) fifoSel wfC7) a = some Status.skipped))) ∧
    ((∀ k ∈ akeys wfC7.steps,
        statusOf (runSequential (fun _ _ => true) fifoSel wfC7) k ≠ some Status.failed ∧
        statusOf (runSequential (fun _ _ => true) fifoSel wfC7) k ≠ some Status.skipped) →
      ∀ k ∈ akeys wfC7.steps,
        statusOf (runSequential (fun _ _ => true) fifoSel wfC7) k = some Status.success) :=
  C7_drain (fun _ _ => true) wfC7
    (WFGraph_of_B (by decide) (by decide) (by decide) (by decide) (by decide))
    (by unfold Fresh; decide) wfC7_acyclic

end SynthWF
